import Mathlib

/-!
Verification of the `inline-array` crate (`src/lib.rs`): a shallow embedding
of the `InlineArray` byte-array value type and its heap protocol.

An `InlineArray` is an 8-byte word (`[u8; SZ]`, `repr(align(8))`).  The low
2 bits of its last byte are a variant tag.  Remote variants store a pointer
to a heap allocation in the word (little-endian byte order, as on the
x86-64 / aarch64 targets the crate runs on); the tag bits overlay the low
2 bits of the last (most significant) byte.  The heap is modelled
explicitly as an association list from the pointed-to address (the
SmallRemote trailer address, resp. the BigRemote header address) to a
structured view of the allocation: trailer/header fields plus the payload
bytes.  Machine integers are `Nat` with explicit bounds and wrap-around
(`% 256`, `% 65536`) where the source relies on fixed-width arithmetic.
-/

namespace InlineArr

/-- `size_of::<usize>()` on the 64-bit targets the crate supports. -/
def SZ : Nat := 8

/-- `const INLINE_CUTOFF: usize = SZ - 1`. -/
def INLINE_CUTOFF : Nat := SZ - 1

/-- `const SMALL_REMOTE_CUTOFF: usize = u8::MAX as usize`. -/
def SMALL_REMOTE_CUTOFF : Nat := 255

/-- `const BIG_REMOTE_LEN_BYTES: usize = 6`. -/
def BIG_REMOTE_LEN_BYTES : Nat := 6

def INLINE_TRAILER_TAG : Nat := 0
def SMALL_REMOTE_TRAILER_TAG : Nat := 1
def BIG_REMOTE_TRAILER_TAG : Nat := 2
def TRAILER_TAG_MASK : Nat := 3
def TRAILER_PTR_MASK : Nat := 252

/-- `enum Kind { Inline, SmallRemote, BigRemote }`. -/
inductive Kind
  | Inline
  | SmallRemote
  | BigRemote
deriving DecidableEq

/-- `pub struct InlineArray([u8; SZ])` — the 8-byte tagged word.
The list holds the 8 bytes, index 0 first; each entry is a `u8`
(kept `< 256` by the well-formedness predicates). -/
structure InlineArray where
  data : List Nat
deriving DecidableEq

/-- `struct SmallRemoteTrailer { rc: AtomicU8, len: u8 }`. -/
structure SmallRemoteTrailer where
  rc : Nat
  len : Nat
deriving DecidableEq

/-- `struct BigRemoteHeader { rc: AtomicU16, len: [u8; BIG_REMOTE_LEN_BYTES] }`. -/
structure BigRemoteHeader where
  rc : Nat
  len : List Nat
deriving DecidableEq

/-- Little-endian value of a byte list (first byte is least significant). -/
def bytesToNatLE : List Nat → Nat
  | [] => 0
  | b :: bs => b + 256 * bytesToNatLE bs

/-- `n.to_le_bytes()` truncated to `k` bytes: the little-endian byte
decomposition used by `write_unaligned` of a pointer / `usize::to_le_bytes`. -/
def natToBytesLE : Nat → Nat → List Nat
  | _, 0 => []
  | n, k + 1 => n % 256 :: natToBytesLE (n / 256) k

/-- `BigRemoteHeader::len(&self) -> usize`: `usize::from_le_bytes` of the six
stored bytes padded with two zero bytes. -/
def BigRemoteHeader.lenVal (hd : BigRemoteHeader) : Nat :=
  bytesToNatLE (hd.len ++ [0, 0])

/-- A heap allocation as seen through its trailer/header address. -/
inductive HObj
  | small (t : SmallRemoteTrailer) (payload : List Nat)
  | big (hd : BigRemoteHeader) (payload : List Nat)
deriving DecidableEq

/-- The heap: association list from the address stored (after untagging) in a
remote `InlineArray` word — the trailer address for a small allocation
(= allocation base + payload length), the header address (= allocation base)
for a big one — to the allocation contents. -/
abbrev Heap : Type := List (Nat × HObj)

def hLookup : Heap → Nat → Option HObj
  | [], _ => none
  | (q, o) :: t, p => if q = p then some o else hLookup t p

def hUpdate : Heap → Nat → HObj → Heap
  | [], _, _ => []
  | (q, o₀) :: t, p, o => if q = p then (q, o) :: t else (q, o₀) :: hUpdate t p o

/-- Deallocation removes the allocation at address `p`. -/
def hRemove : Heap → Nat → Heap
  | [], _ => []
  | (q, o) :: t, p => if q = p then hRemove t p else (q, o) :: hRemove t p

def keysOf (h : Heap) : List Nat :=
  h.map (fun e => e.1)

/-- `self.0[SZ - 1]` — the last byte of the word. -/
def inline_trailer (v : InlineArray) : Nat :=
  v.data.getD (SZ - 1) 0

/-- `self.inline_trailer() & TRAILER_TAG_MASK`. -/
def tagOf (v : InlineArray) : Nat :=
  inline_trailer v &&& TRAILER_TAG_MASK

/-- `InlineArray::kind`.  The `_other` arm of the source match is
`unreachable_unchecked()` (undefined behavior), modelled as `none`. -/
def kind (v : InlineArray) : Option Kind :=
  if tagOf v = INLINE_TRAILER_TAG then some Kind.Inline
  else if tagOf v = SMALL_REMOTE_TRAILER_TAG then some Kind.SmallRemote
  else if tagOf v = BIG_REMOTE_TRAILER_TAG then some Kind.BigRemote
  else none

/-- `self.inline_trailer() >> 2`. -/
def inline_len (v : InlineArray) : Nat :=
  inline_trailer v >>> 2

/-- `InlineArray::remote_ptr`: copy the word, clear the low 2 bits of its
last byte (`&= TRAILER_PTR_MASK`), read the result as a (little-endian)
pointer. -/
def remote_ptr (v : InlineArray) : Nat :=
  bytesToNatLE (v.data.set (SZ - 1) (inline_trailer v &&& TRAILER_PTR_MASK))

/-- `InlineArray::deref_small_trailer` — reads the `SmallRemoteTrailer` at
`remote_ptr`; `none` when no small allocation lives there (UB in the source). -/
def deref_small_trailer (h : Heap) (v : InlineArray) : Option SmallRemoteTrailer :=
  match hLookup h (remote_ptr v) with
  | some (HObj.small t _) => some t
  | _ => none

/-- `InlineArray::deref_big_header`. -/
def deref_big_header (h : Heap) (v : InlineArray) : Option BigRemoteHeader :=
  match hLookup h (remote_ptr v) with
  | some (HObj.big hd _) => some hd
  | _ => none

/-- `Deref::deref` — the read view.
Inline: `&self.0[..self.inline_len()]`.
SmallRemote: `len` bytes ending at the trailer address (`remote_ptr - len`),
i.e. the suffix of the allocated payload of length `trailer.len`.
BigRemote: `len` bytes starting at `remote_ptr + size_of::<BigRemoteHeader>()`,
i.e. the first `header.len()` bytes of the allocated payload.
Out-of-allocation reads (UB in the source) are `none`. -/
def derefIA (h : Heap) (v : InlineArray) : Option (List Nat) :=
  match kind v with
  | some Kind.Inline => some (v.data.take (inline_len v))
  | some Kind.SmallRemote =>
    match hLookup h (remote_ptr v) with
    | some (HObj.small t payload) =>
      if t.len ≤ payload.length then
        some (payload.drop (payload.length - t.len))
      else none
    | _ => none
  | some Kind.BigRemote =>
    match hLookup h (remote_ptr v) with
    | some (HObj.big hd payload) =>
      if hd.lenVal ≤ payload.length then
        some (payload.take hd.lenVal)
      else none
    | _ => none
  | none => none

/-- `InlineArray::new`.  `base` is the address the allocator returns for the
remote branches (the model's stand-in for `alloc(layout)`); the heap is
threaded explicitly.  `none` models a failed source assertion (panic):
the two `assert_eq!(slice_len_buf[6|7], 0)` length asserts in the big
branch and the `assert_eq!(data[SZ - 1] & 0b111, 0)` top-byte asserts. -/
def new (slice : List Nat) (base : Nat) (h : Heap) : Option (InlineArray × Heap) :=
  let data0 : List Nat := List.replicate SZ 0
  if slice.length ≤ INLINE_CUTOFF then
    -- data[SZ - 1] = (len as u8) << 2; data[..len].copy_from_slice(slice);
    -- data[SZ - 1] |= INLINE_TRAILER_TAG;
    let data1 := data0.set (SZ - 1) (slice.length <<< 2)
    let data2 := slice ++ data1.drop slice.length
    let data3 := data2.set (SZ - 1) (data2.getD (SZ - 1) 0 ||| INLINE_TRAILER_TAG)
    some (⟨data3⟩, h)
  else if slice.length ≤ SMALL_REMOTE_CUTOFF then
    -- trailer { rc: 1, len }; trailer_ptr = data_ptr.add(len);
    -- write_unaligned(data, trailer_ptr); assert data[SZ-1] & 0b111 == 0;
    -- data[SZ - 1] |= SMALL_REMOTE_TRAILER_TAG;
    let trailer : SmallRemoteTrailer := { rc := 1, len := slice.length }
    let trailer_ptr := base + slice.length
    let data1 := natToBytesLE trailer_ptr SZ
    if data1.getD (SZ - 1) 0 &&& 7 = 0 then
      let data2 := data1.set (SZ - 1) (data1.getD (SZ - 1) 0 ||| SMALL_REMOTE_TRAILER_TAG)
      some (⟨data2⟩, (trailer_ptr, HObj.small trailer slice) :: h)
    else none
  else
    -- len: [u8; 6] from slice.len().to_le_bytes(); assert bytes 6 and 7 zero;
    -- header { rc: 1, len }; write_unaligned(data, header_ptr);
    -- assert data[SZ-1] & 0b111 == 0; data[SZ - 1] |= BIG_REMOTE_TRAILER_TAG;
    let slice_len_buf := natToBytesLE slice.length 8
    if slice_len_buf.getD 6 0 = 0 ∧ slice_len_buf.getD 7 0 = 0 then
      let header : BigRemoteHeader := { rc := 1, len := slice_len_buf.take BIG_REMOTE_LEN_BYTES }
      let header_ptr := base
      let data1 := natToBytesLE header_ptr SZ
      if data1.getD (SZ - 1) 0 &&& 7 = 0 then
        let data2 := data1.set (SZ - 1) (data1.getD (SZ - 1) 0 ||| BIG_REMOTE_TRAILER_TAG)
        some (⟨data2⟩, (header_ptr, HObj.big header slice) :: h)
      else none
    else none

/-- `Clone::clone`.  In this sequential model the relaxed CAS loop always
succeeds on the first iteration, so: observe the refcount; at the maximum,
take the fallback `InlineArray::from(self.deref())` (a fresh allocation at
`freshBase`); otherwise store `rc + 1` and return a bit-copy of the word. -/
def clone (h : Heap) (v : InlineArray) (freshBase : Nat) : Option (InlineArray × Heap) :=
  match kind v with
  | some Kind.SmallRemote =>
    match hLookup h (remote_ptr v) with
    | some (HObj.small t payload) =>
      if t.rc = 255 then
        match derefIA h v with
        | some s => new s freshBase h
        | none => none
      else
        some (v, hUpdate h (remote_ptr v) (HObj.small { rc := t.rc + 1, len := t.len } payload))
    | _ => none
  | some Kind.BigRemote =>
    match hLookup h (remote_ptr v) with
    | some (HObj.big hd payload) =>
      if hd.rc = 65535 then
        match derefIA h v with
        | some s => new s freshBase h
        | none => none
      else
        some (v, hUpdate h (remote_ptr v) (HObj.big { rc := hd.rc + 1, len := hd.len } payload))
    | _ => none
  | some Kind.Inline => some (v, h)
  | none => none

/-- `Drop::drop`.  Returns the heap afterwards together with the
`dealloc(ptr, layout)` call issued on the zero transition, as
`(ptr, size, align)`.  `fetch_sub(1)` wraps like the source atomics. -/
def dropIA (h : Heap) (v : InlineArray) : Option (Heap × Option (Nat × Nat × Nat)) :=
  match kind v with
  | some Kind.Inline => some (h, none)
  | some Kind.SmallRemote =>
    match hLookup h (remote_ptr v) with
    | some (HObj.small t payload) =>
      let rc := (t.rc + 255) % 256
      if rc = 0 then
        -- layout = (trailer.len() + size_of::<SmallRemoteTrailer>(), 8);
        -- ptr = remote_ptr().sub(trailer.len())
        some (hRemove h (remote_ptr v), some (remote_ptr v - t.len, t.len + 2, 8))
      else
        some (hUpdate h (remote_ptr v) (HObj.small { rc := rc, len := t.len } payload), none)
    | _ => none
  | some Kind.BigRemote =>
    match hLookup h (remote_ptr v) with
    | some (HObj.big hd payload) =>
      let rc := (hd.rc + 65535) % 65536
      if rc = 0 then
        -- layout = (header.len() + size_of::<BigRemoteHeader>(), 8); ptr = remote_ptr()
        some (hRemove h (remote_ptr v), some (remote_ptr v, hd.lenVal + 8, 8))
      else
        some (hUpdate h (remote_ptr v) (HObj.big { rc := rc, len := hd.len } payload), none)
    | _ => none
  | none => none

/-- `InlineArray::make_mut`.  Returns the (possibly replaced) value, the heap,
and the bytes visible through the returned `&mut [u8]`.  In the remote arms,
when the refcount is not 1 the source executes
`*self = InlineArray::from(self.deref())` — a fresh allocation (at
`freshBase`) followed by the drop of the overwritten old value — and then
rereads the trailer/header to build the returned slice. -/
def make_mut (h : Heap) (v : InlineArray) (freshBase : Nat) :
    Option (InlineArray × Heap × List Nat) :=
  match kind v with
  | some Kind.Inline => some (v, h, v.data.take (inline_len v))
  | some Kind.SmallRemote =>
    match deref_small_trailer h v with
    | none => none
    | some t =>
      if t.rc ≠ 1 then
        match derefIA h v with
        | none => none
        | some s =>
          match new s freshBase h with
          | none => none
          | some (v₁, h₁) =>
            match dropIA h₁ v with
            | none => none
            | some (h₂, _) =>
              match derefIA h₂ v₁ with
              | some slice => some (v₁, h₂, slice)
              | none => none
      else
        match derefIA h v with
        | some slice => some (v, h, slice)
        | none => none
  | some Kind.BigRemote =>
    match deref_big_header h v with
    | none => none
    | some hd =>
      if hd.rc ≠ 1 then
        match derefIA h v with
        | none => none
        | some s =>
          match new s freshBase h with
          | none => none
          | some (v₁, h₁) =>
            match dropIA h₁ v with
            | none => none
            | some (h₂, _) =>
              match derefIA h₂ v₁ with
              | some slice => some (v₁, h₂, slice)
              | none => none
      else
        match derefIA h v with
        | some slice => some (v, h, slice)
        | none => none
  | none => none

/-- A single store `slice[i] = b` through the mutable slice `make_mut`
returned.  For the inline variant the store lands in the word itself; for
the remote variants it lands at `data_ptr + i` inside the allocation. -/
def writeThrough (h : Heap) (v : InlineArray) (i b : Nat) :
    Option (InlineArray × Heap) :=
  match kind v with
  | some Kind.Inline =>
    if i < inline_len v then some (⟨v.data.set i b⟩, h) else none
  | some Kind.SmallRemote =>
    match hLookup h (remote_ptr v) with
    | some (HObj.small t payload) =>
      if i < t.len ∧ t.len ≤ payload.length then
        some (v, hUpdate h (remote_ptr v)
          (HObj.small t (payload.set (payload.length - t.len + i) b)))
      else none
    | _ => none
  | some Kind.BigRemote =>
    match hLookup h (remote_ptr v) with
    | some (HObj.big hd payload) =>
      if i < hd.lenVal ∧ hd.lenVal ≤ payload.length then
        some (v, hUpdate h (remote_ptr v) (HObj.big hd (payload.set i b)))
      else none
    | _ => none
  | none => none

/-- The address at which the read view starts.  `selfAddr` is the address of
the `InlineArray` value itself (8-byte aligned by `repr(align(8))`); the
inline view is a slice of the word, the remote views start at
`remote_ptr - len` resp. `remote_ptr + size_of::<BigRemoteHeader>()`. -/
def viewAddr (h : Heap) (v : InlineArray) (selfAddr : Nat) : Option Nat :=
  match kind v with
  | some Kind.Inline => some selfAddr
  | some Kind.SmallRemote =>
    match deref_small_trailer h v with
    | some t => some (remote_ptr v - t.len)
    | none => none
  | some Kind.BigRemote =>
    match deref_big_header h v with
    | some _ => some (remote_ptr v + 8)
    | none => none
  | none => none

/-- `PartialEq` for `InlineArray` values: `self.as_ref() == other.as_ref()`,
byte equality of the two read views. -/
def eqIA (h : Heap) (v w : InlineArray) : Bool :=
  derefIA h v == derefIA h w

/-- `PartialEq<[u8]>`: `self.as_ref() == other`. -/
def eqSlice (h : Heap) (v : InlineArray) (s : List Nat) : Bool :=
  derefIA h v == some s

/-- `Hash::hash`: `self.deref().hash(state)` — the hash of an `InlineArray`
under any byte-slice hasher `hf` is the hash of its read view. -/
def hashIA (hf : List Nat → Nat) (h : Heap) (v : InlineArray) : Option Nat :=
  (derefIA h v).map hf

/-! ## Well-formedness -/

def noDupKeys : Heap → Bool
  | [] => true
  | (q, _) :: t => !(t.map (fun e => e.1)).contains q && noDupKeys t

/-- Invariants of a live small allocation keyed at trailer address `p`:
the trailer length equals the allocated payload length and is in the
SmallRemote range, the refcount is a live `u8` (`1..=255`), and the
allocation base `p - len` is the 8-byte-aligned address `alloc` returned. -/
def smallEntryOK (p : Nat) (t : SmallRemoteTrailer) (payload : List Nat) : Bool :=
  (t.len == payload.length) && decide (8 ≤ t.len) && decide (t.len ≤ 255) &&
  decide (1 ≤ t.rc) && decide (t.rc ≤ 255) && decide (t.len ≤ p) &&
  ((p - t.len) % 8 == 0) && payload.all (fun b => b < 256)

/-- Invariants of a live big allocation keyed at header address `p`. -/
def bigEntryOK (p : Nat) (hd : BigRemoteHeader) (payload : List Nat) : Bool :=
  (hd.lenVal == payload.length) && (hd.len.length == 6) &&
  decide (256 ≤ payload.length) && decide (payload.length < 2 ^ 48) &&
  decide (1 ≤ hd.rc) && decide (hd.rc ≤ 65535) && (p % 8 == 0) &&
  payload.all (fun b => b < 256)

def entryOK : Nat × HObj → Bool
  | (p, HObj.small t payload) => smallEntryOK p t payload
  | (p, HObj.big hd payload) => bigEntryOK p hd payload

def heapWF (h : Heap) : Bool :=
  noDupKeys h && h.all entryOK

/-- A live `InlineArray` word is valid against the heap: 8 bytes, each a
`u8`; its tag is one of the three defined tags; an inline word's length
field is at most `INLINE_CUTOFF`; a remote word's untagged pointer resolves
to an allocation of the matching shape. -/
def validVal (h : Heap) (v : InlineArray) : Bool :=
  (v.data.length == SZ) && v.data.all (fun b => b < 256) &&
  match kind v with
  | some Kind.Inline => decide (inline_len v ≤ INLINE_CUTOFF)
  | some Kind.SmallRemote =>
    match hLookup h (remote_ptr v) with
    | some (HObj.small _ _) => true
    | _ => false
  | some Kind.BigRemote =>
    match hLookup h (remote_ptr v) with
    | some (HObj.big _ _) => true
    | _ => false
  | none => false

/-- Does the live value `v` co-own the allocation at address `p`? -/
def pointsTo (v : InlineArray) (p : Nat) : Bool :=
  match kind v with
  | some Kind.SmallRemote => remote_ptr v == p
  | some Kind.BigRemote => remote_ptr v == p
  | _ => false

def rcOf : HObj → Nat
  | HObj.small t _ => t.rc
  | HObj.big hd _ => hd.rc

/-- The number of live values sharing the allocation at `p`. -/
def refsTo (live : List InlineArray) (p : Nat) : Nat :=
  live.countP (fun v => pointsTo v p)

/-- A whole-program state: the heap plus the multiset of live
`InlineArray` values. -/
structure Sys where
  heap : Heap
  live : List InlineArray
deriving DecidableEq

def countsOK (s : Sys) : Bool :=
  s.heap.all (fun e => rcOf e.2 == refsTo s.live e.1)

/-- Global invariant: heap entries are well formed, live values are valid,
and each allocation's refcount equals its number of live sharers. -/
def sysWF (s : Sys) : Bool :=
  heapWF s.heap && s.live.all (fun v => validVal s.heap v) && countsOK s

/-- `base` is a base address the allocator may return for an allocation of
payload length `len`: 8-byte aligned, low enough that the stored pointer
fits strictly below bit 56 (so the word's top byte is free for the tag),
and — for the remote branches — keyed at a fresh heap address. -/
def allocOK (h : Heap) (len base : Nat) : Bool :=
  (base % 8 == 0) && decide (base + len + 8 ≤ 2 ^ 56) &&
  (if len ≤ INLINE_CUTOFF then true
   else if len ≤ SMALL_REMOTE_CUTOFF then !(keysOf h).contains (base + len)
   else !(keysOf h).contains base)

/-! ## System-level operations -/

def newSys (s : Sys) (slice : List Nat) (base : Nat) : Option Sys :=
  match new slice base s.heap with
  | some (v, h₁) => some ⟨h₁, s.live ++ [v]⟩
  | none => none

def cloneSys (s : Sys) (i : Nat) (freshBase : Nat) : Option Sys :=
  match s.live.get? i with
  | none => none
  | some v =>
    match clone s.heap v freshBase with
    | some (v₁, h₁) => some ⟨h₁, s.live ++ [v₁]⟩
    | none => none

def dropSys (s : Sys) (i : Nat) : Option (Sys × Option (Nat × Nat × Nat)) :=
  match s.live.get? i with
  | none => none
  | some v =>
    match dropIA s.heap v with
    | some (h₁, info) => some (⟨h₁, s.live.eraseIdx i⟩, info)
    | none => none

def makeMutSys (s : Sys) (i : Nat) (freshBase : Nat) : Option (Sys × List Nat) :=
  match s.live.get? i with
  | none => none
  | some v =>
    match make_mut s.heap v freshBase with
    | some (v₁, h₁, slice) => some (⟨h₁, s.live.set i v₁⟩, slice)
    | none => none

def writeSys (s : Sys) (i j b : Nat) : Option Sys :=
  match s.live.get? i with
  | none => none
  | some v =>
    match writeThrough s.heap v j b with
    | some (v₁, h₁) => some ⟨h₁, s.live.set i v₁⟩
    | none => none

/-- Length of the read view (0 for an invalid value). -/
def viewLen (h : Heap) (v : InlineArray) : Nat :=
  ((derefIA h v).getD []).length

/-! ## Byte-encoding lemmas -/

theorem natToBytesLE_length : ∀ (k n : Nat), (natToBytesLE n k).length = k := by
  intro k
  induction k with
  | zero => intro n; rfl
  | succ k ih => intro n; simp [natToBytesLE, ih]

theorem natToBytesLE_all_lt : ∀ (k n : Nat), (natToBytesLE n k).all (fun b => b < 256) = true := by
  intro k
  induction k with
  | zero => intro n; rfl
  | succ k ih =>
    intro n
    simp only [natToBytesLE, List.all_cons, Bool.and_eq_true, decide_eq_true_eq]
    exact ⟨Nat.mod_lt _ (by omega), ih (n / 256)⟩

theorem bytesToNatLE_natToBytesLE : ∀ (k n : Nat), n < 2 ^ (8 * k) →
    bytesToNatLE (natToBytesLE n k) = n := by
  intro k
  induction k with
  | zero =>
    intro n hn
    simp only [Nat.mul_zero, pow_zero, Nat.lt_one_iff] at hn
    simp [hn, natToBytesLE, bytesToNatLE]
  | succ k ih =>
    intro n hn
    have hdiv : n / 256 < 2 ^ (8 * k) := by
      have h2 : (2 : Nat) ^ (8 * (k + 1)) = 2 ^ (8 * k) * 256 := by ring
      rw [h2] at hn
      exact Nat.div_lt_of_lt_mul (by omega)
    simp only [natToBytesLE, bytesToNatLE, ih (n / 256) hdiv]
    omega

theorem natToBytesLE_succ_split : ∀ (k n : Nat),
    natToBytesLE n (k + 1) = natToBytesLE n k ++ [n / 2 ^ (8 * k) % 256] := by
  intro k
  induction k with
  | zero => intro n; simp [natToBytesLE]
  | succ k ih =>
    intro n
    have h1 : natToBytesLE n (k + 1 + 1) = n % 256 :: natToBytesLE (n / 256) (k + 1) := rfl
    rw [h1, ih (n / 256)]
    have h2 : n / 256 / 2 ^ (8 * k) = n / 2 ^ (8 * (k + 1)) := by
      rw [Nat.div_div_eq_div_mul]
      congr 1
      ring
    rw [h2]
    rfl

theorem getD_natToBytesLE : ∀ (k i n : Nat), i < k →
    (natToBytesLE n k).getD i 0 = n / 2 ^ (8 * i) % 256 := by
  intro k
  induction k with
  | zero => intro i n h; omega
  | succ k ih =>
    intro i n h
    cases i with
    | zero => simp [natToBytesLE]
    | succ i =>
      have h2 : (natToBytesLE n (k + 1)).getD (i + 1) 0 =
          (natToBytesLE (n / 256) k).getD i 0 := rfl
      rw [h2, ih i (n / 256) (by omega), Nat.div_div_eq_div_mul]
      congr 2
      ring

theorem natToBytesLE_take : ∀ (k j n : Nat), j ≤ k →
    (natToBytesLE n k).take j = natToBytesLE n j := by
  intro k
  induction k with
  | zero => intro j n h; interval_cases j; rfl
  | succ k ih =>
    intro j n h
    cases j with
    | zero => rfl
    | succ j => simp [natToBytesLE, List.take_succ_cons, ih j (n / 256) (by omega)]

theorem bytesToNatLE_append_two_zeros : ∀ (l : List Nat),
    bytesToNatLE (l ++ [0, 0]) = bytesToNatLE l := by
  intro l
  induction l with
  | nil => rfl
  | cons b t ih => simp [bytesToNatLE, ih]

theorem set_append_length (l : List Nat) (a b : Nat) :
    (l ++ [a]).set l.length b = l ++ [b] := by
  induction l with
  | nil => rfl
  | cons x t ih => simp [List.set, ih]

theorem getD_append_length (l : List Nat) (a d : Nat) :
    (l ++ [a]).getD l.length d = a := by
  induction l with
  | nil => rfl
  | cons x t ih => simp [ih]

theorem set_append_at (l : List Nat) (a b n : Nat) (hl : l.length = n) :
    (l ++ [a]).set n b = l ++ [b] := by
  subst hl; exact set_append_length l a b

theorem getD_append_at (l : List Nat) (a d n : Nat) (hl : l.length = n) :
    (l ++ [a]).getD n d = a := by
  subst hl; exact getD_append_length l a d

theorem take_append_at (l : List Nat) (a n : Nat) (hl : l.length = n) :
    (l ++ [a]).take n = l := by
  subst hl
  rw [List.take_append_of_le_length (le_refl _), List.take_length]

/-! ## The exact words `new` builds -/

/-- The word of a freshly built SmallRemote value whose trailer lives at `p`
(`p < 2 ^ 56`): the little-endian bytes of `p`, the tag in the top byte. -/
def smallWord (p : Nat) : InlineArray :=
  ⟨natToBytesLE p 7 ++ [SMALL_REMOTE_TRAILER_TAG]⟩

/-- The word of a freshly built BigRemote value whose header lives at `p`. -/
def bigWord (p : Nat) : InlineArray :=
  ⟨natToBytesLE p 7 ++ [BIG_REMOTE_TRAILER_TAG]⟩

/-- The word of a freshly built Inline value. -/
def inlineWord (slice : List Nat) : InlineArray :=
  ⟨slice ++ List.replicate (7 - slice.length) 0 ++ [slice.length <<< 2]⟩

theorem natToBytesLE_8_of_lt (p : Nat) (hp : p < 2 ^ 56) :
    natToBytesLE p 8 = natToBytesLE p 7 ++ [0] := by
  have h := natToBytesLE_succ_split 7 p
  rw [h, Nat.div_eq_of_lt (by norm_num at hp ⊢; omega)]

theorem inline_trailer_smallWord (p : Nat) :
    inline_trailer (smallWord p) = SMALL_REMOTE_TRAILER_TAG := by
  have h7 : (natToBytesLE p 7).length = 7 := natToBytesLE_length 7 p
  simp only [inline_trailer, smallWord, SZ]
  rw [show (8 - 1) = (natToBytesLE p 7).length from h7.symm]
  exact getD_append_length _ _ _

theorem inline_trailer_bigWord (p : Nat) :
    inline_trailer (bigWord p) = BIG_REMOTE_TRAILER_TAG := by
  have h7 : (natToBytesLE p 7).length = 7 := natToBytesLE_length 7 p
  simp only [inline_trailer, bigWord, SZ]
  rw [show (8 - 1) = (natToBytesLE p 7).length from h7.symm]
  exact getD_append_length _ _ _

theorem kind_smallWord (p : Nat) : kind (smallWord p) = some Kind.SmallRemote := by
  simp [kind, tagOf, inline_trailer_smallWord, SMALL_REMOTE_TRAILER_TAG,
    INLINE_TRAILER_TAG, TRAILER_TAG_MASK]

theorem kind_bigWord (p : Nat) : kind (bigWord p) = some Kind.BigRemote := by
  simp only [kind, tagOf, inline_trailer_bigWord]
  decide

theorem remote_ptr_smallWord (p : Nat) (hp : p < 2 ^ 56) :
    remote_ptr (smallWord p) = p := by
  have ht : inline_trailer (smallWord p) = SMALL_REMOTE_TRAILER_TAG :=
    inline_trailer_smallWord p
  have h7 : (natToBytesLE p 7).length = 7 := natToBytesLE_length 7 p
  have hmask : SMALL_REMOTE_TRAILER_TAG &&& TRAILER_PTR_MASK = 0 := by decide
  simp only [remote_ptr, ht, hmask]
  show bytesToNatLE ((natToBytesLE p 7 ++ [SMALL_REMOTE_TRAILER_TAG]).set (SZ - 1) 0) = p
  rw [show SZ - 1 = (natToBytesLE p 7).length from by rw [h7]; decide, set_append_length,
    ← natToBytesLE_8_of_lt p hp]
  exact bytesToNatLE_natToBytesLE 8 p (by norm_num at hp ⊢; omega)

theorem remote_ptr_bigWord (p : Nat) (hp : p < 2 ^ 56) :
    remote_ptr (bigWord p) = p := by
  have ht : inline_trailer (bigWord p) = BIG_REMOTE_TRAILER_TAG :=
    inline_trailer_bigWord p
  have h7 : (natToBytesLE p 7).length = 7 := natToBytesLE_length 7 p
  have hmask : BIG_REMOTE_TRAILER_TAG &&& TRAILER_PTR_MASK = 0 := by decide
  simp only [remote_ptr, ht, hmask]
  show bytesToNatLE ((natToBytesLE p 7 ++ [BIG_REMOTE_TRAILER_TAG]).set (SZ - 1) 0) = p
  rw [show SZ - 1 = (natToBytesLE p 7).length from by rw [h7]; decide, set_append_length,
    ← natToBytesLE_8_of_lt p hp]
  exact bytesToNatLE_natToBytesLE 8 p (by norm_num at hp ⊢; omega)

theorem inline_shift_facts : ∀ L < 8,
    (L <<< 2) &&& TRAILER_TAG_MASK = 0 ∧ (L <<< 2) >>> 2 = L ∧ L <<< 2 < 256 := by
  decide

theorem inline_trailer_inlineWord (slice : List Nat) (h : slice.length ≤ 7) :
    inline_trailer (inlineWord slice) = slice.length <<< 2 := by
  have hlen : (slice ++ List.replicate (7 - slice.length) 0).length = 7 := by
    simp; omega
  simp only [inline_trailer, inlineWord, SZ, ← List.append_assoc]
  rw [show (8 - 1) = (slice ++ List.replicate (7 - slice.length) 0).length from hlen.symm]
  exact getD_append_length _ _ _

theorem kind_inlineWord (slice : List Nat) (h : slice.length ≤ 7) :
    kind (inlineWord slice) = some Kind.Inline := by
  have hf := (inline_shift_facts slice.length (by omega)).1
  simp [kind, tagOf, inline_trailer_inlineWord slice h, INLINE_TRAILER_TAG, hf]

theorem inline_len_inlineWord (slice : List Nat) (h : slice.length ≤ 7) :
    inline_len (inlineWord slice) = slice.length := by
  have hf := (inline_shift_facts slice.length (by omega)).2.1
  simp [inline_len, inline_trailer_inlineWord slice h, hf]

theorem derefIA_inlineWord (h : Heap) (slice : List Nat) (hs : slice.length ≤ 7) :
    derefIA h (inlineWord slice) = some slice := by
  simp only [derefIA, kind_inlineWord slice hs, inline_len_inlineWord slice hs]
  congr 1
  simp only [inlineWord, List.append_assoc]
  rw [List.take_append_of_le_length (le_refl _), List.take_length]

/-! ## Specification of `new` on each length range -/

theorem new_eq_inline (slice : List Nat) (base : Nat) (h : Heap)
    (hs : slice.length ≤ 7) :
    new slice base h = some (inlineWord slice, h) := by
  have hcut : slice.length ≤ INLINE_CUTOFF := by
    simp only [INLINE_CUTOFF, SZ]; omega
  simp only [new, if_pos hcut]
  congr 2
  have hrep : (List.replicate SZ (0 : Nat)).set (SZ - 1) (slice.length <<< 2) =
      List.replicate 7 0 ++ [slice.length <<< 2] := by
    simp [SZ, List.replicate]
  rw [hrep]
  have hdrop : (List.replicate 7 (0 : Nat) ++ [slice.length <<< 2]).drop slice.length =
      List.replicate (7 - slice.length) 0 ++ [slice.length <<< 2] := by
    rw [List.drop_append_of_le_length (by simp [hs]), List.drop_replicate]
  rw [hdrop]
  have hlen7 : (slice ++ List.replicate (7 - slice.length) (0 : Nat)).length = 7 := by
    simp; omega
  have hgd : (slice ++ (List.replicate (7 - slice.length) (0 : Nat) ++
      [slice.length <<< 2])).getD (SZ - 1) 0 = slice.length <<< 2 := by
    rw [← List.append_assoc,
      show SZ - 1 = (slice ++ List.replicate (7 - slice.length) (0 : Nat)).length from by
        rw [hlen7]; decide]
    exact getD_append_length _ _ _
  rw [hgd]
  have hor : slice.length <<< 2 ||| INLINE_TRAILER_TAG = slice.length <<< 2 := by
    simp [INLINE_TRAILER_TAG]
  rw [hor, ← List.append_assoc,
    show SZ - 1 = (slice ++ List.replicate (7 - slice.length) (0 : Nat)).length from by
      rw [hlen7]; decide,
    set_append_length]
  simp [inlineWord]

theorem new_eq_small (slice : List Nat) (base : Nat) (h : Heap)
    (h8 : 8 ≤ slice.length) (h255 : slice.length ≤ 255)
    (hp : base + slice.length < 2 ^ 56) :
    new slice base h = some (smallWord (base + slice.length),
      (base + slice.length, HObj.small { rc := 1, len := slice.length } slice) :: h) := by
  have hn1 : ¬ slice.length ≤ INLINE_CUTOFF := by
    simp only [INLINE_CUTOFF, SZ]; omega
  have hc2 : slice.length ≤ SMALL_REMOTE_CUTOFF := by
    simp only [SMALL_REMOTE_CUTOFF]; omega
  have hsplit := natToBytesLE_8_of_lt (base + slice.length) hp
  have hgd : (natToBytesLE (base + slice.length) SZ).getD (SZ - 1) 0 = 0 := by
    show (natToBytesLE (base + slice.length) 8).getD 7 0 = 0
    rw [hsplit, show (7 : Nat) = (natToBytesLE (base + slice.length) 7).length from
      (natToBytesLE_length 7 _).symm]
    exact getD_append_length _ _ _
  simp only [new, if_neg hn1, if_pos hc2, hgd]
  rw [if_pos (by decide : (0 : Nat) &&& 7 = 0)]
  have hw : ((natToBytesLE (base + slice.length) SZ).set (SZ - 1)
      (0 ||| SMALL_REMOTE_TRAILER_TAG)) = (smallWord (base + slice.length)).data := by
    show (natToBytesLE (base + slice.length) 8).set 7 (0 ||| SMALL_REMOTE_TRAILER_TAG) = _
    rw [hsplit, set_append_at _ _ _ _ (natToBytesLE_length 7 _)]
    simp [smallWord, SMALL_REMOTE_TRAILER_TAG]
  rw [hw]

theorem new_eq_big (slice : List Nat) (base : Nat) (h : Heap)
    (h256 : 256 ≤ slice.length) (h48 : slice.length < 2 ^ 48)
    (hp : base < 2 ^ 56) :
    new slice base h = some (bigWord base,
      (base, HObj.big { rc := 1, len := natToBytesLE slice.length 6 } slice) :: h) := by
  have hn1 : ¬ slice.length ≤ INLINE_CUTOFF := by
    simp only [INLINE_CUTOFF, SZ]; omega
  have hn2 : ¬ slice.length ≤ SMALL_REMOTE_CUTOFF := by
    simp only [SMALL_REMOTE_CUTOFF]; omega
  have h48n : slice.length < 281474976710656 := by
    have h2 : (2 : Nat) ^ 48 = 281474976710656 := by norm_num
    omega
  have hb6 : (natToBytesLE slice.length 8).getD 6 0 = 0 := by
    rw [getD_natToBytesLE 8 6 _ (by omega)]
    norm_num
    omega
  have hb7 : (natToBytesLE slice.length 8).getD 7 0 = 0 := by
    rw [getD_natToBytesLE 8 7 _ (by omega)]
    norm_num
    omega
  have hsplit := natToBytesLE_8_of_lt base hp
  have hgd : (natToBytesLE base SZ).getD (SZ - 1) 0 = 0 := by
    show (natToBytesLE base 8).getD 7 0 = 0
    rw [hsplit]
    exact getD_append_at _ _ _ _ (natToBytesLE_length 7 _)
  have htake : (natToBytesLE slice.length 8).take BIG_REMOTE_LEN_BYTES =
      natToBytesLE slice.length 6 := by
    show (natToBytesLE slice.length 8).take 6 = _
    exact natToBytesLE_take 8 6 _ (by omega)
  simp only [new, if_neg hn1, if_neg hn2]
  rw [if_pos (by exact ⟨hb6, hb7⟩), hgd, if_pos (by decide : (0 : Nat) &&& 7 = 0)]
  have hw : ((natToBytesLE base SZ).set (SZ - 1) (0 ||| BIG_REMOTE_TRAILER_TAG)) =
      (bigWord base).data := by
    show (natToBytesLE base 8).set 7 (0 ||| BIG_REMOTE_TRAILER_TAG) = _
    rw [hsplit, set_append_at _ _ _ _ (natToBytesLE_length 7 _)]
    simp [bigWord, BIG_REMOTE_TRAILER_TAG]
  rw [hw, htake]

theorem new_eq_none (slice : List Nat) (base : Nat) (h : Heap)
    (h48 : 2 ^ 48 ≤ slice.length) (h64 : slice.length < 2 ^ 64) :
    new slice base h = none := by
  have h48n : 281474976710656 ≤ slice.length := by
    have h2 : (2 : Nat) ^ 48 = 281474976710656 := by norm_num
    omega
  have h64n : slice.length < 18446744073709551616 := by
    have h2 : (2 : Nat) ^ 64 = 18446744073709551616 := by norm_num
    omega
  have hn1 : ¬ slice.length ≤ INLINE_CUTOFF := by
    simp only [INLINE_CUTOFF, SZ]; omega
  have hn2 : ¬ slice.length ≤ SMALL_REMOTE_CUTOFF := by
    simp only [SMALL_REMOTE_CUTOFF]; omega
  have hb6 : (natToBytesLE slice.length 8).getD 6 0 =
      slice.length / 281474976710656 % 256 := by
    rw [getD_natToBytesLE 8 6 _ (by omega)]
    norm_num
  have hb7 : (natToBytesLE slice.length 8).getD 7 0 =
      slice.length / 72057594037927936 % 256 := by
    rw [getD_natToBytesLE 8 7 _ (by omega)]
    norm_num
  have hcond : ¬ ((natToBytesLE slice.length 8).getD 6 0 = 0 ∧
      (natToBytesLE slice.length 8).getD 7 0 = 0) := by
    rw [hb6, hb7]
    omega
  simp only [new, if_neg hn1, if_neg hn2, if_neg hcond]

/-! ## Heap association-list lemmas -/

theorem hLookup_cons (q : Nat) (o : HObj) (h : Heap) (p : Nat) :
    hLookup ((q, o) :: h) p = if q = p then some o else hLookup h p := rfl

theorem hLookup_mem_keys {h : Heap} {p : Nat} {o : HObj}
    (hl : hLookup h p = some o) : p ∈ keysOf h := by
  induction h with
  | nil => simp [hLookup] at hl
  | cons e t ih =>
    obtain ⟨q, o₀⟩ := e
    rw [hLookup_cons] at hl
    by_cases hq : q = p
    · simp [keysOf, hq]
    · rw [if_neg hq] at hl
      simp only [keysOf, List.map_cons, List.mem_cons]
      exact Or.inr (ih hl)

theorem hLookup_of_not_mem_keys {h : Heap} {p : Nat}
    (hnm : p ∉ keysOf h) : hLookup h p = none := by
  cases hl : hLookup h p with
  | none => rfl
  | some o => exact absurd (hLookup_mem_keys hl) hnm

theorem hLookup_hUpdate_self {h : Heap} {p : Nat} {o₀ : HObj} (o : HObj)
    (hl : hLookup h p = some o₀) :
    hLookup (hUpdate h p o) p = some o := by
  induction h with
  | nil => simp [hLookup] at hl
  | cons e t ih =>
    obtain ⟨q, o₁⟩ := e
    rw [hLookup_cons] at hl
    by_cases hq : q = p
    · simp [hUpdate, hq, hLookup_cons]
    · rw [if_neg hq] at hl
      simp only [hUpdate, if_neg hq, hLookup_cons, if_neg hq]
      exact ih hl

theorem hLookup_hUpdate_ne {h : Heap} {p q : Nat} (o : HObj) (hne : q ≠ p) :
    hLookup (hUpdate h p o) q = hLookup h q := by
  induction h with
  | nil => rfl
  | cons e t ih =>
    obtain ⟨r, o₁⟩ := e
    by_cases hr : r = p
    · subst hr
      have hrq : ¬ (r = q) := fun hc => hne hc.symm
      simp [hUpdate, hLookup_cons, hrq]
    · by_cases hrq : r = q
      · subst hrq
        simp [hUpdate, hr, hLookup_cons]
      · simp [hUpdate, hr, hLookup_cons, hrq, ih]

theorem hLookup_hRemove_self (h : Heap) (p : Nat) :
    hLookup (hRemove h p) p = none := by
  induction h with
  | nil => rfl
  | cons e t ih =>
    obtain ⟨q, o⟩ := e
    by_cases hq : q = p
    · simpa [hRemove, hq] using ih
    · simpa [hRemove, hq, hLookup_cons] using ih

theorem hLookup_hRemove_ne {h : Heap} {p q : Nat} (hne : q ≠ p) :
    hLookup (hRemove h p) q = hLookup h q := by
  induction h with
  | nil => rfl
  | cons e t ih =>
    obtain ⟨r, o⟩ := e
    by_cases hr : r = p
    · subst hr
      have hrq : ¬ (r = q) := fun hc => hne hc.symm
      simpa [hRemove, hLookup_cons, hrq] using ih
    · by_cases hrq : r = q
      · subst hrq
        simp [hRemove, hr, hLookup_cons]
      · simpa [hRemove, hr, hLookup_cons, hrq] using ih

theorem keysOf_hUpdate (h : Heap) (p : Nat) (o : HObj) :
    keysOf (hUpdate h p o) = keysOf h := by
  induction h with
  | nil => rfl
  | cons e t ih =>
    obtain ⟨q, o₁⟩ := e
    by_cases hq : q = p
    · simp [hUpdate, hq, keysOf]
    · simp only [hUpdate, if_neg hq, keysOf, List.map_cons]
      show q :: keysOf (hUpdate t p o) = q :: keysOf t
      rw [ih]

theorem mem_hUpdate_elim {h : Heap} {p : Nat} {o : HObj} {e : Nat × HObj} :
    e ∈ hUpdate h p o →
    e ∈ h ∨ (e = (p, o) ∧ ∃ o₀, hLookup h p = some o₀) := by
  induction h with
  | nil => intro hm; simp [hUpdate] at hm
  | cons e₁ t ih =>
    intro hm
    obtain ⟨q, o₁⟩ := e₁
    by_cases hq : q = p
    · subst hq
      simp only [hUpdate, eq_self_iff_true, if_true, List.mem_cons] at hm
      refine hm.elim (fun hma => ?_) (fun hmb => ?_)
      · exact Or.inr ⟨hma, o₁, by simp [hLookup_cons]⟩
      · exact Or.inl (List.mem_cons_of_mem _ hmb)
    · simp only [hUpdate, if_neg hq, List.mem_cons] at hm
      refine hm.elim (fun hma => ?_) (fun hmb => ?_)
      · exact Or.inl (by simp [hma])
      · refine (ih hmb).elim (fun h1 => ?_) (fun h2 => ?_)
        · exact Or.inl (List.mem_cons_of_mem _ h1)
        · obtain ⟨h3, o₀, h4⟩ := h2
          exact Or.inr ⟨h3, o₀, by rwa [hLookup_cons, if_neg hq]⟩

theorem hRemove_sublist : ∀ (h : Heap) (p : Nat), (hRemove h p).Sublist h := by
  intro h p
  induction h with
  | nil => exact List.Sublist.refl _
  | cons e t ih =>
    obtain ⟨q, o⟩ := e
    by_cases hq : q = p
    · rw [show hRemove ((q, o) :: t) p = hRemove t p from by simp [hRemove, hq]]
      exact List.Sublist.cons (q, o) ih
    · rw [show hRemove ((q, o) :: t) p = (q, o) :: hRemove t p from by simp [hRemove, hq]]
      exact List.Sublist.cons₂ (q, o) ih

theorem mem_hRemove_elim {h : Heap} {p : Nat} {e : Nat × HObj}
    (hm : e ∈ hRemove h p) : e ∈ h ∧ e.1 ≠ p := by
  induction h with
  | nil => simp [hRemove] at hm
  | cons e₁ t ih =>
    obtain ⟨q, o⟩ := e₁
    by_cases hq : q = p
    · have hm₂ : e ∈ hRemove t p := by
        have hr : hRemove ((q, o) :: t) p = hRemove t p := by simp [hRemove, hq]
        rwa [hr] at hm
      obtain ⟨h1, h2⟩ := ih hm₂
      exact ⟨List.mem_cons_of_mem _ h1, h2⟩
    · have hr : hRemove ((q, o) :: t) p = (q, o) :: hRemove t p := by
        simp [hRemove, hq]
      rw [hr] at hm
      rcases List.mem_cons.mp hm with hm₁ | hm₁
      · subst hm₁
        exact ⟨List.mem_cons_self _ _, hq⟩
      · obtain ⟨h1, h2⟩ := ih hm₁
        exact ⟨List.mem_cons_of_mem _ h1, h2⟩

/-! ## `noDupKeys` preservation -/

theorem noDupKeys_hUpdate {h : Heap} (p : Nat) (o : HObj)
    (hd : noDupKeys h = true) : noDupKeys (hUpdate h p o) = true := by
  induction h with
  | nil => rfl
  | cons e t ih =>
    obtain ⟨q, o₁⟩ := e
    simp only [noDupKeys, Bool.and_eq_true] at hd
    by_cases hq : q = p
    · simp only [hUpdate, if_pos hq, noDupKeys, Bool.and_eq_true]
      exact hd
    · simp only [hUpdate, if_neg hq, noDupKeys, Bool.and_eq_true]
      refine ⟨?_, ih hd.2⟩
      rw [show (hUpdate t p o).map (fun e => e.1) = keysOf (hUpdate t p o) from rfl,
        keysOf_hUpdate]
      exact hd.1

theorem noDupKeys_sublist {h₁ h₂ : Heap} (hs : h₁.Sublist h₂)
    (hd : noDupKeys h₂ = true) : noDupKeys h₁ = true := by
  induction hs with
  | slnil => rfl
  | cons e hsub ih =>
    obtain ⟨q, o⟩ := e
    simp only [noDupKeys, Bool.and_eq_true] at hd
    exact ih hd.2
  | cons₂ e hsub ih =>
    obtain ⟨q, o⟩ := e
    simp only [noDupKeys, Bool.and_eq_true] at hd ⊢
    refine ⟨?_, ih hd.2⟩
    simp only [Bool.not_eq_true'] at hd ⊢
    simp only [List.contains_eq_any_beq, List.any_eq_false] at hd ⊢
    intro x hx
    exact hd.1 x ((hsub.map (fun e => e.1)).mem hx)

theorem noDupKeys_hRemove {h : Heap} (p : Nat)
    (hd : noDupKeys h = true) : noDupKeys (hRemove h p) = true :=
  noDupKeys_sublist (hRemove_sublist h p) hd

theorem noDupKeys_cons_elim {q : Nat} {o : HObj} {h : Heap}
    (hd : noDupKeys ((q, o) :: h) = true) :
    q ∉ keysOf h ∧ noDupKeys h = true := by
  simp only [noDupKeys, Bool.and_eq_true, Bool.not_eq_true',
    List.contains_eq_any_beq, List.any_eq_false] at hd
  refine ⟨?_, hd.2⟩
  intro hc
  exact hd.1 q hc (by simp)

theorem hLookup_eq_of_mem {h : Heap} {e : Nat × HObj}
    (hd : noDupKeys h = true) (hm : e ∈ h) : hLookup h e.1 = some e.2 := by
  induction h with
  | nil => simp at hm
  | cons e₁ t ih =>
    obtain ⟨q, o⟩ := e₁
    obtain ⟨hq, hdt⟩ := noDupKeys_cons_elim hd
    rcases List.mem_cons.mp hm with hm₁ | hm₁
    · subst hm₁
      simp [hLookup_cons]
    · rw [hLookup_cons]
      have hne : q ≠ e.1 := by
        intro hc
        subst hc
        exact hq (by simpa [keysOf] using ⟨e.2, hm₁⟩)
      rw [if_neg hne]
      exact ih hdt hm₁

theorem mem_of_hLookup {h : Heap} {p : Nat} {o : HObj}
    (hl : hLookup h p = some o) : (p, o) ∈ h := by
  induction h with
  | nil => simp [hLookup] at hl
  | cons e t ih =>
    obtain ⟨q, o₁⟩ := e
    rw [hLookup_cons] at hl
    by_cases hq : q = p
    · rw [if_pos hq] at hl
      subst hq
      exact List.mem_cons.mpr (Or.inl (by simpa using hl.symm))
    · rw [if_neg hq] at hl
      exact List.mem_cons_of_mem _ (ih hl)

/-! ## Counting lemmas -/

theorem countP_set_add (pr : InlineArray → Bool) :
    ∀ (l : List InlineArray) (i : Nat) (a b : InlineArray), l.get? i = some a →
    (l.set i b).countP pr + (if pr a then 1 else 0) =
      l.countP pr + (if pr b then 1 else 0) := by
  intro l
  induction l with
  | nil => intro i a b hg; simp at hg
  | cons x t ih =>
    intro i a b hg
    cases i with
    | zero =>
      simp only [List.get?] at hg
      injection hg with hg
      rw [← hg]
      simp only [List.set, List.countP_cons]
      by_cases hb : pr b <;> by_cases hx : pr x <;> simp [hb, hx]
    | succ i =>
      simp only [List.get?] at hg
      have := ih i a b hg
      simp only [List.set, List.countP_cons]
      by_cases hx : pr x <;> simp [hx] <;> omega

theorem countP_eraseIdx_add (pr : InlineArray → Bool) :
    ∀ (l : List InlineArray) (i : Nat) (a : InlineArray), l.get? i = some a →
    (l.eraseIdx i).countP pr + (if pr a then 1 else 0) = l.countP pr := by
  intro l
  induction l with
  | nil => intro i a hg; simp at hg
  | cons x t ih =>
    intro i a hg
    cases i with
    | zero =>
      simp only [List.get?] at hg
      injection hg with hg
      rw [← hg]
      simp [List.eraseIdx, List.countP_cons]
    | succ i =>
      simp only [List.get?] at hg
      have := ih i a hg
      simp only [List.eraseIdx, List.countP_cons]
      by_cases hx : pr x <;> simp [hx] <;> omega

theorem refsTo_append_single (live : List InlineArray) (v : InlineArray) (p : Nat) :
    refsTo (live ++ [v]) p = refsTo live p + (if pointsTo v p then 1 else 0) := by
  simp only [refsTo, List.countP_append, List.countP_cons, List.countP_nil]
  by_cases hv : pointsTo v p <;> simp [hv]

theorem refsTo_set_add (live : List InlineArray) (i : Nat) (a b : InlineArray) (p : Nat)
    (hg : live.get? i = some a) :
    refsTo (live.set i b) p + (if pointsTo a p then 1 else 0) =
      refsTo live p + (if pointsTo b p then 1 else 0) :=
  countP_set_add _ live i a b hg

theorem refsTo_eraseIdx_add (live : List InlineArray) (i : Nat) (a : InlineArray) (p : Nat)
    (hg : live.get? i = some a) :
    refsTo (live.eraseIdx i) p + (if pointsTo a p then 1 else 0) = refsTo live p :=
  countP_eraseIdx_add _ live i a hg

/-! ## Unpacking the well-formedness predicates -/

theorem smallEntryOK_elim {p : Nat} {t : SmallRemoteTrailer} {payload : List Nat}
    (hok : smallEntryOK p t payload = true) :
    t.len = payload.length ∧ 8 ≤ t.len ∧ t.len ≤ 255 ∧ 1 ≤ t.rc ∧ t.rc ≤ 255 ∧
      t.len ≤ p ∧ (p - t.len) % 8 = 0 ∧ ∀ b ∈ payload, b < 256 := by
  simp only [smallEntryOK, Bool.and_eq_true, decide_eq_true_eq, beq_iff_eq,
    List.all_eq_true] at hok
  tauto

theorem bigEntryOK_elim {p : Nat} {hd : BigRemoteHeader} {payload : List Nat}
    (hok : bigEntryOK p hd payload = true) :
    hd.lenVal = payload.length ∧ hd.len.length = 6 ∧ 256 ≤ payload.length ∧
      payload.length < 2 ^ 48 ∧ 1 ≤ hd.rc ∧ hd.rc ≤ 65535 ∧ p % 8 = 0 ∧
      ∀ b ∈ payload, b < 256 := by
  simp only [bigEntryOK, Bool.and_eq_true, decide_eq_true_eq, beq_iff_eq,
    List.all_eq_true] at hok
  tauto

theorem smallEntryOK_intro {p : Nat} {t : SmallRemoteTrailer} {payload : List Nat}
    (h1 : t.len = payload.length) (h2 : 8 ≤ t.len) (h3 : t.len ≤ 255)
    (h4 : 1 ≤ t.rc) (h5 : t.rc ≤ 255) (h6 : t.len ≤ p) (h7 : (p - t.len) % 8 = 0)
    (h8 : ∀ b ∈ payload, b < 256) : smallEntryOK p t payload = true := by
  simp only [smallEntryOK, Bool.and_eq_true, decide_eq_true_eq, beq_iff_eq,
    List.all_eq_true]
  tauto

theorem bigEntryOK_intro {p : Nat} {hd : BigRemoteHeader} {payload : List Nat}
    (h1 : hd.lenVal = payload.length) (h2 : hd.len.length = 6)
    (h3 : 256 ≤ payload.length) (h4 : payload.length < 2 ^ 48)
    (h5 : 1 ≤ hd.rc) (h6 : hd.rc ≤ 65535) (h7 : p % 8 = 0)
    (h8 : ∀ b ∈ payload, b < 256) : bigEntryOK p hd payload = true := by
  simp only [bigEntryOK, Bool.and_eq_true, decide_eq_true_eq, beq_iff_eq,
    List.all_eq_true]
  tauto

theorem heapWF_elim {h : Heap} (hwf : heapWF h = true) :
    noDupKeys h = true ∧ ∀ e ∈ h, entryOK e = true := by
  simp only [heapWF, Bool.and_eq_true, List.all_eq_true] at hwf
  exact hwf

theorem heapWF_intro {h : Heap} (h1 : noDupKeys h = true)
    (h2 : ∀ e ∈ h, entryOK e = true) : heapWF h = true := by
  simp only [heapWF, Bool.and_eq_true, List.all_eq_true]
  exact ⟨h1, h2⟩

theorem sysWF_elim {s : Sys} (hwf : sysWF s = true) :
    heapWF s.heap = true ∧ (∀ w ∈ s.live, validVal s.heap w = true) ∧
      ∀ e ∈ s.heap, rcOf e.2 = refsTo s.live e.1 := by
  simp only [sysWF, countsOK, Bool.and_eq_true, List.all_eq_true, beq_iff_eq] at hwf
  tauto

theorem sysWF_intro {s : Sys} (h1 : heapWF s.heap = true)
    (h2 : ∀ w ∈ s.live, validVal s.heap w = true)
    (h3 : ∀ e ∈ s.heap, rcOf e.2 = refsTo s.live e.1) : sysWF s = true := by
  simp only [sysWF, countsOK, Bool.and_eq_true, List.all_eq_true, beq_iff_eq]
  tauto

/-! ## `validVal` unpacking -/

theorem validVal_shape {h : Heap} {v : InlineArray} (hv : validVal h v = true) :
    v.data.length = SZ ∧ ∀ b ∈ v.data, b < 256 := by
  simp only [validVal, Bool.and_eq_true, beq_iff_eq, List.all_eq_true,
    decide_eq_true_eq] at hv
  exact ⟨hv.1.1, hv.1.2⟩

theorem validVal_kind_ne_none {h : Heap} {v : InlineArray}
    (hv : validVal h v = true) : kind v ≠ none := by
  intro hk
  simp only [validVal, hk, Bool.and_eq_true] at hv
  exact absurd hv.2 (by simp)

theorem validVal_inline_len {h : Heap} {v : InlineArray} (hv : validVal h v = true)
    (hk : kind v = some Kind.Inline) : inline_len v ≤ INLINE_CUTOFF := by
  simp only [validVal, hk, Bool.and_eq_true, decide_eq_true_eq] at hv
  exact hv.2

theorem validVal_small_lookup {h : Heap} {v : InlineArray} (hv : validVal h v = true)
    (hk : kind v = some Kind.SmallRemote) :
    ∃ t payload, hLookup h (remote_ptr v) = some (HObj.small t payload) := by
  simp only [validVal, hk, Bool.and_eq_true] at hv
  have hv2 := hv.2
  rcases hl : hLookup h (remote_ptr v) with _ | o
  · rw [hl] at hv2; simp at hv2
  · cases o with
    | small t payload => exact ⟨t, payload, rfl⟩
    | big hd payload => rw [hl] at hv2; simp at hv2

theorem validVal_big_lookup {h : Heap} {v : InlineArray} (hv : validVal h v = true)
    (hk : kind v = some Kind.BigRemote) :
    ∃ hd payload, hLookup h (remote_ptr v) = some (HObj.big hd payload) := by
  simp only [validVal, hk, Bool.and_eq_true] at hv
  have hv2 := hv.2
  rcases hl : hLookup h (remote_ptr v) with _ | o
  · rw [hl] at hv2; simp at hv2
  · cases o with
    | small t payload => rw [hl] at hv2; simp at hv2
    | big hd payload => exact ⟨hd, payload, rfl⟩

theorem validVal_intro_inline {h : Heap} {v : InlineArray}
    (h1 : v.data.length = SZ) (h2 : ∀ b ∈ v.data, b < 256)
    (hk : kind v = some Kind.Inline) (h3 : inline_len v ≤ INLINE_CUTOFF) :
    validVal h v = true := by
  simp only [validVal, hk, Bool.and_eq_true, beq_iff_eq, List.all_eq_true,
    decide_eq_true_eq]
  exact ⟨⟨h1, h2⟩, h3⟩

theorem validVal_intro_small {h : Heap} {v : InlineArray}
    (h1 : v.data.length = SZ) (h2 : ∀ b ∈ v.data, b < 256)
    (hk : kind v = some Kind.SmallRemote)
    (h3 : ∃ t payload, hLookup h (remote_ptr v) = some (HObj.small t payload)) :
    validVal h v = true := by
  obtain ⟨t, payload, h3⟩ := h3
  simp only [validVal, hk, h3, Bool.and_eq_true, beq_iff_eq, List.all_eq_true,
    decide_eq_true_eq]
  exact ⟨⟨h1, h2⟩, trivial⟩

theorem validVal_intro_big {h : Heap} {v : InlineArray}
    (h1 : v.data.length = SZ) (h2 : ∀ b ∈ v.data, b < 256)
    (hk : kind v = some Kind.BigRemote)
    (h3 : ∃ hd payload, hLookup h (remote_ptr v) = some (HObj.big hd payload)) :
    validVal h v = true := by
  obtain ⟨hd, payload, h3⟩ := h3
  simp only [validVal, hk, h3, Bool.and_eq_true, beq_iff_eq, List.all_eq_true,
    decide_eq_true_eq]
  exact ⟨⟨h1, h2⟩, trivial⟩

theorem pointsTo_elim {v : InlineArray} {p : Nat} (hp : pointsTo v p = true) :
    remote_ptr v = p ∧
      (kind v = some Kind.SmallRemote ∨ kind v = some Kind.BigRemote) := by
  unfold pointsTo at hp
  rcases hk : kind v with _ | k
  · rw [hk] at hp; simp at hp
  · cases k
    · rw [hk] at hp; simp at hp
    · rw [hk] at hp
      simp only [beq_iff_eq] at hp
      exact ⟨hp, Or.inl rfl⟩
    · rw [hk] at hp
      simp only [beq_iff_eq] at hp
      exact ⟨hp, Or.inr rfl⟩

theorem pointsTo_of_kind_small {v : InlineArray}
    (hk : kind v = some Kind.SmallRemote) : pointsTo v (remote_ptr v) = true := by
  simp [pointsTo, hk]

theorem pointsTo_of_kind_big {v : InlineArray}
    (hk : kind v = some Kind.BigRemote) : pointsTo v (remote_ptr v) = true := by
  simp [pointsTo, hk]

theorem pointsTo_false_of_ne {v : InlineArray} {p : Nat}
    (hne : remote_ptr v ≠ p) : pointsTo v p = false := by
  unfold pointsTo
  rcases hk : kind v with _ | k
  · rfl
  · cases k
    · rfl
    · simpa using hne
    · simpa using hne

theorem pointsTo_inline {v : InlineArray} (hk : kind v = some Kind.Inline)
    (p : Nat) : pointsTo v p = false := by
  simp [pointsTo, hk]

/-- A live value valid against `h` only points at keys of `h`. -/
theorem refsTo_eq_zero_of_fresh {h : Heap} {live : List InlineArray} {p : Nat}
    (hval : ∀ w ∈ live, validVal h w = true) (hnm : p ∉ keysOf h) :
    refsTo live p = 0 := by
  rw [refsTo, List.countP_eq_zero]
  intro w hw
  intro hpt
  obtain ⟨hrp, hkd⟩ := pointsTo_elim hpt
  rcases hkd with hk | hk
  · obtain ⟨t, payload, hl⟩ := validVal_small_lookup (hval w hw) hk
    rw [hrp] at hl
    exact hnm (hLookup_mem_keys hl)
  · obtain ⟨hd, payload, hl⟩ := validVal_big_lookup (hval w hw) hk
    rw [hrp] at hl
    exact hnm (hLookup_mem_keys hl)

/-! ## `derefIA` congruence and invariance -/

/-- The read view depends on the heap only through the allocation at the
value's own pointer. -/
theorem derefIA_congr {h₁ h₂ : Heap} (v : InlineArray)
    (hl : hLookup h₁ (remote_ptr v) = hLookup h₂ (remote_ptr v)) :
    derefIA h₁ v = derefIA h₂ v := by
  unfold derefIA
  rcases kind v with _ | k
  · rfl
  · cases k
    · rfl
    · rw [hl]
    · rw [hl]

theorem derefIA_cons_not_pointing {h : Heap} {v : InlineArray} {p : Nat} (o : HObj)
    (hnp : remote_ptr v ≠ p) :
    derefIA ((p, o) :: h) v = derefIA h v := by
  refine derefIA_congr v ?_
  rw [hLookup_cons, if_neg (fun hc => hnp hc.symm)]

theorem derefIA_small_eq {h : Heap} {v : InlineArray} {t : SmallRemoteTrailer}
    {payload : List Nat} (hk : kind v = some Kind.SmallRemote)
    (hl : hLookup h (remote_ptr v) = some (HObj.small t payload))
    (hlen : t.len = payload.length) :
    derefIA h v = some payload := by
  simp only [derefIA, hk, hl, hlen, if_pos (le_refl payload.length)]
  simp

theorem derefIA_big_eq {h : Heap} {v : InlineArray} {hd : BigRemoteHeader}
    {payload : List Nat} (hk : kind v = some Kind.BigRemote)
    (hl : hLookup h (remote_ptr v) = some (HObj.big hd payload))
    (hlen : hd.lenVal = payload.length) :
    derefIA h v = some payload := by
  simp only [derefIA, hk, hl, hlen, if_pos (le_refl payload.length)]
  simp

/-- Updating only the refcount of a small allocation changes no read view. -/
theorem derefIA_hUpdate_small_rc {h : Heap} {p : Nat} {t : SmallRemoteTrailer}
    {payload : List Nat} (r : Nat) (w : InlineArray)
    (hl : hLookup h p = some (HObj.small t payload)) :
    derefIA (hUpdate h p (HObj.small { rc := r, len := t.len } payload)) w =
      derefIA h w := by
  by_cases hrp : remote_ptr w = p
  · subst hrp
    have hl₂ := hLookup_hUpdate_self (HObj.small { rc := r, len := t.len } payload) hl
    unfold derefIA
    rcases kind w with _ | k
    · rfl
    · cases k
      · rfl
      · rw [hl₂, hl]
      · rw [hl₂, hl]
  · exact derefIA_congr w (hLookup_hUpdate_ne _ hrp)

theorem derefIA_hUpdate_big_rc {h : Heap} {p : Nat} {hd : BigRemoteHeader}
    {payload : List Nat} (r : Nat) (w : InlineArray)
    (hl : hLookup h p = some (HObj.big hd payload)) :
    derefIA (hUpdate h p (HObj.big { rc := r, len := hd.len } payload)) w =
      derefIA h w := by
  by_cases hrp : remote_ptr w = p
  · subst hrp
    have hl₂ := hLookup_hUpdate_self (HObj.big { rc := r, len := hd.len } payload) hl
    unfold derefIA
    rcases kind w with _ | k
    · rfl
    · cases k
      · rfl
      · rw [hl₂, hl]
      · rw [hl₂, hl]
        simp [BigRemoteHeader.lenVal]
  · exact derefIA_congr w (hLookup_hUpdate_ne _ hrp)

theorem allocOK_elim {h : Heap} {len base : Nat} (ha : allocOK h len base = true) :
    base % 8 = 0 ∧ base + len + 8 ≤ 2 ^ 56 ∧
      (8 ≤ len → len ≤ 255 → (base + len) ∉ keysOf h) ∧
      (256 ≤ len → base ∉ keysOf h) := by
  simp only [allocOK, Bool.and_eq_true, beq_iff_eq, decide_eq_true_eq] at ha
  obtain ⟨⟨h1, h2⟩, h3⟩ := ha
  refine ⟨h1, h2, ?_, ?_⟩
  · intro hl8 hl255
    have hn1 : ¬ len ≤ INLINE_CUTOFF := by simp only [INLINE_CUTOFF, SZ]; omega
    have hc2 : len ≤ SMALL_REMOTE_CUTOFF := by simp only [SMALL_REMOTE_CUTOFF]; omega
    rw [if_neg hn1, if_pos hc2] at h3
    simp only [Bool.not_eq_true', List.contains_eq_any_beq, List.any_eq_false] at h3
    intro hm
    exact h3 (base + len) hm (by simp)
  · intro hl256
    have hn1 : ¬ len ≤ INLINE_CUTOFF := by simp only [INLINE_CUTOFF, SZ]; omega
    have hn2 : ¬ len ≤ SMALL_REMOTE_CUTOFF := by simp only [SMALL_REMOTE_CUTOFF]; omega
    rw [if_neg hn1, if_neg hn2] at h3
    simp only [Bool.not_eq_true', List.contains_eq_any_beq, List.any_eq_false] at h3
    intro hm
    exact h3 base hm (by simp)

theorem hLookup_cons_self (p : Nat) (o : HObj) (h : Heap) :
    hLookup ((p, o) :: h) p = some o := by
  simp [hLookup_cons]

theorem lenVal_rc_irrel (r : Nat) (hd : BigRemoteHeader) :
    BigRemoteHeader.lenVal { rc := r, len := hd.len } = hd.lenVal := by
  simp [BigRemoteHeader.lenVal]

theorem lenVal_natToBytesLE (r L : Nat) (h48 : L < 2 ^ 48) :
    BigRemoteHeader.lenVal { rc := r, len := natToBytesLE L 6 } = L := by
  show bytesToNatLE (natToBytesLE L 6 ++ [0, 0]) = L
  rw [bytesToNatLE_append_two_zeros]
  exact bytesToNatLE_natToBytesLE 6 L (by norm_num at h48 ⊢; omega)

/-- The view of a valid value exists and its length matches the variant's
length range. -/
theorem derefIA_spec_of_valid {h : Heap} {v : InlineArray}
    (hwf : heapWF h = true) (hv : validVal h v = true) :
    ∃ a, derefIA h v = some a ∧
      ((kind v = some Kind.Inline ∧ a.length = inline_len v ∧ a.length ≤ 7) ∨
       (kind v = some Kind.SmallRemote ∧ 8 ≤ a.length ∧ a.length ≤ 255) ∨
       (kind v = some Kind.BigRemote ∧ 256 ≤ a.length ∧ a.length < 2 ^ 48)) := by
  obtain ⟨hlen, hbytes⟩ := validVal_shape hv
  rcases hk : kind v with _ | k
  · exact absurd hk (validVal_kind_ne_none hv)
  · cases k
    · have hil : inline_len v ≤ INLINE_CUTOFF := validVal_inline_len hv hk
      refine ⟨v.data.take (inline_len v), by simp [derefIA, hk], Or.inl ⟨rfl, ?_, ?_⟩⟩
      all_goals
        rw [List.length_take, hlen]
        simp only [INLINE_CUTOFF, SZ] at hil
        simp only [SZ]
        omega
    · obtain ⟨t, payload, hl⟩ := validVal_small_lookup hv hk
      have hmem := mem_of_hLookup hl
      have hent := (heapWF_elim hwf).2 _ hmem
      obtain ⟨e1, e2, e3, _, _, _, _, _⟩ := smallEntryOK_elim hent
      refine ⟨payload, derefIA_small_eq hk hl e1, Or.inr (Or.inl ⟨rfl, ?_, ?_⟩)⟩
      · omega
      · omega
    · obtain ⟨hd, payload, hl⟩ := validVal_big_lookup hv hk
      have hmem := mem_of_hLookup hl
      have hent := (heapWF_elim hwf).2 _ hmem
      obtain ⟨e1, _, e3, e4, _, _, _, _⟩ := bigEntryOK_elim hent
      exact ⟨payload, derefIA_big_eq hk hl e1, Or.inr (Or.inr ⟨rfl, e3, e4⟩)⟩

/-- C1: for every byte slice `s` with `len(s) < 2 ^ 48` (covering all three
ranges 0..=7, 8..=255 and 256..=2^48-1), constructing a value from `s` (with
any address the allocator may return) succeeds, its read view is exactly the
bytes of `s`, and its `len()` (the view's length) equals `s.len()`. -/
theorem C1_construct_roundtrip (slice : List Nat) (base : Nat) (h : Heap)
    (h48 : slice.length < 2 ^ 48)
    (halloc : allocOK h slice.length base = true) :
    ∃ v h₁, new slice base h = some (v, h₁) ∧ derefIA h₁ v = some slice ∧
      viewLen h₁ v = slice.length := by
  obtain ⟨ha1, ha2, ha3, ha4⟩ := allocOK_elim halloc
  by_cases hc1 : slice.length ≤ 7
  · refine ⟨inlineWord slice, h, new_eq_inline slice base h hc1, ?_, ?_⟩
    · exact derefIA_inlineWord h slice hc1
    · simp [viewLen, derefIA_inlineWord h slice hc1]
  · by_cases hc2 : slice.length ≤ 255
    · have h8 : 8 ≤ slice.length := by omega
      have hp : base + slice.length < 2 ^ 56 := by omega
      refine ⟨smallWord (base + slice.length), _,
        new_eq_small slice base h h8 hc2 hp, ?_, ?_⟩
      · have hk := kind_smallWord (base + slice.length)
        have hrp := remote_ptr_smallWord (base + slice.length) hp
        have hl : hLookup ((base + slice.length,
            HObj.small { rc := 1, len := slice.length } slice) :: h)
            (remote_ptr (smallWord (base + slice.length))) =
            some (HObj.small { rc := 1, len := slice.length } slice) := by
          rw [hrp]
          exact hLookup_cons_self _ _ _
        exact derefIA_small_eq hk hl rfl
      · have hk := kind_smallWord (base + slice.length)
        have hrp := remote_ptr_smallWord (base + slice.length) hp
        have hl : hLookup ((base + slice.length,
            HObj.small { rc := 1, len := slice.length } slice) :: h)
            (remote_ptr (smallWord (base + slice.length))) =
            some (HObj.small { rc := 1, len := slice.length } slice) := by
          rw [hrp]
          exact hLookup_cons_self _ _ _
        simp [viewLen, derefIA_small_eq hk hl rfl]
    · have h256 : 256 ≤ slice.length := by omega
      have hp : base < 2 ^ 56 := by omega
      refine ⟨bigWord base, _, new_eq_big slice base h h256 h48 hp, ?_, ?_⟩
      · have hk := kind_bigWord base
        have hrp := remote_ptr_bigWord base hp
        have hl : hLookup ((base,
            HObj.big { rc := 1, len := natToBytesLE slice.length 6 } slice) :: h)
            (remote_ptr (bigWord base)) =
            some (HObj.big { rc := 1, len := natToBytesLE slice.length 6 } slice) := by
          rw [hrp]
          exact hLookup_cons_self _ _ _
        exact derefIA_big_eq hk hl (lenVal_natToBytesLE 1 _ h48)
      · have hk := kind_bigWord base
        have hrp := remote_ptr_bigWord base hp
        have hl : hLookup ((base,
            HObj.big { rc := 1, len := natToBytesLE slice.length 6 } slice) :: h)
            (remote_ptr (bigWord base)) =
            some (HObj.big { rc := 1, len := natToBytesLE slice.length 6 } slice) := by
          rw [hrp]
          exact hLookup_cons_self _ _ _
        simp [viewLen, derefIA_big_eq hk hl (lenVal_natToBytesLE 1 _ h48)]

theorem C1_construct_roundtrip_witness :
    ([1, 2, 3] : List Nat).length < 2 ^ 48 ∧
    allocOK [] ([1, 2, 3] : List Nat).length 8 = true ∧
    (∃ v h₁, new [1, 2, 3] 8 [] = some (v, h₁) ∧ derefIA h₁ v = some [1, 2, 3] ∧
      viewLen h₁ v = ([1, 2, 3] : List Nat).length) :=
  ⟨by decide, by decide,
    C1_construct_roundtrip [1, 2, 3] 8 [] (by decide) (by decide)⟩

/-- C2: construction selects the variant by length threshold — `L ≤ 7` gives
Inline, `8 ≤ L ≤ 255` SmallRemote, `256 ≤ L < 2 ^ 48` BigRemote — and, given
an address the allocator may return (`allocOK`, the model of a successful
allocation), construction fails (the source's length assertion panics, the
spec's `LengthOutOfRange`) if and only if `L ≥ 2 ^ 48`. -/
theorem C2_variant_thresholds (slice : List Nat) (base : Nat) (h : Heap)
    (h64 : slice.length < 2 ^ 64)
    (halloc : allocOK h slice.length base = true) :
    (slice.length ≤ 7 →
      ∃ v h₁, new slice base h = some (v, h₁) ∧ kind v = some Kind.Inline) ∧
    (8 ≤ slice.length → slice.length ≤ 255 →
      ∃ v h₁, new slice base h = some (v, h₁) ∧ kind v = some Kind.SmallRemote) ∧
    (256 ≤ slice.length → slice.length < 2 ^ 48 →
      ∃ v h₁, new slice base h = some (v, h₁) ∧ kind v = some Kind.BigRemote) ∧
    (new slice base h = none ↔ 2 ^ 48 ≤ slice.length) := by
  obtain ⟨ha1, ha2, ha3, ha4⟩ := allocOK_elim halloc
  refine ⟨?_, ?_, ?_, ?_, ?_⟩
  · intro hc
    exact ⟨inlineWord slice, h, new_eq_inline slice base h hc,
      kind_inlineWord slice hc⟩
  · intro h8 h255
    exact ⟨smallWord (base + slice.length), _,
      new_eq_small slice base h h8 h255 (by omega), kind_smallWord _⟩
  · intro h256 h48
    exact ⟨bigWord base, _, new_eq_big slice base h h256 h48 (by omega),
      kind_bigWord _⟩
  · intro hnone
    by_contra hlt
    push_neg at hlt
    by_cases hc1 : slice.length ≤ 7
    · rw [new_eq_inline slice base h hc1] at hnone
      exact Option.noConfusion hnone
    · by_cases hc2 : slice.length ≤ 255
      · rw [new_eq_small slice base h (by omega) hc2 (by omega)] at hnone
        exact Option.noConfusion hnone
      · rw [new_eq_big slice base h (by omega) hlt (by omega)] at hnone
        exact Option.noConfusion hnone
  · intro h48
    exact new_eq_none slice base h h48 h64

theorem C2_variant_thresholds_witness :
    ([1, 2, 3] : List Nat).length < 2 ^ 64 ∧
    allocOK [] ([1, 2, 3] : List Nat).length 8 = true ∧
    ((([1, 2, 3] : List Nat).length ≤ 7 →
      ∃ v h₁, new [1, 2, 3] 8 [] = some (v, h₁) ∧ kind v = some Kind.Inline) ∧
    (8 ≤ ([1, 2, 3] : List Nat).length → ([1, 2, 3] : List Nat).length ≤ 255 →
      ∃ v h₁, new [1, 2, 3] 8 [] = some (v, h₁) ∧ kind v = some Kind.SmallRemote) ∧
    (256 ≤ ([1, 2, 3] : List Nat).length → ([1, 2, 3] : List Nat).length < 2 ^ 48 →
      ∃ v h₁, new [1, 2, 3] 8 [] = some (v, h₁) ∧ kind v = some Kind.BigRemote) ∧
    (new [1, 2, 3] 8 [] = none ↔ 2 ^ 48 ≤ ([1, 2, 3] : List Nat).length)) :=
  ⟨by decide, by decide, C2_variant_thresholds [1, 2, 3] 8 [] (by decide) (by decide)⟩

/-- C3: the read view of every valid value starts at an 8-byte-aligned
address, for all three variants.  `selfAddr` is the address of the value
itself, 8-byte aligned by `repr(align(8))` (the hypothesis). -/
theorem C3_view_alignment (h : Heap) (v : InlineArray) (selfAddr : Nat)
    (hwf : heapWF h = true) (hv : validVal h v = true)
    (hself : selfAddr % 8 = 0) :
    ∃ a, viewAddr h v selfAddr = some a ∧ a % 8 = 0 := by
  rcases hk : kind v with _ | k
  · exact absurd hk (validVal_kind_ne_none hv)
  · cases k
    · exact ⟨selfAddr, by simp [viewAddr, hk], hself⟩
    · obtain ⟨t, payload, hl⟩ := validVal_small_lookup hv hk
      have hent := (heapWF_elim hwf).2 _ (mem_of_hLookup hl)
      obtain ⟨_, _, _, _, _, _, halign, _⟩ := smallEntryOK_elim hent
      refine ⟨remote_ptr v - t.len, ?_, halign⟩
      simp [viewAddr, hk, deref_small_trailer, hl]
    · obtain ⟨hd, payload, hl⟩ := validVal_big_lookup hv hk
      have hent := (heapWF_elim hwf).2 _ (mem_of_hLookup hl)
      obtain ⟨_, _, _, _, _, _, halign, _⟩ := bigEntryOK_elim hent
      refine ⟨remote_ptr v + 8, ?_, by omega⟩
      simp [viewAddr, hk, deref_big_header, hl]

theorem C3_view_alignment_witness :
    heapWF [] = true ∧ validVal [] (inlineWord [1, 2, 3]) = true ∧
    (8 : Nat) % 8 = 0 ∧
    (∃ a, viewAddr [] (inlineWord [1, 2, 3]) 8 = some a ∧ a % 8 = 0) :=
  ⟨by decide, by decide, by decide,
    C3_view_alignment [] (inlineWord [1, 2, 3]) 8 (by decide) (by decide) (by decide)⟩

/-- C8 counterexample: constructing a SmallRemote value of length 9 at the
(valid, 8-byte-aligned, fresh) allocation base 8 stores the trailer address
`8 + 9 = 17`, whose low 3 bits are `001` — the trailer address designated by
the tagged word is NOT 8-byte aligned, refuting the claim.  The tag is not
stored in the low bits of that address: it occupies the word's last
(most significant) byte. -/
theorem C8_counterexample :
    allocOK [] 9 8 = true ∧
    (new (List.replicate 9 7) 8 []).map (fun r => kind r.1) =
      some (some Kind.SmallRemote) ∧
    (new (List.replicate 9 7) 8 []).map (fun r => remote_ptr r.1 % 8) = some 1 ∧
    (new (List.replicate 9 7) 8 []).map (fun r => r.1.data.getD 7 0) =
      some SMALL_REMOTE_TRAILER_TAG := by
  decide

/-- C8 amended: for a SmallRemote construction at allocator base `base`
(8-byte aligned), the stored word designates the trailer address
`base + L`; the *payload/allocation base* `(base + L) - L = base` is 8-byte
aligned, but the trailer address itself is aligned only modulo the payload
length (`remote_ptr % 8 = L % 8`).  The 2-bit tag is stored in (and masked
off from) the low bits of the word's most significant byte — the top 8 bits
of the stored pointer value, which are zero since the address is below
`2 ^ 56` — not in the low bits of the trailer address; the first 7 bytes of
the word are exactly the low-order little-endian bytes of the address. -/
theorem C8_amended_tag_in_top_byte (slice : List Nat) (base : Nat) (h : Heap)
    (h8 : 8 ≤ slice.length) (h255 : slice.length ≤ 255)
    (hp : base + slice.length < 2 ^ 56) (hal : base % 8 = 0) :
    ∃ v h₁, new slice base h = some (v, h₁) ∧
      remote_ptr v = base + slice.length ∧
      (remote_ptr v - slice.length) % 8 = 0 ∧
      remote_ptr v % 8 = slice.length % 8 ∧
      inline_trailer v = SMALL_REMOTE_TRAILER_TAG ∧
      tagOf v = SMALL_REMOTE_TRAILER_TAG ∧
      v.data.take 7 = natToBytesLE (base + slice.length) 7 := by
  refine ⟨smallWord (base + slice.length), _,
    new_eq_small slice base h h8 h255 hp,
    remote_ptr_smallWord _ hp, ?_, ?_, inline_trailer_smallWord _, ?_, ?_⟩
  · rw [remote_ptr_smallWord _ hp]
    omega
  · rw [remote_ptr_smallWord _ hp]
    omega
  · rw [tagOf, inline_trailer_smallWord]
    decide
  · show (natToBytesLE (base + slice.length) 7 ++ [SMALL_REMOTE_TRAILER_TAG]).take 7 = _
    exact take_append_at _ _ _ (natToBytesLE_length 7 _)

theorem C8_amended_witness :
    8 ≤ (List.replicate 9 7 : List Nat).length ∧
    (List.replicate 9 7 : List Nat).length ≤ 255 ∧
    8 + (List.replicate 9 7 : List Nat).length < 2 ^ 56 ∧ (8 : Nat) % 8 = 0 ∧
    (∃ v h₁, new (List.replicate 9 7) 8 [] = some (v, h₁) ∧
      remote_ptr v = 8 + (List.replicate 9 7 : List Nat).length ∧
      (remote_ptr v - (List.replicate 9 7 : List Nat).length) % 8 = 0 ∧
      remote_ptr v % 8 = (List.replicate 9 7 : List Nat).length % 8 ∧
      inline_trailer v = SMALL_REMOTE_TRAILER_TAG ∧
      tagOf v = SMALL_REMOTE_TRAILER_TAG ∧
      v.data.take 7 = natToBytesLE (8 + (List.replicate 9 7 : List Nat).length) 7) :=
  ⟨by decide, by decide, by decide, by decide,
    C8_amended_tag_in_top_byte (List.replicate 9 7) 8 []
      (by decide) (by decide) (by decide) (by decide)⟩

/-- C9: two values are equal exactly when their byte views are equal; the
same byte comparison defines equality against a raw byte slice; and the hash
of a value under any byte-slice hasher equals the hash of the equivalent raw
slice. -/
theorem C9_eq_hash_contracts (h : Heap) (v w : InlineArray) (s : List Nat)
    (hf : List Nat → Nat)
    (hwf : heapWF h = true) (hv : validVal h v = true)
    (hw : validVal h w = true) :
    ∃ a b, derefIA h v = some a ∧ derefIA h w = some b ∧
      (eqIA h v w = true ↔ a = b) ∧
      (eqSlice h v s = true ↔ a = s) ∧
      hashIA hf h v = some (hf a) := by
  obtain ⟨a, hda, _⟩ := derefIA_spec_of_valid hwf hv
  obtain ⟨b, hdb, _⟩ := derefIA_spec_of_valid hwf hw
  refine ⟨a, b, hda, hdb, ?_, ?_, ?_⟩
  · simp [eqIA, hda, hdb]
  · simp [eqSlice, hda]
  · simp [hashIA, hda]

theorem C9_eq_hash_contracts_witness :
    heapWF [] = true ∧ validVal [] (inlineWord [1, 2]) = true ∧
    validVal [] (inlineWord [3]) = true ∧
    (∃ a b, derefIA [] (inlineWord [1, 2]) = some a ∧
      derefIA [] (inlineWord [3]) = some b ∧
      (eqIA [] (inlineWord [1, 2]) (inlineWord [3]) = true ↔ a = b) ∧
      (eqSlice [] (inlineWord [1, 2]) [9] = true ↔ a = [9]) ∧
      hashIA List.length [] (inlineWord [1, 2]) = some (List.length a)) :=
  ⟨by decide, by decide, by decide,
    C9_eq_hash_contracts [] (inlineWord [1, 2]) (inlineWord [3]) [9] List.length
      (by decide) (by decide) (by decide)⟩

/-! ## Word-shape facts for the freshly built words -/

theorem smallWord_length (p : Nat) : (smallWord p).data.length = SZ := by
  simp [smallWord, natToBytesLE_length, SZ]

theorem bigWord_length (p : Nat) : (bigWord p).data.length = SZ := by
  simp [bigWord, natToBytesLE_length, SZ]

theorem inlineWord_length (slice : List Nat) (hs : slice.length ≤ 7) :
    (inlineWord slice).data.length = SZ := by
  simp [inlineWord, SZ]
  omega

theorem smallWord_bytes (p : Nat) : ∀ b ∈ (smallWord p).data, b < 256 := by
  intro b hb
  simp only [smallWord, List.mem_append, List.mem_singleton] at hb
  rcases hb with hb | hb
  · have := natToBytesLE_all_lt 7 p
    rw [List.all_eq_true] at this
    simpa using this b hb
  · subst hb
    decide

theorem bigWord_bytes (p : Nat) : ∀ b ∈ (bigWord p).data, b < 256 := by
  intro b hb
  simp only [bigWord, List.mem_append, List.mem_singleton] at hb
  rcases hb with hb | hb
  · have := natToBytesLE_all_lt 7 p
    rw [List.all_eq_true] at this
    simpa using this b hb
  · subst hb
    decide

theorem inlineWord_bytes (slice : List Nat) (hs : slice.length ≤ 7)
    (hb : ∀ b ∈ slice, b < 256) : ∀ b ∈ (inlineWord slice).data, b < 256 := by
  intro b hbm
  simp only [inlineWord, List.append_assoc, List.mem_append, List.mem_singleton,
    List.mem_replicate] at hbm
  rcases hbm with hbm | hbm | hbm
  · exact hb b hbm
  · omega
  · subst hbm
    have := (inline_shift_facts slice.length (by omega)).2.2
    omega

theorem validVal_smallWord {h : Heap} {p : Nat} {t : SmallRemoteTrailer}
    {payload : List Nat} (hp : p < 2 ^ 56)
    (hl : hLookup h p = some (HObj.small t payload)) :
    validVal h (smallWord p) = true := by
  have hl₂ : hLookup h (remote_ptr (smallWord p)) = some (HObj.small t payload) := by
    rw [remote_ptr_smallWord p hp]
    exact hl
  exact validVal_intro_small (smallWord_length p) (smallWord_bytes p)
    (kind_smallWord p) ⟨t, payload, hl₂⟩

theorem validVal_bigWord {h : Heap} {p : Nat} {hd : BigRemoteHeader}
    {payload : List Nat} (hp : p < 2 ^ 56)
    (hl : hLookup h p = some (HObj.big hd payload)) :
    validVal h (bigWord p) = true := by
  have hl₂ : hLookup h (remote_ptr (bigWord p)) = some (HObj.big hd payload) := by
    rw [remote_ptr_bigWord p hp]
    exact hl
  exact validVal_intro_big (bigWord_length p) (bigWord_bytes p)
    (kind_bigWord p) ⟨hd, payload, hl₂⟩

theorem validVal_inlineWord (h : Heap) (slice : List Nat) (hs : slice.length ≤ 7)
    (hb : ∀ b ∈ slice, b < 256) : validVal h (inlineWord slice) = true := by
  refine validVal_intro_inline (inlineWord_length slice hs)
    (inlineWord_bytes slice hs hb) (kind_inlineWord slice hs) ?_
  rw [inline_len_inlineWord slice hs]
  simp only [INLINE_CUTOFF, SZ]
  omega

/-! ## Validity is stable under the heap operations -/

theorem validVal_cons_fresh {h : Heap} {w : InlineArray} {p : Nat} (o : HObj)
    (hnm : p ∉ keysOf h) (hv : validVal h w = true) :
    validVal ((p, o) :: h) w = true := by
  obtain ⟨h1, h2⟩ := validVal_shape hv
  rcases hk : kind w with _ | k
  · exact absurd hk (validVal_kind_ne_none hv)
  · cases k
    · exact validVal_intro_inline h1 h2 hk (validVal_inline_len hv hk)
    · obtain ⟨t, payload, hl⟩ := validVal_small_lookup hv hk
      refine validVal_intro_small h1 h2 hk ⟨t, payload, ?_⟩
      rw [hLookup_cons, if_neg ?_]
      · exact hl
      · intro hc
        exact hnm (hc ▸ hLookup_mem_keys hl)
    · obtain ⟨hd, payload, hl⟩ := validVal_big_lookup hv hk
      refine validVal_intro_big h1 h2 hk ⟨hd, payload, ?_⟩
      rw [hLookup_cons, if_neg ?_]
      · exact hl
      · intro hc
        exact hnm (hc ▸ hLookup_mem_keys hl)

/-- Replacing the small allocation at `p` by another small allocation keeps
every value valid. -/
theorem validVal_hUpdate_small {h : Heap} {w : InlineArray} {p : Nat}
    {t₂ : SmallRemoteTrailer} {payload₂ : List Nat} {t : SmallRemoteTrailer}
    {payload : List Nat}
    (hl : hLookup h p = some (HObj.small t payload))
    (hv : validVal h w = true) :
    validVal (hUpdate h p (HObj.small t₂ payload₂)) w = true := by
  obtain ⟨h1, h2⟩ := validVal_shape hv
  rcases hk : kind w with _ | k
  · exact absurd hk (validVal_kind_ne_none hv)
  · cases k
    · exact validVal_intro_inline h1 h2 hk (validVal_inline_len hv hk)
    · obtain ⟨t₁, payload₁, hl₁⟩ := validVal_small_lookup hv hk
      by_cases hrp : remote_ptr w = p
      · refine validVal_intro_small h1 h2 hk ⟨t₂, payload₂, ?_⟩
        rw [hrp]
        exact hLookup_hUpdate_self _ hl
      · refine validVal_intro_small h1 h2 hk ⟨t₁, payload₁, ?_⟩
        rw [hLookup_hUpdate_ne _ hrp]
        exact hl₁
    · obtain ⟨hd₁, payload₁, hl₁⟩ := validVal_big_lookup hv hk
      have hrp : remote_ptr w ≠ p := by
        intro hc
        rw [hc, hl] at hl₁
        exact Option.noConfusion hl₁ (fun he => HObj.noConfusion he)
      refine validVal_intro_big h1 h2 hk ⟨hd₁, payload₁, ?_⟩
      rw [hLookup_hUpdate_ne _ hrp]
      exact hl₁

theorem validVal_hUpdate_big {h : Heap} {w : InlineArray} {p : Nat}
    {hd₂ : BigRemoteHeader} {payload₂ : List Nat} {hd : BigRemoteHeader}
    {payload : List Nat}
    (hl : hLookup h p = some (HObj.big hd payload))
    (hv : validVal h w = true) :
    validVal (hUpdate h p (HObj.big hd₂ payload₂)) w = true := by
  obtain ⟨h1, h2⟩ := validVal_shape hv
  rcases hk : kind w with _ | k
  · exact absurd hk (validVal_kind_ne_none hv)
  · cases k
    · exact validVal_intro_inline h1 h2 hk (validVal_inline_len hv hk)
    · obtain ⟨t₁, payload₁, hl₁⟩ := validVal_small_lookup hv hk
      have hrp : remote_ptr w ≠ p := by
        intro hc
        rw [hc, hl] at hl₁
        exact Option.noConfusion hl₁ (fun he => HObj.noConfusion he)
      refine validVal_intro_small h1 h2 hk ⟨t₁, payload₁, ?_⟩
      rw [hLookup_hUpdate_ne _ hrp]
      exact hl₁
    · obtain ⟨hd₁, payload₁, hl₁⟩ := validVal_big_lookup hv hk
      by_cases hrp : remote_ptr w = p
      · refine validVal_intro_big h1 h2 hk ⟨hd₂, payload₂, ?_⟩
        rw [hrp]
        exact hLookup_hUpdate_self _ hl
      · refine validVal_intro_big h1 h2 hk ⟨hd₁, payload₁, ?_⟩
        rw [hLookup_hUpdate_ne _ hrp]
        exact hl₁

/-- A value that does not co-own the allocation at `p` stays valid when that
allocation is removed. -/
theorem validVal_hRemove_not_pointing {h : Heap} {w : InlineArray} {p : Nat}
    (hnp : pointsTo w p = false) (hv : validVal h w = true) :
    validVal (hRemove h p) w = true := by
  obtain ⟨h1, h2⟩ := validVal_shape hv
  rcases hk : kind w with _ | k
  · exact absurd hk (validVal_kind_ne_none hv)
  · cases k
    · exact validVal_intro_inline h1 h2 hk (validVal_inline_len hv hk)
    · obtain ⟨t, payload, hl⟩ := validVal_small_lookup hv hk
      have hrp : remote_ptr w ≠ p := by
        intro hc
        simp only [pointsTo, hk] at hnp
        simp [hc] at hnp
      refine validVal_intro_small h1 h2 hk ⟨t, payload, ?_⟩
      rw [hLookup_hRemove_ne hrp]
      exact hl
    · obtain ⟨hd, payload, hl⟩ := validVal_big_lookup hv hk
      have hrp : remote_ptr w ≠ p := by
        intro hc
        simp only [pointsTo, hk] at hnp
        simp [hc] at hnp
      refine validVal_intro_big h1 h2 hk ⟨hd, payload, ?_⟩
      rw [hLookup_hRemove_ne hrp]
      exact hl

/-- Read views ignore allocations the value does not point at. -/
theorem derefIA_eq_of_not_pointing {h₁ h₂ : Heap} {w : InlineArray} {p : Nat}
    (hnp : pointsTo w p = false)
    (hagree : ∀ q, q ≠ p → hLookup h₁ q = hLookup h₂ q) :
    derefIA h₁ w = derefIA h₂ w := by
  rcases hk : kind w with _ | k
  · simp [derefIA, hk]
  · cases k
    · simp [derefIA, hk]
    · have hrp : remote_ptr w ≠ p := by
        intro hc
        simp only [pointsTo, hk] at hnp
        simp [hc] at hnp
      exact derefIA_congr w (hagree _ hrp)
    · have hrp : remote_ptr w ≠ p := by
        intro hc
        simp only [pointsTo, hk] at hnp
        simp [hc] at hnp
      exact derefIA_congr w (hagree _ hrp)

theorem mem_hUpdate_elim_nodup {h : Heap} {p : Nat} {o : HObj} {e : Nat × HObj}
    (hd : noDupKeys h = true) :
    e ∈ hUpdate h p o →
    (e ∈ h ∧ e.1 ≠ p) ∨ (e = (p, o) ∧ ∃ o₀, hLookup h p = some o₀) := by
  induction h with
  | nil => intro hm; simp [hUpdate] at hm
  | cons e₁ t ih =>
    intro hm
    obtain ⟨q, o₁⟩ := e₁
    obtain ⟨hq₁, hdt⟩ := noDupKeys_cons_elim hd
    by_cases hq : q = p
    · subst hq
      simp only [hUpdate, eq_self_iff_true, if_true, List.mem_cons] at hm
      refine hm.elim (fun hma => ?_) (fun hmb => ?_)
      · exact Or.inr ⟨hma, o₁, by simp [hLookup_cons]⟩
      · refine Or.inl ⟨List.mem_cons_of_mem _ hmb, ?_⟩
        intro hc
        exact hq₁ (by simpa [keysOf, hc] using ⟨e.2, by simpa [← hc] using hmb⟩)
    · simp only [hUpdate, if_neg hq, List.mem_cons] at hm
      refine hm.elim (fun hma => ?_) (fun hmb => ?_)
      · refine Or.inl ⟨by simp [hma], ?_⟩
        rw [hma]
        exact hq
      · refine (ih hdt hmb).elim (fun h1 => Or.inl ⟨List.mem_cons_of_mem _ h1.1, h1.2⟩)
          (fun h2 => ?_)
        obtain ⟨h3, o₀, h4⟩ := h2
        exact Or.inr ⟨h3, o₀, by rwa [hLookup_cons, if_neg hq]⟩

theorem mem_keysOf {h : Heap} {e : Nat × HObj} (he : e ∈ h) : e.1 ∈ keysOf h :=
  List.mem_map.mpr ⟨e, he, rfl⟩

theorem noDupKeys_cons_intro {p : Nat} {o : HObj} {h : Heap}
    (hnm : p ∉ keysOf h) (hd : noDupKeys h = true) :
    noDupKeys ((p, o) :: h) = true := by
  simp only [noDupKeys, Bool.and_eq_true]
  refine ⟨?_, hd⟩
  simp only [Bool.not_eq_true', List.contains_eq_any_beq, List.any_eq_false]
  intro x hx hbeq
  have hpx : p = x := by simpa using hbeq
  exact hnm (hpx ▸ hx)

theorem pointsTo_smallWord (p : Nat) (hp : p < 2 ^ 56) :
    pointsTo (smallWord p) p = true := by
  have h := pointsTo_of_kind_small (kind_smallWord p)
  rwa [remote_ptr_smallWord p hp] at h

theorem pointsTo_bigWord (p : Nat) (hp : p < 2 ^ 56) :
    pointsTo (bigWord p) p = true := by
  have h := pointsTo_of_kind_big (kind_bigWord p)
  rwa [remote_ptr_bigWord p hp] at h

theorem pointsTo_false_of_fresh {h : Heap} {w : InlineArray} {p : Nat}
    (hv : validVal h w = true) (hnm : p ∉ keysOf h) : pointsTo w p = false := by
  cases hpt : pointsTo w p with
  | false => rfl
  | true =>
    obtain ⟨hrp, hkd⟩ := pointsTo_elim hpt
    exfalso
    rcases hkd with hk | hk
    · obtain ⟨t, payload, hl⟩ := validVal_small_lookup hv hk
      rw [hrp] at hl
      exact hnm (hLookup_mem_keys hl)
    · obtain ⟨hd, payload, hl⟩ := validVal_big_lookup hv hk
      rw [hrp] at hl
      exact hnm (hLookup_mem_keys hl)

theorem derefIA_cons_fresh_of_valid {h : Heap} {w : InlineArray} {p : Nat}
    (o : HObj) (hnm : p ∉ keysOf h) (hv : validVal h w = true) :
    derefIA ((p, o) :: h) w = derefIA h w := by
  refine derefIA_eq_of_not_pointing (pointsTo_false_of_fresh hv hnm) ?_
  intro q hq
  rw [hLookup_cons, if_neg (fun hc => hq hc.symm)]

/-- `newSys` specification: on a well-formed state, with in-range bytes and a
valid allocator address, construction succeeds, preserves the global
invariant, gives the new value the view `slice`, leaves every existing view
untouched, and — for the remote ranges — installs a fresh allocation with
refcount 1. -/
theorem newSys_spec {s : Sys} (slice : List Nat) (base : Nat)
    (hwf : sysWF s = true)
    (hbytes : ∀ b ∈ slice, b < 256)
    (h48 : slice.length < 2 ^ 48)
    (halloc : allocOK s.heap slice.length base = true) :
    ∃ v h₁, newSys s slice base = some ⟨h₁, s.live ++ [v]⟩ ∧
      new slice base s.heap = some (v, h₁) ∧
      sysWF ⟨h₁, s.live ++ [v]⟩ = true ∧
      derefIA h₁ v = some slice ∧
      validVal h₁ v = true ∧
      (∀ w ∈ s.live, validVal h₁ w = true) ∧
      (∀ w ∈ s.live, derefIA h₁ w = derefIA s.heap w) ∧
      (8 ≤ slice.length → ∃ p o, h₁ = (p, o) :: s.heap ∧ rcOf o = 1 ∧
        pointsTo v p = true ∧ p ∉ keysOf s.heap ∧
        hLookup h₁ p = some o) ∧
      (slice.length ≤ 7 → h₁ = s.heap ∧ kind v = some Kind.Inline) ∧
      (8 ≤ slice.length → slice.length ≤ 255 → kind v = some Kind.SmallRemote) ∧
      (256 ≤ slice.length → kind v = some Kind.BigRemote) := by
  obtain ⟨hH, hV, hC⟩ := sysWF_elim hwf
  obtain ⟨ha1, ha2, ha3, ha4⟩ := allocOK_elim halloc
  by_cases hc1 : slice.length ≤ 7
  · refine ⟨inlineWord slice, s.heap, ?_, new_eq_inline slice base s.heap hc1, ?_,
      derefIA_inlineWord _ _ hc1,
      validVal_inlineWord _ _ hc1 hbytes, fun w hw => hV w hw, ?_, ?_, ?_, ?_, ?_⟩
    · simp [newSys, new_eq_inline slice base s.heap hc1]
    · refine sysWF_intro hH ?_ ?_
      · intro w hw
        rcases List.mem_append.mp hw with hw | hw
        · exact hV w hw
        · rw [List.mem_singleton.mp hw]
          exact validVal_inlineWord _ _ hc1 hbytes
      · intro e he
        rw [show rcOf e.2 = refsTo s.live e.1 from hC e he, refsTo_append_single,
          pointsTo_inline (kind_inlineWord slice hc1) e.1]
        simp
    · intro w hw; rfl
    · intro h8; omega
    · intro _; exact ⟨rfl, kind_inlineWord slice hc1⟩
    · intro h8 _; omega
    · intro h256; omega
  · by_cases hc2 : slice.length ≤ 255
    · have h8 : 8 ≤ slice.length := by omega
      have hp : base + slice.length < 2 ^ 56 := by omega
      have hnew := new_eq_small slice base s.heap h8 hc2 hp
      have hfresh : (base + slice.length) ∉ keysOf s.heap := ha3 h8 hc2
      have hlself : hLookup ((base + slice.length,
          HObj.small { rc := 1, len := slice.length } slice) :: s.heap)
          (remote_ptr (smallWord (base + slice.length))) =
          some (HObj.small { rc := 1, len := slice.length } slice) := by
        rw [remote_ptr_smallWord _ hp]
        exact hLookup_cons_self _ _ _
      have hvalid := validVal_smallWord hp
        (hLookup_cons_self (base + slice.length)
          (HObj.small { rc := 1, len := slice.length } slice) s.heap)
      have hder := derefIA_small_eq (kind_smallWord (base + slice.length)) hlself rfl
      refine ⟨smallWord (base + slice.length), _, by simp [newSys, hnew], hnew, ?_,
        hder, hvalid, fun w hw => validVal_cons_fresh _ hfresh (hV w hw),
        ?_, ?_, ?_, ?_, ?_⟩
      · refine sysWF_intro ?_ ?_ ?_
        · refine heapWF_intro (noDupKeys_cons_intro hfresh (heapWF_elim hH).1) ?_
          intro e he
          rcases List.mem_cons.mp he with he | he
          · rw [he]
            show smallEntryOK (base + slice.length)
              { rc := 1, len := slice.length } slice = true
            exact smallEntryOK_intro rfl h8 hc2 (le_refl 1)
              (by show (1 : Nat) ≤ 255; omega)
              (by show slice.length ≤ base + slice.length; omega)
              (by show (base + slice.length - slice.length) % 8 = 0; omega) hbytes
          · exact (heapWF_elim hH).2 e he
        · intro w hw
          rcases List.mem_append.mp hw with hw | hw
          · exact validVal_cons_fresh _ hfresh (hV w hw)
          · rw [List.mem_singleton.mp hw]
            exact hvalid
        · intro e he
          rcases List.mem_cons.mp he with he | he
          · rw [he]
            show rcOf (HObj.small { rc := 1, len := slice.length } slice) =
              refsTo (s.live ++ [smallWord (base + slice.length)])
                (base + slice.length)
            rw [refsTo_append_single, refsTo_eq_zero_of_fresh hV hfresh,
              pointsTo_smallWord _ hp]
            rfl
          · rw [show rcOf e.2 = refsTo s.live e.1 from hC e he, refsTo_append_single,
              pointsTo_false_of_ne ?_]
            · simp
            · rw [remote_ptr_smallWord _ hp]
              intro hc
              exact hfresh (hc ▸ mem_keysOf he)
      · intro w hw
        exact derefIA_cons_fresh_of_valid _ hfresh (hV w hw)
      · intro _
        exact ⟨base + slice.length, _, rfl, rfl, pointsTo_smallWord _ hp, hfresh,
          hLookup_cons_self _ _ _⟩
      · intro hc; omega
      · intro _ _; exact kind_smallWord _
      · intro h256; omega
    · have h256 : 256 ≤ slice.length := by omega
      have hp : base < 2 ^ 56 := by omega
      have hnew := new_eq_big slice base s.heap h256 h48 hp
      have hfresh : base ∉ keysOf s.heap := ha4 h256
      have hlself : hLookup ((base,
          HObj.big { rc := 1, len := natToBytesLE slice.length 6 } slice) :: s.heap)
          (remote_ptr (bigWord base)) =
          some (HObj.big { rc := 1, len := natToBytesLE slice.length 6 } slice) := by
        rw [remote_ptr_bigWord _ hp]
        exact hLookup_cons_self _ _ _
      have hvalid := validVal_bigWord hp
        (hLookup_cons_self base
          (HObj.big { rc := 1, len := natToBytesLE slice.length 6 } slice) s.heap)
      have hder := derefIA_big_eq (kind_bigWord base) hlself
        (lenVal_natToBytesLE 1 _ h48)
      refine ⟨bigWord base, _, by simp [newSys, hnew], hnew, ?_, hder, hvalid,
        fun w hw => validVal_cons_fresh _ hfresh (hV w hw), ?_, ?_, ?_, ?_, ?_⟩
      · refine sysWF_intro ?_ ?_ ?_
        · refine heapWF_intro (noDupKeys_cons_intro hfresh (heapWF_elim hH).1) ?_
          intro e he
          rcases List.mem_cons.mp he with he | he
          · rw [he]
            show bigEntryOK base
              { rc := 1, len := natToBytesLE slice.length 6 } slice = true
            exact bigEntryOK_intro (lenVal_natToBytesLE 1 _ h48)
              (natToBytesLE_length 6 _) h256 h48 (le_refl 1)
              (by show (1 : Nat) ≤ 65535; omega)
              (by show base % 8 = 0; omega) hbytes
          · exact (heapWF_elim hH).2 e he
        · intro w hw
          rcases List.mem_append.mp hw with hw | hw
          · exact validVal_cons_fresh _ hfresh (hV w hw)
          · rw [List.mem_singleton.mp hw]
            exact hvalid
        · intro e he
          rcases List.mem_cons.mp he with he | he
          · rw [he]
            show rcOf (HObj.big { rc := 1, len := natToBytesLE slice.length 6 } slice) =
              refsTo (s.live ++ [bigWord base]) base
            rw [refsTo_append_single, refsTo_eq_zero_of_fresh hV hfresh,
              pointsTo_bigWord _ hp]
            rfl
          · rw [show rcOf e.2 = refsTo s.live e.1 from hC e he, refsTo_append_single,
              pointsTo_false_of_ne ?_]
            · simp
            · rw [remote_ptr_bigWord _ hp]
              intro hc
              exact hfresh (hc ▸ mem_keysOf he)
      · intro w hw
        exact derefIA_cons_fresh_of_valid _ hfresh (hV w hw)
      · intro _
        exact ⟨base, _, rfl, rfl, pointsTo_bigWord _ hp, hfresh,
          hLookup_cons_self _ _ _⟩
      · intro hc; omega
      · intro h8 h255; omega
      · intro _; exact kind_bigWord _

/-- `cloneSys` specification: cloning any live value of a well-formed state
(including through the saturation fallback) succeeds, preserves the global
invariant, changes no existing view, gives the clone the same view as the
original, and preserves the variant. -/
theorem cloneSys_spec {s : Sys} {i : Nat} {v : InlineArray} (freshBase : Nat)
    (hwf : sysWF s = true) (hg : s.live.get? i = some v)
    (halloc : allocOK s.heap (viewLen s.heap v) freshBase = true) :
    ∃ v₁ h₁, cloneSys s i freshBase = some ⟨h₁, s.live ++ [v₁]⟩ ∧
      sysWF ⟨h₁, s.live ++ [v₁]⟩ = true ∧
      (∀ w ∈ s.live, derefIA h₁ w = derefIA s.heap w) ∧
      derefIA h₁ v₁ = derefIA s.heap v ∧
      kind v₁ = kind v := by
  obtain ⟨hH, hV, hC⟩ := sysWF_elim hwf
  have hg₂ : s.live[i]? = some v := by
    rw [← List.get?_eq_getElem?]
    exact hg
  have hvmem : v ∈ s.live := List.get?_mem hg
  have hv : validVal s.heap v = true := hV v hvmem
  rcases hk : kind v with _ | k
  · exact absurd hk (validVal_kind_ne_none hv)
  · cases k
    · refine ⟨v, s.heap, ?_, ?_, ?_, ?_, ?_⟩
      · simp only [cloneSys, List.get?_eq_getElem?, hg₂]
        simp [clone, hk]
      · refine sysWF_intro hH ?_ ?_
        · intro w hw
          rcases List.mem_append.mp hw with hw | hw
          · exact hV w hw
          · rw [List.mem_singleton.mp hw]
            exact hv
        · intro e he
          rw [show rcOf e.2 = refsTo s.live e.1 from hC e he, refsTo_append_single,
            pointsTo_inline hk e.1]
          simp
      · intro w hw; rfl
      · rfl
      · exact hk
    · obtain ⟨t, payload, hl⟩ := validVal_small_lookup hv hk
      have hent := (heapWF_elim hH).2 _ (mem_of_hLookup hl)
      obtain ⟨e1, e2, e3, e4, e5, e6, e7, e8⟩ := smallEntryOK_elim hent
      have hder : derefIA s.heap v = some payload := derefIA_small_eq hk hl e1
      have hvl : viewLen s.heap v = payload.length := by simp [viewLen, hder]
      by_cases hrc : t.rc = 255
      · have halloc₂ : allocOK s.heap payload.length freshBase = true := by
          rwa [hvl] at halloc
        obtain ⟨v₁, h₁, hns, hnew, hwf₁, hder₁, hval₁, hvalall, hexternal, hrem,
          hinl, hksm, hkbg⟩ := newSys_spec payload freshBase hwf e8 (by omega) halloc₂
        refine ⟨v₁, h₁, ?_, hwf₁, hexternal, by rw [hder₁, hder], ?_⟩
        · simp only [cloneSys, List.get?_eq_getElem?, hg₂]
          simp only [clone, hk, hl, if_pos hrc, hder]
          rw [hnew]
        · exact hksm (by omega) (by omega)
      · have heq : cloneSys s i freshBase = some ⟨hUpdate s.heap (remote_ptr v)
            (HObj.small { rc := t.rc + 1, len := t.len } payload), s.live ++ [v]⟩ := by
          simp only [cloneSys, List.get?_eq_getElem?, hg₂]
          simp only [clone, hk, hl, if_neg hrc]
        refine ⟨v, _, heq, ?_, ?_, ?_, hk⟩
        · refine sysWF_intro ?_ ?_ ?_
          · refine heapWF_intro (noDupKeys_hUpdate _ _ (heapWF_elim hH).1) ?_
            intro e he
            refine (mem_hUpdate_elim_nodup (heapWF_elim hH).1 he).elim
              (fun hcase => ?_) (fun hcase => ?_)
            · exact (heapWF_elim hH).2 e hcase.1
            · rw [hcase.1]
              show smallEntryOK (remote_ptr v)
                { rc := t.rc + 1, len := t.len } payload = true
              exact smallEntryOK_intro e1 e2 e3 (by show 1 ≤ t.rc + 1; omega)
                (by show t.rc + 1 ≤ 255; omega) e6 e7 e8
          · intro w hw
            rcases List.mem_append.mp hw with hw | hw
            · exact validVal_hUpdate_small hl (hV w hw)
            · rw [List.mem_singleton.mp hw]
              exact validVal_hUpdate_small hl hv
          · intro e he
            refine (mem_hUpdate_elim_nodup (heapWF_elim hH).1 he).elim
              (fun hcase => ?_) (fun hcase => ?_)
            · rw [show rcOf e.2 = refsTo s.live e.1 from hC e hcase.1,
                refsTo_append_single, pointsTo_false_of_ne (Ne.symm hcase.2)]
              simp
            · rw [hcase.1]
              show rcOf (HObj.small { rc := t.rc + 1, len := t.len } payload) =
                refsTo (s.live ++ [v]) (remote_ptr v)
              rw [refsTo_append_single, pointsTo_of_kind_small hk]
              have hrc₂ : refsTo s.live (remote_ptr v) = t.rc :=
                (hC (remote_ptr v, HObj.small t payload) (mem_of_hLookup hl)).symm
              rw [hrc₂]
              show t.rc + 1 = t.rc + (if (true : Bool) then 1 else 0)
              simp
        · intro w hw
          exact derefIA_hUpdate_small_rc _ w hl
        · exact derefIA_hUpdate_small_rc _ v hl
    · obtain ⟨hd, payload, hl⟩ := validVal_big_lookup hv hk
      have hent := (heapWF_elim hH).2 _ (mem_of_hLookup hl)
      obtain ⟨e1, e2, e3, e4, e5, e6, e7, e8⟩ := bigEntryOK_elim hent
      have hder : derefIA s.heap v = some payload := derefIA_big_eq hk hl e1
      have hvl : viewLen s.heap v = payload.length := by simp [viewLen, hder]
      by_cases hrc : hd.rc = 65535
      · have halloc₂ : allocOK s.heap payload.length freshBase = true := by
          rwa [hvl] at halloc
        obtain ⟨v₁, h₁, hns, hnew, hwf₁, hder₁, hval₁, hvalall, hexternal, hrem,
          hinl, hksm, hkbg⟩ := newSys_spec payload freshBase hwf e8 (by omega) halloc₂
        refine ⟨v₁, h₁, ?_, hwf₁, hexternal, by rw [hder₁, hder], ?_⟩
        · simp only [cloneSys, List.get?_eq_getElem?, hg₂]
          simp only [clone, hk, hl, if_pos hrc, hder]
          rw [hnew]
        · exact hkbg (by omega)
      · have heq : cloneSys s i freshBase = some ⟨hUpdate s.heap (remote_ptr v)
            (HObj.big { rc := hd.rc + 1, len := hd.len } payload), s.live ++ [v]⟩ := by
          simp only [cloneSys, List.get?_eq_getElem?, hg₂]
          simp only [clone, hk, hl, if_neg hrc]
        refine ⟨v, _, heq, ?_, ?_, ?_, hk⟩
        · refine sysWF_intro ?_ ?_ ?_
          · refine heapWF_intro (noDupKeys_hUpdate _ _ (heapWF_elim hH).1) ?_
            intro e he
            refine (mem_hUpdate_elim_nodup (heapWF_elim hH).1 he).elim
              (fun hcase => ?_) (fun hcase => ?_)
            · exact (heapWF_elim hH).2 e hcase.1
            · rw [hcase.1]
              show bigEntryOK (remote_ptr v)
                { rc := hd.rc + 1, len := hd.len } payload = true
              refine bigEntryOK_intro ?_ e2 e3 e4 (by show 1 ≤ hd.rc + 1; omega)
                (by show hd.rc + 1 ≤ 65535; omega) e7 e8
              show BigRemoteHeader.lenVal { rc := hd.rc + 1, len := hd.len } =
                payload.length
              rw [lenVal_rc_irrel]
              exact e1
          · intro w hw
            rcases List.mem_append.mp hw with hw | hw
            · exact validVal_hUpdate_big hl (hV w hw)
            · rw [List.mem_singleton.mp hw]
              exact validVal_hUpdate_big hl hv
          · intro e he
            refine (mem_hUpdate_elim_nodup (heapWF_elim hH).1 he).elim
              (fun hcase => ?_) (fun hcase => ?_)
            · rw [show rcOf e.2 = refsTo s.live e.1 from hC e hcase.1,
                refsTo_append_single, pointsTo_false_of_ne (Ne.symm hcase.2)]
              simp
            · rw [hcase.1]
              show rcOf (HObj.big { rc := hd.rc + 1, len := hd.len } payload) =
                refsTo (s.live ++ [v]) (remote_ptr v)
              rw [refsTo_append_single, pointsTo_of_kind_big hk]
              have hrc₂ : refsTo s.live (remote_ptr v) = hd.rc :=
                (hC (remote_ptr v, HObj.big hd payload) (mem_of_hLookup hl)).symm
              rw [hrc₂]
              show hd.rc + 1 = hd.rc + (if (true : Bool) then 1 else 0)
              simp
        · intro w hw
          exact derefIA_hUpdate_big_rc _ w hl
        · exact derefIA_hUpdate_big_rc _ v hl

/-- `dropSys` specification: dropping any live value of a well-formed state
removes it from the live multiset; the inline variant touches nothing; a heap
variant decrements its allocation's refcount by exactly one, and deallocates
the whole allocation — base address `remote_ptr - len`, size
`payload length + trailer/header size`, alignment 8 — exactly when the count
reaches zero; the invariant is preserved and no other view changes. -/
theorem dropSys_spec {s : Sys} {i : Nat} {v : InlineArray}
    (hwf : sysWF s = true) (hg : s.live.get? i = some v) :
    ∃ h₁ info, dropSys s i = some (⟨h₁, s.live.eraseIdx i⟩, info) ∧
      sysWF ⟨h₁, s.live.eraseIdx i⟩ = true ∧
      (∀ w ∈ s.live.eraseIdx i, derefIA h₁ w = derefIA s.heap w) ∧
      (kind v = some Kind.Inline → h₁ = s.heap ∧ info = none) ∧
      (∀ t payload, kind v = some Kind.SmallRemote →
        hLookup s.heap (remote_ptr v) = some (HObj.small t payload) →
        (t.rc = 1 → hLookup h₁ (remote_ptr v) = none ∧
          info = some (remote_ptr v - payload.length, payload.length + 2, 8)) ∧
        (2 ≤ t.rc → info = none ∧
          hLookup h₁ (remote_ptr v) =
            some (HObj.small { rc := t.rc - 1, len := t.len } payload))) ∧
      (∀ hd payload, kind v = some Kind.BigRemote →
        hLookup s.heap (remote_ptr v) = some (HObj.big hd payload) →
        (hd.rc = 1 → hLookup h₁ (remote_ptr v) = none ∧
          info = some (remote_ptr v, payload.length + 8, 8)) ∧
        (2 ≤ hd.rc → info = none ∧
          hLookup h₁ (remote_ptr v) =
            some (HObj.big { rc := hd.rc - 1, len := hd.len } payload))) := by
  obtain ⟨hH, hV, hC⟩ := sysWF_elim hwf
  have hg₂ : s.live[i]? = some v := by
    rw [← List.get?_eq_getElem?]
    exact hg
  have hvmem : v ∈ s.live := List.get?_mem hg
  have hv : validVal s.heap v = true := hV v hvmem
  have hsub : (s.live.eraseIdx i).Sublist s.live := List.eraseIdx_sublist _ _
  rcases hk : kind v with _ | k
  · exact absurd hk (validVal_kind_ne_none hv)
  · cases k
    · -- Inline: no-op
      refine ⟨s.heap, none, ?_, ?_, fun w hw => rfl, fun _ => ⟨rfl, rfl⟩, ?_, ?_⟩
      · simp only [dropSys, List.get?_eq_getElem?, hg₂]
        simp [dropIA, hk]
      · refine sysWF_intro hH (fun w hw => hV w (hsub.mem hw)) ?_
        intro e he
        have h₀ := hC e he
        have h₁ := refsTo_eraseIdx_add s.live i v e.1 hg
        rw [pointsTo_inline hk e.1] at h₁
        simp only [if_neg (by simp : ¬ (false = true))] at h₁
        show rcOf e.2 = refsTo (s.live.eraseIdx i) e.1
        omega
      · intro t payload hk₂ _
        exact absurd hk₂ (by simp)
      · intro hd payload hk₂ _
        exact absurd hk₂ (by simp)
    · -- SmallRemote
      obtain ⟨t, payload, hl⟩ := validVal_small_lookup hv hk
      have hent := (heapWF_elim hH).2 _ (mem_of_hLookup hl)
      obtain ⟨e1, e2, e3, e4, e5, e6, e7, e8⟩ := smallEntryOK_elim hent
      have hrc₀ : refsTo s.live (remote_ptr v) = t.rc :=
        (hC (remote_ptr v, HObj.small t payload) (mem_of_hLookup hl)).symm
      have herase := refsTo_eraseIdx_add s.live i v (remote_ptr v) hg
      rw [pointsTo_of_kind_small hk] at herase
      simp only [eq_self_iff_true, if_true] at herase
      have hrcw : (t.rc + 255) % 256 = t.rc - 1 := by omega
      by_cases hrc : t.rc = 1
      · -- deallocation
        have hzero : (t.rc + 255) % 256 = 0 := by omega
        have heq : dropSys s i = some (⟨hRemove s.heap (remote_ptr v),
            s.live.eraseIdx i⟩,
            some (remote_ptr v - t.len, t.len + 2, 8)) := by
          simp only [dropSys, List.get?_eq_getElem?, hg₂]
          simp only [dropIA, hk, hl, hzero, eq_self_iff_true, if_true]
        have hnone := hLookup_hRemove_self s.heap (remote_ptr v)
        have hzero₂ : refsTo (s.live.eraseIdx i) (remote_ptr v) = 0 := by omega
        have hnp : ∀ w ∈ s.live.eraseIdx i, pointsTo w (remote_ptr v) = false := by
          intro w hw
          have := List.countP_eq_zero.mp hzero₂ w hw
          simpa using this
        refine ⟨hRemove s.heap (remote_ptr v), some (remote_ptr v - t.len, t.len + 2, 8),
          heq, ?_, ?_, ?_, ?_, ?_⟩
        · refine sysWF_intro ?_ ?_ ?_
          · refine heapWF_intro (noDupKeys_hRemove _ (heapWF_elim hH).1) ?_
            intro e he
            exact (heapWF_elim hH).2 e (mem_hRemove_elim he).1
          · intro w hw
            exact validVal_hRemove_not_pointing (hnp w hw) (hV w (hsub.mem hw))
          · intro e he
            obtain ⟨he₁, hne⟩ := mem_hRemove_elim he
            have h₀ := hC e he₁
            have h₁ := refsTo_eraseIdx_add s.live i v e.1 hg
            rw [pointsTo_false_of_ne (Ne.symm hne)] at h₁
            simp only [if_neg (by simp : ¬ (false = true))] at h₁
            show rcOf e.2 = refsTo (s.live.eraseIdx i) e.1
            omega
        · intro w hw
          refine derefIA_eq_of_not_pointing (hnp w hw) ?_
          intro q hq
          exact hLookup_hRemove_ne hq
        · intro hk₂
          exact absurd hk₂ (by simp)
        · intro t₂ payload₂ _ hl₂
          rw [hl] at hl₂
          injection hl₂ with hl₂
          cases hl₂
          refine ⟨fun _ => ⟨hnone, by rw [e1]⟩, fun hge => absurd hrc (by omega)⟩
        · intro hd₂ payload₂ hk₂ _
          exact absurd hk₂ (by simp)
      · -- decrement only
        have h2le : 2 ≤ t.rc := by omega
        have hnz : ¬ ((t.rc + 255) % 256 = 0) := by omega
        have heq : dropSys s i = some (⟨hUpdate s.heap (remote_ptr v)
            (HObj.small { rc := (t.rc + 255) % 256, len := t.len } payload),
            s.live.eraseIdx i⟩, none) := by
          simp only [dropSys, List.get?_eq_getElem?, hg₂]
          simp only [dropIA, hk, hl, if_neg hnz]
        refine ⟨_, none, heq, ?_, ?_, ?_, ?_, ?_⟩
        · refine sysWF_intro ?_ ?_ ?_
          · refine heapWF_intro (noDupKeys_hUpdate _ _ (heapWF_elim hH).1) ?_
            intro e he
            refine (mem_hUpdate_elim_nodup (heapWF_elim hH).1 he).elim
              (fun hcase => ?_) (fun hcase => ?_)
            · exact (heapWF_elim hH).2 e hcase.1
            · rw [hcase.1]
              show smallEntryOK (remote_ptr v)
                { rc := (t.rc + 255) % 256, len := t.len } payload = true
              exact smallEntryOK_intro e1 e2 e3
                (by show 1 ≤ (t.rc + 255) % 256; omega)
                (by show (t.rc + 255) % 256 ≤ 255; omega) e6 e7 e8
          · intro w hw
            exact validVal_hUpdate_small hl (hV w (hsub.mem hw))
          · intro e he
            refine (mem_hUpdate_elim_nodup (heapWF_elim hH).1 he).elim
              (fun hcase => ?_) (fun hcase => ?_)
            · have h₀ := hC e hcase.1
              have h₁ := refsTo_eraseIdx_add s.live i v e.1 hg
              rw [pointsTo_false_of_ne (Ne.symm hcase.2)] at h₁
              simp only [if_neg (by simp : ¬ (false = true))] at h₁
              show rcOf e.2 = refsTo (s.live.eraseIdx i) e.1
              omega
            · rw [hcase.1]
              show rcOf (HObj.small { rc := (t.rc + 255) % 256, len := t.len } payload) =
                refsTo (s.live.eraseIdx i) (remote_ptr v)
              show (t.rc + 255) % 256 = refsTo (s.live.eraseIdx i) (remote_ptr v)
              omega
        · intro w hw
          exact derefIA_hUpdate_small_rc _ w hl
        · intro hk₂
          exact absurd hk₂ (by simp)
        · intro t₂ payload₂ _ hl₂
          rw [hl] at hl₂
          injection hl₂ with hl₂
          cases hl₂
          refine ⟨fun h1 => absurd h1 hrc, fun _ => ⟨rfl, ?_⟩⟩
          rw [show ({ rc := t.rc - 1, len := t.len } : SmallRemoteTrailer) =
            { rc := (t.rc + 255) % 256, len := t.len } from by rw [hrcw]]
          exact hLookup_hUpdate_self _ hl
        · intro hd₂ payload₂ hk₂ _
          exact absurd hk₂ (by simp)
    · -- BigRemote
      obtain ⟨hd, payload, hl⟩ := validVal_big_lookup hv hk
      have hent := (heapWF_elim hH).2 _ (mem_of_hLookup hl)
      obtain ⟨e1, e2, e3, e4, e5, e6, e7, e8⟩ := bigEntryOK_elim hent
      have hrc₀ : refsTo s.live (remote_ptr v) = hd.rc :=
        (hC (remote_ptr v, HObj.big hd payload) (mem_of_hLookup hl)).symm
      have herase := refsTo_eraseIdx_add s.live i v (remote_ptr v) hg
      rw [pointsTo_of_kind_big hk] at herase
      simp only [eq_self_iff_true, if_true] at herase
      have hrcw : (hd.rc + 65535) % 65536 = hd.rc - 1 := by omega
      by_cases hrc : hd.rc = 1
      · have hzero : (hd.rc + 65535) % 65536 = 0 := by omega
        have heq : dropSys s i = some (⟨hRemove s.heap (remote_ptr v),
            s.live.eraseIdx i⟩, some (remote_ptr v, hd.lenVal + 8, 8)) := by
          simp only [dropSys, List.get?_eq_getElem?, hg₂]
          simp only [dropIA, hk, hl, hzero, eq_self_iff_true, if_true]
        have hnone := hLookup_hRemove_self s.heap (remote_ptr v)
        have hzero₂ : refsTo (s.live.eraseIdx i) (remote_ptr v) = 0 := by omega
        have hnp : ∀ w ∈ s.live.eraseIdx i, pointsTo w (remote_ptr v) = false := by
          intro w hw
          have := List.countP_eq_zero.mp hzero₂ w hw
          simpa using this
        refine ⟨hRemove s.heap (remote_ptr v), some (remote_ptr v, hd.lenVal + 8, 8),
          heq, ?_, ?_, ?_, ?_, ?_⟩
        · refine sysWF_intro ?_ ?_ ?_
          · refine heapWF_intro (noDupKeys_hRemove _ (heapWF_elim hH).1) ?_
            intro e he
            exact (heapWF_elim hH).2 e (mem_hRemove_elim he).1
          · intro w hw
            exact validVal_hRemove_not_pointing (hnp w hw) (hV w (hsub.mem hw))
          · intro e he
            obtain ⟨he₁, hne⟩ := mem_hRemove_elim he
            have h₀ := hC e he₁
            have h₁ := refsTo_eraseIdx_add s.live i v e.1 hg
            rw [pointsTo_false_of_ne (Ne.symm hne)] at h₁
            simp only [if_neg (by simp : ¬ (false = true))] at h₁
            show rcOf e.2 = refsTo (s.live.eraseIdx i) e.1
            omega
        · intro w hw
          refine derefIA_eq_of_not_pointing (hnp w hw) ?_
          intro q hq
          exact hLookup_hRemove_ne hq
        · intro hk₂
          exact absurd hk₂ (by simp)
        · intro t₂ payload₂ hk₂ _
          exact absurd hk₂ (by simp)
        · intro hd₂ payload₂ _ hl₂
          rw [hl] at hl₂
          injection hl₂ with hl₂
          cases hl₂
          refine ⟨fun _ => ⟨hnone, by rw [e1]⟩, fun hge => absurd hrc (by omega)⟩
      · have h2le : 2 ≤ hd.rc := by omega
        have hnz : ¬ ((hd.rc + 65535) % 65536 = 0) := by omega
        have heq : dropSys s i = some (⟨hUpdate s.heap (remote_ptr v)
            (HObj.big { rc := (hd.rc + 65535) % 65536, len := hd.len } payload),
            s.live.eraseIdx i⟩, none) := by
          simp only [dropSys, List.get?_eq_getElem?, hg₂]
          simp only [dropIA, hk, hl, if_neg hnz]
        refine ⟨_, none, heq, ?_, ?_, ?_, ?_, ?_⟩
        · refine sysWF_intro ?_ ?_ ?_
          · refine heapWF_intro (noDupKeys_hUpdate _ _ (heapWF_elim hH).1) ?_
            intro e he
            refine (mem_hUpdate_elim_nodup (heapWF_elim hH).1 he).elim
              (fun hcase => ?_) (fun hcase => ?_)
            · exact (heapWF_elim hH).2 e hcase.1
            · rw [hcase.1]
              show bigEntryOK (remote_ptr v)
                { rc := (hd.rc + 65535) % 65536, len := hd.len } payload = true
              refine bigEntryOK_intro ?_ e2 e3 e4
                (by show 1 ≤ (hd.rc + 65535) % 65536; omega)
                (by show (hd.rc + 65535) % 65536 ≤ 65535; omega) e7 e8
              show BigRemoteHeader.lenVal
                { rc := (hd.rc + 65535) % 65536, len := hd.len } = payload.length
              rw [lenVal_rc_irrel]
              exact e1
          · intro w hw
            exact validVal_hUpdate_big hl (hV w (hsub.mem hw))
          · intro e he
            refine (mem_hUpdate_elim_nodup (heapWF_elim hH).1 he).elim
              (fun hcase => ?_) (fun hcase => ?_)
            · have h₀ := hC e hcase.1
              have h₁ := refsTo_eraseIdx_add s.live i v e.1 hg
              rw [pointsTo_false_of_ne (Ne.symm hcase.2)] at h₁
              simp only [if_neg (by simp : ¬ (false = true))] at h₁
              show rcOf e.2 = refsTo (s.live.eraseIdx i) e.1
              omega
            · rw [hcase.1]
              show rcOf (HObj.big { rc := (hd.rc + 65535) % 65536, len := hd.len }
                payload) = refsTo (s.live.eraseIdx i) (remote_ptr v)
              show (hd.rc + 65535) % 65536 = refsTo (s.live.eraseIdx i) (remote_ptr v)
              omega
        · intro w hw
          exact derefIA_hUpdate_big_rc _ w hl
        · intro hk₂
          exact absurd hk₂ (by simp)
        · intro t₂ payload₂ hk₂ _
          exact absurd hk₂ (by simp)
        · intro hd₂ payload₂ _ hl₂
          rw [hl] at hl₂
          injection hl₂ with hl₂
          cases hl₂
          refine ⟨fun h1 => absurd h1 hrc, fun _ => ⟨rfl, ?_⟩⟩
          rw [show ({ rc := hd.rc - 1, len := hd.len } : BigRemoteHeader) =
            { rc := (hd.rc + 65535) % 65536, len := hd.len } from by rw [hrcw]]
          exact hLookup_hUpdate_self _ hl

theorem set_get?_eq_self : ∀ (l : List InlineArray) (i : Nat) (a : InlineArray),
    l.get? i = some a → l.set i a = l := by
  intro l
  induction l with
  | nil => intro i a hg; simp at hg
  | cons x t ih =>
    intro i a hg
    cases i with
    | zero =>
      simp only [List.get?] at hg
      injection hg with hg
      rw [List.set, hg]
    | succ i =>
      simp only [List.get?] at hg
      rw [List.set, ih i a hg]

theorem get?_set_self : ∀ (l : List InlineArray) (i : Nat) (a b : InlineArray),
    l.get? i = some a → (l.set i b).get? i = some b := by
  intro l
  induction l with
  | nil => intro i a b hg; simp at hg
  | cons x t ih =>
    intro i a b hg
    cases i with
    | zero => rfl
    | succ i =>
      simp only [List.get?] at hg
      exact ih i a b hg

theorem mem_set_elim {α : Type} : ∀ (l : List α) (i : Nat) (b w : α),
    w ∈ l.set i b → w ∈ l ∨ w = b := by
  intro l
  induction l with
  | nil => intro i b w hw; simp [List.set] at hw
  | cons x t ih =>
    intro i b w hw
    cases i with
    | zero =>
      rcases List.mem_cons.mp hw with hw | hw
      · exact Or.inr hw
      · exact Or.inl (List.mem_cons_of_mem _ hw)
    | succ i =>
      rcases List.mem_cons.mp hw with hw | hw
      · exact Or.inl (by simp [hw])
      · rcases ih i b w hw with hw | hw
        · exact Or.inl (List.mem_cons_of_mem _ hw)
        · exact Or.inr hw

/-- `makeMutSys` specification: on a well-formed state, `make_mut` on any
live value succeeds; the returned mutable slice holds exactly the bytes of
the value's prior read view; afterwards the (possibly replaced) value's
allocation — when the variant is remote — has refcount exactly 1; the values
of every other live handle keep their views; the variant is preserved; and
the global invariant is preserved. -/
theorem makeMutSys_spec {s : Sys} {i : Nat} {v : InlineArray} (freshBase : Nat)
    (hwf : sysWF s = true) (hg : s.live.get? i = some v)
    (halloc : allocOK s.heap (viewLen s.heap v) freshBase = true) :
    ∃ v₁ h₁ slice, makeMutSys s i freshBase = some (⟨h₁, s.live.set i v₁⟩, slice) ∧
      sysWF ⟨h₁, s.live.set i v₁⟩ = true ∧
      derefIA s.heap v = some slice ∧
      derefIA h₁ v₁ = some slice ∧
      kind v₁ = kind v ∧
      (∀ w ∈ s.live, derefIA h₁ w = derefIA s.heap w) ∧
      (kind v ≠ some Kind.Inline →
        ∃ o, hLookup h₁ (remote_ptr v₁) = some o ∧ rcOf o = 1) ∧
      (s.live.set i v₁).get? i = some v₁ := by
  obtain ⟨hH, hV, hC⟩ := sysWF_elim hwf
  have hg₂ : s.live[i]? = some v := by
    rw [← List.get?_eq_getElem?]
    exact hg
  have hvmem : v ∈ s.live := List.get?_mem hg
  have hv : validVal s.heap v = true := hV v hvmem
  rcases hk : kind v with _ | k
  · exact absurd hk (validVal_kind_ne_none hv)
  · cases k
    · -- Inline
      have hset := set_get?_eq_self s.live i v hg
      refine ⟨v, s.heap, v.data.take (inline_len v), ?_, ?_, by simp [derefIA, hk],
        by simp [derefIA, hk], hk, fun w hw => rfl, fun hni => absurd rfl hni,
        get?_set_self s.live i v v hg⟩
      · simp only [makeMutSys, List.get?_eq_getElem?, hg₂]
        simp [make_mut, hk]
      · rw [show (⟨s.heap, s.live.set i v⟩ : Sys) = s from by rw [hset]]
        exact hwf
    · -- SmallRemote
      obtain ⟨t, payload, hl⟩ := validVal_small_lookup hv hk
      have hent := (heapWF_elim hH).2 _ (mem_of_hLookup hl)
      obtain ⟨e1, e2, e3, e4, e5, e6, e7, e8⟩ := smallEntryOK_elim hent
      have hder : derefIA s.heap v = some payload := derefIA_small_eq hk hl e1
      have hdst : deref_small_trailer s.heap v = some t := by
        simp [deref_small_trailer, hl]
      by_cases hrc : t.rc = 1
      · have hset := set_get?_eq_self s.live i v hg
        refine ⟨v, s.heap, payload, ?_, ?_, hder, hder, hk, fun w hw => rfl,
          fun _ => ⟨HObj.small t payload, hl, hrc⟩, get?_set_self s.live i v v hg⟩
        · simp only [makeMutSys, List.get?_eq_getElem?, hg₂]
          simp only [make_mut, hk, hdst]
          rw [if_neg (by simp [hrc])]
          simp only [hder]
        · rw [show (⟨s.heap, s.live.set i v⟩ : Sys) = s from by rw [hset]]
          exact hwf
      · have hrc₀ : refsTo s.live (remote_ptr v) = t.rc :=
          (hC (remote_ptr v, HObj.small t payload) (mem_of_hLookup hl)).symm
        have hrc2 : 2 ≤ t.rc := by omega
        have hvl : viewLen s.heap v = payload.length := by simp [viewLen, hder]
        have halloc₂ : allocOK s.heap payload.length freshBase = true := by
          rwa [hvl] at halloc
        obtain ⟨ha1, ha2, ha3, ha4⟩ := allocOK_elim halloc₂
        have hL8 : 8 ≤ payload.length := e1 ▸ e2
        have hL255 : payload.length ≤ 255 := e1 ▸ e3
        have hp₂ : freshBase + payload.length < 2 ^ 56 := by omega
        have hfresh : (freshBase + payload.length) ∉ keysOf s.heap := ha3 hL8 hL255
        have hnew := new_eq_small payload freshBase s.heap hL8 hL255 hp₂
        have hrpne : remote_ptr v ≠ freshBase + payload.length :=
          fun hc => hfresh (hc ▸ hLookup_mem_keys hl)
        have hl₁ : hLookup ((freshBase + payload.length,
            HObj.small { rc := 1, len := payload.length } payload) :: s.heap)
            (remote_ptr v) = some (HObj.small t payload) := by
          rw [hLookup_cons, if_neg (fun hc => hrpne hc.symm)]
          exact hl
        have hnz : ¬ ((t.rc + 255) % 256 = 0) := by omega
        have hdrop : dropIA ((freshBase + payload.length,
            HObj.small { rc := 1, len := payload.length } payload) :: s.heap) v =
            some (hUpdate ((freshBase + payload.length,
              HObj.small { rc := 1, len := payload.length } payload) :: s.heap)
              (remote_ptr v)
              (HObj.small { rc := (t.rc + 255) % 256, len := t.len } payload),
              none) := by
          simp only [dropIA, hk, hl₁, if_neg hnz]
        have hrp₁ : remote_ptr (smallWord (freshBase + payload.length)) =
            freshBase + payload.length := remote_ptr_smallWord _ hp₂
        have hl₂ : hLookup (hUpdate ((freshBase + payload.length,
            HObj.small { rc := 1, len := payload.length } payload) :: s.heap)
            (remote_ptr v)
            (HObj.small { rc := (t.rc + 255) % 256, len := t.len } payload))
            (remote_ptr (smallWord (freshBase + payload.length))) =
            some (HObj.small { rc := 1, len := payload.length } payload) := by
          rw [hrp₁, hLookup_hUpdate_ne _ (fun hc => hrpne hc.symm)]
          exact hLookup_cons_self _ _ _
        have hder₂ := derefIA_small_eq (kind_smallWord (freshBase + payload.length))
          hl₂ rfl
        have hnodup₁ : noDupKeys ((freshBase + payload.length,
            HObj.small { rc := 1, len := payload.length } payload) :: s.heap) = true :=
          noDupKeys_cons_intro hfresh (heapWF_elim hH).1
        refine ⟨smallWord (freshBase + payload.length), _, payload, ?_, ?_, hder,
          hder₂, kind_smallWord _, ?_, ?_, get?_set_self s.live i v _ hg⟩
        · simp only [makeMutSys, List.get?_eq_getElem?, hg₂]
          simp only [make_mut, hk, hdst]
          rw [if_pos hrc]
          simp only [hder, hnew, hdrop, hder₂]
        · -- sysWF
          refine sysWF_intro ?_ ?_ ?_
          · refine heapWF_intro (noDupKeys_hUpdate _ _ hnodup₁) ?_
            intro e he
            refine (mem_hUpdate_elim_nodup hnodup₁ he).elim
              (fun hcase => ?_) (fun hcase => ?_)
            · rcases List.mem_cons.mp hcase.1 with he₂ | he₂
              · rw [he₂]
                show smallEntryOK (freshBase + payload.length)
                  { rc := 1, len := payload.length } payload = true
                exact smallEntryOK_intro rfl hL8 hL255 (le_refl 1)
                  (by show (1 : Nat) ≤ 255; omega)
                  (by show payload.length ≤ freshBase + payload.length; omega)
                  (by show (freshBase + payload.length - payload.length) % 8 = 0
                      omega) e8
              · exact (heapWF_elim hH).2 e he₂
            · rw [hcase.1]
              show smallEntryOK (remote_ptr v)
                { rc := (t.rc + 255) % 256, len := t.len } payload = true
              exact smallEntryOK_intro e1 e2 e3
                (by show 1 ≤ (t.rc + 255) % 256; omega)
                (by show (t.rc + 255) % 256 ≤ 255; omega) e6 e7 e8
          · intro w hw
            rcases mem_set_elim s.live i _ w hw with hw | hw
            · exact validVal_hUpdate_small hl₁
                (validVal_cons_fresh _ hfresh (hV w hw))
            · rw [hw]
              have hl₃ := hl₂
              rw [hrp₁] at hl₃
              exact validVal_smallWord hp₂ hl₃
          · intro e he
            have hsetadd := refsTo_set_add s.live i v
              (smallWord (freshBase + payload.length)) e.1 hg
            refine (mem_hUpdate_elim_nodup hnodup₁ he).elim
              (fun hcase => ?_) (fun hcase => ?_)
            · rcases List.mem_cons.mp hcase.1 with he₂ | he₂
              · -- fresh allocation: rc 1
                have hkey : e.1 = freshBase + payload.length := by rw [he₂]
                have hval : e.2 = HObj.small { rc := 1, len := payload.length }
                    payload := by rw [he₂]
                have hz : refsTo s.live e.1 = 0 := by
                  rw [hkey]
                  exact refsTo_eq_zero_of_fresh hV hfresh
                have hptv : pointsTo v e.1 = false := by
                  rw [hkey]
                  exact pointsTo_false_of_ne hrpne
                have hptv₁ : pointsTo (smallWord (freshBase + payload.length)) e.1 =
                    true := by
                  rw [hkey]
                  exact pointsTo_smallWord _ hp₂
                rw [hptv, hptv₁] at hsetadd
                simp only [if_neg (by simp : ¬ (false = true)),
                  eq_self_iff_true, if_true] at hsetadd
                rw [hval]
                show (1 : Nat) = refsTo (s.live.set i
                  (smallWord (freshBase + payload.length))) e.1
                omega
              · -- untouched old allocation
                have h₀ := hC e he₂
                have hptv : pointsTo v e.1 = false :=
                  pointsTo_false_of_ne (fun hc => hcase.2 hc.symm)
                have hptv₁ : pointsTo (smallWord (freshBase + payload.length)) e.1 =
                    false := by
                  refine pointsTo_false_of_ne ?_
                  rw [hrp₁]
                  intro hc
                  exact hfresh (hc ▸ mem_keysOf he₂)
                rw [hptv, hptv₁] at hsetadd
                simp only [if_neg (by simp : ¬ (false = true))] at hsetadd
                show rcOf e.2 = refsTo (s.live.set i
                  (smallWord (freshBase + payload.length))) e.1
                omega
            · -- decremented old allocation
              have hkey : e.1 = remote_ptr v := by rw [hcase.1]
              have hval : e.2 = HObj.small { rc := (t.rc + 255) % 256, len := t.len }
                  payload := by rw [hcase.1]
              have hptv : pointsTo v e.1 = true := by
                rw [hkey]
                exact pointsTo_of_kind_small hk
              have hptv₁ : pointsTo (smallWord (freshBase + payload.length)) e.1 =
                  false := by
                rw [hkey]
                refine pointsTo_false_of_ne ?_
                rw [hrp₁]
                intro hc
                exact hrpne hc.symm
              rw [hptv, hptv₁] at hsetadd
              simp only [if_neg (by simp : ¬ (false = true)),
                eq_self_iff_true, if_true] at hsetadd
              have hrlive : refsTo s.live e.1 = t.rc := by
                rw [hkey]
                exact hrc₀
              rw [hval]
              show (t.rc + 255) % 256 = refsTo (s.live.set i
                (smallWord (freshBase + payload.length))) e.1
              omega
        · intro w hw
          rw [derefIA_hUpdate_small_rc _ w hl₁,
            derefIA_cons_fresh_of_valid _ hfresh (hV w hw)]
        · intro _
          exact ⟨HObj.small { rc := 1, len := payload.length } payload, hl₂, rfl⟩
    · -- BigRemote
      obtain ⟨hd, payload, hl⟩ := validVal_big_lookup hv hk
      have hent := (heapWF_elim hH).2 _ (mem_of_hLookup hl)
      obtain ⟨e1, e2, e3, e4, e5, e6, e7, e8⟩ := bigEntryOK_elim hent
      have hder : derefIA s.heap v = some payload := derefIA_big_eq hk hl e1
      have hdst : deref_big_header s.heap v = some hd := by
        simp [deref_big_header, hl]
      by_cases hrc : hd.rc = 1
      · have hset := set_get?_eq_self s.live i v hg
        refine ⟨v, s.heap, payload, ?_, ?_, hder, hder, hk, fun w hw => rfl,
          fun _ => ⟨HObj.big hd payload, hl, hrc⟩, get?_set_self s.live i v v hg⟩
        · simp only [makeMutSys, List.get?_eq_getElem?, hg₂]
          simp only [make_mut, hk, hdst]
          rw [if_neg (by simp [hrc])]
          simp only [hder]
        · rw [show (⟨s.heap, s.live.set i v⟩ : Sys) = s from by rw [hset]]
          exact hwf
      · have hrc₀ : refsTo s.live (remote_ptr v) = hd.rc :=
          (hC (remote_ptr v, HObj.big hd payload) (mem_of_hLookup hl)).symm
        have hrc2 : 2 ≤ hd.rc := by omega
        have hvl : viewLen s.heap v = payload.length := by simp [viewLen, hder]
        have halloc₂ : allocOK s.heap payload.length freshBase = true := by
          rwa [hvl] at halloc
        obtain ⟨ha1, ha2, ha3, ha4⟩ := allocOK_elim halloc₂
        have hL256 : 256 ≤ payload.length := e3
        have hp₂ : freshBase < 2 ^ 56 := by omega
        have hfresh : freshBase ∉ keysOf s.heap := ha4 hL256
        have hnew := new_eq_big payload freshBase s.heap hL256 e4 hp₂
        have hrpne : remote_ptr v ≠ freshBase :=
          fun hc => hfresh (hc ▸ hLookup_mem_keys hl)
        have hl₁ : hLookup ((freshBase,
            HObj.big { rc := 1, len := natToBytesLE payload.length 6 } payload) ::
            s.heap) (remote_ptr v) = some (HObj.big hd payload) := by
          rw [hLookup_cons, if_neg (fun hc => hrpne hc.symm)]
          exact hl
        have hnz : ¬ ((hd.rc + 65535) % 65536 = 0) := by omega
        have hdrop : dropIA ((freshBase,
            HObj.big { rc := 1, len := natToBytesLE payload.length 6 } payload) ::
            s.heap) v = some (hUpdate ((freshBase,
              HObj.big { rc := 1, len := natToBytesLE payload.length 6 } payload) ::
              s.heap) (remote_ptr v)
              (HObj.big { rc := (hd.rc + 65535) % 65536, len := hd.len } payload),
              none) := by
          simp only [dropIA, hk, hl₁, if_neg hnz]
        have hrp₁ : remote_ptr (bigWord freshBase) = freshBase :=
          remote_ptr_bigWord _ hp₂
        have hl₂ : hLookup (hUpdate ((freshBase,
            HObj.big { rc := 1, len := natToBytesLE payload.length 6 } payload) ::
            s.heap) (remote_ptr v)
            (HObj.big { rc := (hd.rc + 65535) % 65536, len := hd.len } payload))
            (remote_ptr (bigWord freshBase)) =
            some (HObj.big { rc := 1, len := natToBytesLE payload.length 6 }
              payload) := by
          rw [hrp₁, hLookup_hUpdate_ne _ (fun hc => hrpne hc.symm)]
          exact hLookup_cons_self _ _ _
        have hder₂ := derefIA_big_eq (kind_bigWord freshBase) hl₂
          (lenVal_natToBytesLE 1 _ e4)
        have hnodup₁ : noDupKeys ((freshBase,
            HObj.big { rc := 1, len := natToBytesLE payload.length 6 } payload) ::
            s.heap) = true :=
          noDupKeys_cons_intro hfresh (heapWF_elim hH).1
        refine ⟨bigWord freshBase, _, payload, ?_, ?_, hder, hder₂,
          kind_bigWord _, ?_, ?_, get?_set_self s.live i v _ hg⟩
        · simp only [makeMutSys, List.get?_eq_getElem?, hg₂]
          simp only [make_mut, hk, hdst]
          rw [if_pos hrc]
          simp only [hder, hnew, hdrop, hder₂]
        · refine sysWF_intro ?_ ?_ ?_
          · refine heapWF_intro (noDupKeys_hUpdate _ _ hnodup₁) ?_
            intro e he
            refine (mem_hUpdate_elim_nodup hnodup₁ he).elim
              (fun hcase => ?_) (fun hcase => ?_)
            · rcases List.mem_cons.mp hcase.1 with he₂ | he₂
              · rw [he₂]
                show bigEntryOK freshBase
                  { rc := 1, len := natToBytesLE payload.length 6 } payload = true
                exact bigEntryOK_intro (lenVal_natToBytesLE 1 _ e4)
                  (natToBytesLE_length 6 _) hL256 e4 (le_refl 1)
                  (by show (1 : Nat) ≤ 65535; omega)
                  (by show freshBase % 8 = 0; omega) e8
              · exact (heapWF_elim hH).2 e he₂
            · rw [hcase.1]
              show bigEntryOK (remote_ptr v)
                { rc := (hd.rc + 65535) % 65536, len := hd.len } payload = true
              refine bigEntryOK_intro ?_ e2 e3 e4
                (by show 1 ≤ (hd.rc + 65535) % 65536; omega)
                (by show (hd.rc + 65535) % 65536 ≤ 65535; omega) e7 e8
              show BigRemoteHeader.lenVal
                { rc := (hd.rc + 65535) % 65536, len := hd.len } = payload.length
              rw [lenVal_rc_irrel]
              exact e1
          · intro w hw
            rcases mem_set_elim s.live i _ w hw with hw | hw
            · exact validVal_hUpdate_big hl₁
                (validVal_cons_fresh _ hfresh (hV w hw))
            · rw [hw]
              have hl₃ := hl₂
              rw [hrp₁] at hl₃
              exact validVal_bigWord hp₂ hl₃
          · intro e he
            have hsetadd := refsTo_set_add s.live i v (bigWord freshBase) e.1 hg
            refine (mem_hUpdate_elim_nodup hnodup₁ he).elim
              (fun hcase => ?_) (fun hcase => ?_)
            · rcases List.mem_cons.mp hcase.1 with he₂ | he₂
              · have hkey : e.1 = freshBase := by rw [he₂]
                have hval : e.2 = HObj.big
                    { rc := 1, len := natToBytesLE payload.length 6 } payload := by
                  rw [he₂]
                have hz : refsTo s.live e.1 = 0 := by
                  rw [hkey]
                  exact refsTo_eq_zero_of_fresh hV hfresh
                have hptv : pointsTo v e.1 = false := by
                  rw [hkey]
                  exact pointsTo_false_of_ne hrpne
                have hptv₁ : pointsTo (bigWord freshBase) e.1 = true := by
                  rw [hkey]
                  exact pointsTo_bigWord _ hp₂
                rw [hptv, hptv₁] at hsetadd
                simp only [if_neg (by simp : ¬ (false = true)),
                  eq_self_iff_true, if_true] at hsetadd
                rw [hval]
                show (1 : Nat) = refsTo (s.live.set i (bigWord freshBase)) e.1
                omega
              · have h₀ := hC e he₂
                have hptv : pointsTo v e.1 = false :=
                  pointsTo_false_of_ne (fun hc => hcase.2 hc.symm)
                have hptv₁ : pointsTo (bigWord freshBase) e.1 = false := by
                  refine pointsTo_false_of_ne ?_
                  rw [hrp₁]
                  intro hc
                  exact hfresh (hc ▸ mem_keysOf he₂)
                rw [hptv, hptv₁] at hsetadd
                simp only [if_neg (by simp : ¬ (false = true))] at hsetadd
                show rcOf e.2 = refsTo (s.live.set i (bigWord freshBase)) e.1
                omega
            · have hkey : e.1 = remote_ptr v := by rw [hcase.1]
              have hval : e.2 = HObj.big
                  { rc := (hd.rc + 65535) % 65536, len := hd.len } payload := by
                rw [hcase.1]
              have hptv : pointsTo v e.1 = true := by
                rw [hkey]
                exact pointsTo_of_kind_big hk
              have hptv₁ : pointsTo (bigWord freshBase) e.1 = false := by
                rw [hkey]
                refine pointsTo_false_of_ne ?_
                rw [hrp₁]
                intro hc
                exact hrpne hc.symm
              rw [hptv, hptv₁] at hsetadd
              simp only [if_neg (by simp : ¬ (false = true)),
                eq_self_iff_true, if_true] at hsetadd
              have hrlive : refsTo s.live e.1 = hd.rc := by
                rw [hkey]
                exact hrc₀
              rw [hval]
              show (hd.rc + 65535) % 65536 =
                refsTo (s.live.set i (bigWord freshBase)) e.1
              omega
        · intro w hw
          rw [derefIA_hUpdate_big_rc _ w hl₁,
            derefIA_cons_fresh_of_valid _ hfresh (hV w hw)]
        · intro _
          exact ⟨HObj.big { rc := 1, len := natToBytesLE payload.length 6 } payload,
            hl₂, rfl⟩

theorem getD_set_ne {α : Type} (d : α) :
    ∀ (l : List α) (i n : Nat) (x : α), i ≠ n →
    (l.set i x).getD n d = l.getD n d := by
  intro l
  induction l with
  | nil => intro i n x hne; rfl
  | cons y t ih =>
    intro i n x hne
    cases i with
    | zero =>
      cases n with
      | zero => exact absurd rfl hne
      | succ n => rfl
    | succ i =>
      cases n with
      | zero => rfl
      | succ n =>
        show (t.set i x).getD n d = t.getD n d
        exact ih i n x (fun hc => hne (by rw [hc]))

theorem take_set {α : Type} : ∀ (l : List α) (n i : Nat) (x : α),
    (l.set i x).take n = (l.take n).set i x := by
  intro l
  induction l with
  | nil => intro n i x; simp [List.set]
  | cons y t ih =>
    intro n i x
    cases i with
    | zero =>
      cases n with
      | zero => rfl
      | succ n => simp [List.set, List.take_succ_cons]
    | succ i =>
      cases n with
      | zero => rfl
      | succ n =>
        show y :: (t.set i x).take n = y :: (t.take n).set i x
        rw [ih n i x]

theorem mem_eraseIdx_of_get?_ne {α : Type} :
    ∀ (l : List α) (i k : Nat) (c : α), i ≠ k →
    l.get? k = some c → c ∈ l.eraseIdx i := by
  intro l
  induction l with
  | nil => intro i k c hne hg; simp at hg
  | cons x t ih =>
    intro i k c hne hg
    cases i with
    | zero =>
      cases k with
      | zero => exact absurd rfl hne
      | succ k =>
        simp only [List.get?] at hg
        exact List.get?_mem (by simpa [List.eraseIdx] using hg)
    | succ i =>
      cases k with
      | zero =>
        simp only [List.get?] at hg
        injection hg with hg
        rw [← hg]
        exact List.mem_cons_self _ _
      | succ k =>
        simp only [List.get?] at hg
        exact List.mem_cons_of_mem _ (ih i k c (fun hc => hne (by rw [hc])) hg)

theorem countP_two_ge (pr : InlineArray → Bool) (l : List InlineArray)
    (i k : Nat) (a c : InlineArray) (hne : i ≠ k)
    (hgi : l.get? i = some a) (hgk : l.get? k = some c)
    (hpa : pr a = true) (hpc : pr c = true) : 2 ≤ l.countP pr := by
  have h₁ := countP_eraseIdx_add pr l i a hgi
  have hmem : c ∈ l.eraseIdx i := mem_eraseIdx_of_get?_ne l i k c hne hgk
  have h₂ : 0 < (l.eraseIdx i).countP pr :=
    List.countP_pos.mpr ⟨c, hmem, hpc⟩
  rw [if_pos hpa] at h₁
  omega

/-- Two distinct live handles can never share an allocation whose refcount
is 1. -/
theorem not_pointing_of_rc_one {s : Sys} {i k : Nat} {v w : InlineArray} {p : Nat}
    {o : HObj} (hwf : sysWF s = true)
    (hgi : s.live.get? i = some v) (hgk : s.live.get? k = some w) (hne : i ≠ k)
    (hpt : pointsTo v p = true) (hl : hLookup s.heap p = some o)
    (hrc : rcOf o = 1) : pointsTo w p = false := by
  obtain ⟨hH, hV, hC⟩ := sysWF_elim hwf
  cases hw : pointsTo w p with
  | false => rfl
  | true =>
    exfalso
    have hcount : 2 ≤ refsTo s.live p :=
      countP_two_ge _ s.live i k v w hne hgi hgk hpt hw
    have := hC (p, o) (mem_of_hLookup hl)
    simp only at this
    omega

/-- `writeSys` specification: a store through the mutable slice that
`make_mut` returned (unique allocation, in-bounds index, byte value) is
observable through the read view of the same value, preserves the invariant
and the variant, and leaves the views of all other live values unchanged. -/
theorem writeSys_spec {s : Sys} {i j b : Nat} {v : InlineArray} {a : List Nat}
    (hwf : sysWF s = true) (hg : s.live.get? i = some v)
    (hder : derefIA s.heap v = some a)
    (hj : j < a.length) (hb : b < 256)
    (huniq : ∀ o, hLookup s.heap (remote_ptr v) = some o →
      kind v ≠ some Kind.Inline → rcOf o = 1) :
    ∃ v₁ h₁, writeSys s i j b = some ⟨h₁, s.live.set i v₁⟩ ∧
      sysWF ⟨h₁, s.live.set i v₁⟩ = true ∧
      derefIA h₁ v₁ = some (a.set j b) ∧
      kind v₁ = kind v ∧
      (∀ k w, k ≠ i → s.live.get? k = some w →
        derefIA h₁ w = derefIA s.heap w) := by
  obtain ⟨hH, hV, hC⟩ := sysWF_elim hwf
  have hg₂ : s.live[i]? = some v := by
    rw [← List.get?_eq_getElem?]
    exact hg
  have hvmem : v ∈ s.live := List.get?_mem hg
  have hv : validVal s.heap v = true := hV v hvmem
  obtain ⟨hlen8, hbytes⟩ := validVal_shape hv
  rcases hk : kind v with _ | k
  · exact absurd hk (validVal_kind_ne_none hv)
  · cases k
    · -- Inline
      have hil : inline_len v ≤ INLINE_CUTOFF := validVal_inline_len hv hk
      have hil7 : inline_len v ≤ 7 := by
        simpa [INLINE_CUTOFF, SZ] using hil
      have ha : a = v.data.take (inline_len v) := by
        rw [derefIA, hk] at hder
        injection hder with hder
        rw [hder]
      have halen : a.length = inline_len v := by
        rw [ha, List.length_take, hlen8]
        show min (inline_len v) SZ = inline_len v
        simp only [SZ]
        omega
      have hjlt : j < inline_len v := by omega
      have hj7 : j ≠ 7 := by omega
      have htr : inline_trailer ⟨v.data.set j b⟩ = inline_trailer v := by
        show (v.data.set j b).getD (SZ - 1) 0 = v.data.getD (SZ - 1) 0
        exact getD_set_ne 0 v.data j (SZ - 1) b (by simp only [SZ]; omega)
      have hkeq : kind ⟨v.data.set j b⟩ = kind v := by
        simp [kind, tagOf, htr]
      have hileq : inline_len ⟨v.data.set j b⟩ = inline_len v := by
        simp [inline_len, htr]
      have heq : writeSys s i j b = some ⟨s.heap, s.live.set i ⟨v.data.set j b⟩⟩ := by
        simp only [writeSys, List.get?_eq_getElem?, hg₂]
        simp only [writeThrough, hk]
        rw [if_pos hjlt]
      refine ⟨⟨v.data.set j b⟩, s.heap, heq, ?_, ?_, hkeq.trans hk, fun k w _ _ => rfl⟩
      · refine sysWF_intro hH ?_ ?_
        · intro w hw
          rcases mem_set_elim s.live i _ w hw with hw | hw
          · exact hV w hw
          · rw [hw]
            refine validVal_intro_inline ?_ ?_ (hkeq.trans hk) ?_
            · rw [List.length_set]
              exact hlen8
            · intro x hx
              rcases mem_set_elim v.data j b x hx with hx | hx
              · exact hbytes x hx
              · rw [hx]; exact hb
            · rw [hileq]
              exact hil
        · intro e he
          have hsetadd := refsTo_set_add s.live i v ⟨v.data.set j b⟩ e.1 hg
          rw [pointsTo_inline hk, pointsTo_inline (hkeq.trans hk)] at hsetadd
          simp only [if_neg (by simp : ¬ (false = true))] at hsetadd
          have h₀ := hC e he
          show rcOf e.2 = refsTo (s.live.set i ⟨v.data.set j b⟩) e.1
          omega
      · show derefIA s.heap ⟨v.data.set j b⟩ = some (a.set j b)
        rw [derefIA, hkeq.trans hk]
        show some ((v.data.set j b).take (inline_len ⟨v.data.set j b⟩)) = _
        rw [hileq, take_set, ha]
    · -- SmallRemote
      obtain ⟨t, payload, hl⟩ := validVal_small_lookup hv hk
      have hent := (heapWF_elim hH).2 _ (mem_of_hLookup hl)
      obtain ⟨e1, e2, e3, e4, e5, e6, e7, e8⟩ := smallEntryOK_elim hent
      have hderv : derefIA s.heap v = some payload := derefIA_small_eq hk hl e1
      have ha : a = payload := by
        rw [hderv] at hder
        injection hder with hder
        rw [← hder]
      subst ha
      have hrc1 : t.rc = 1 := huniq _ hl (by simp [hk])
      have hidx : a.length - t.len + j = j := by omega
      have hcond : j < t.len ∧ t.len ≤ a.length := by omega
      have heq : writeSys s i j b = some ⟨hUpdate s.heap (remote_ptr v)
          (HObj.small t (a.set j b)), s.live.set i v⟩ := by
        simp only [writeSys, List.get?_eq_getElem?, hg₂]
        simp only [writeThrough, hk, hl]
        rw [if_pos hcond, hidx]
      have hl₂ : hLookup (hUpdate s.heap (remote_ptr v)
          (HObj.small t (a.set j b))) (remote_ptr v) =
          some (HObj.small t (a.set j b)) :=
        hLookup_hUpdate_self _ hl
      have hlen₂ : t.len = (a.set j b).length := by
        rw [List.length_set]
        exact e1
      refine ⟨v, _, heq, ?_, ?_, hk, ?_⟩
      · refine sysWF_intro ?_ ?_ ?_
        · refine heapWF_intro (noDupKeys_hUpdate _ _ (heapWF_elim hH).1) ?_
          intro e he
          refine (mem_hUpdate_elim_nodup (heapWF_elim hH).1 he).elim
            (fun hcase => ?_) (fun hcase => ?_)
          · exact (heapWF_elim hH).2 e hcase.1
          · rw [hcase.1]
            show smallEntryOK (remote_ptr v) t (a.set j b) = true
            refine smallEntryOK_intro hlen₂ e2 e3 e4 e5 e6 e7 ?_
            intro x hx
            rcases mem_set_elim a j b x hx with hx | hx
            · exact e8 x hx
            · rw [hx]; exact hb
        · intro w hw
          rcases mem_set_elim s.live i _ w hw with hw | hw
          · exact validVal_hUpdate_small hl (hV w hw)
          · rw [hw]
            exact validVal_hUpdate_small hl hv
        · intro e he
          have hsetadd := refsTo_set_add s.live i v v e.1 hg
          have hcancel : refsTo (s.live.set i v) e.1 = refsTo s.live e.1 := by
            omega
          refine (mem_hUpdate_elim_nodup (heapWF_elim hH).1 he).elim
            (fun hcase => ?_) (fun hcase => ?_)
          · have h₀ := hC e hcase.1
            show rcOf e.2 = refsTo (s.live.set i v) e.1
            omega
          · have hkey : e.1 = remote_ptr v := by rw [hcase.1]
            have hval : e.2 = HObj.small t (a.set j b) := by rw [hcase.1]
            have h₀ : refsTo s.live e.1 = t.rc := by
              rw [hkey]
              exact (hC (remote_ptr v, HObj.small t a)
                (mem_of_hLookup hl)).symm
            rw [hval]
            show t.rc = refsTo (s.live.set i v) e.1
            omega
      · exact derefIA_small_eq hk hl₂ hlen₂
      · intro k w hki hgk
        have hnp : pointsTo w (remote_ptr v) = false :=
          not_pointing_of_rc_one hwf hg hgk (fun hc => hki hc.symm)
            (pointsTo_of_kind_small hk) hl (by show t.rc = 1; exact hrc1)
        refine derefIA_eq_of_not_pointing hnp ?_
        intro q hq
        exact hLookup_hUpdate_ne _ hq
    · -- BigRemote
      obtain ⟨hd, payload, hl⟩ := validVal_big_lookup hv hk
      have hent := (heapWF_elim hH).2 _ (mem_of_hLookup hl)
      obtain ⟨e1, e2, e3, e4, e5, e6, e7, e8⟩ := bigEntryOK_elim hent
      have hderv : derefIA s.heap v = some payload := derefIA_big_eq hk hl e1
      have ha : a = payload := by
        rw [hderv] at hder
        injection hder with hder
        rw [← hder]
      subst ha
      have hrc1 : hd.rc = 1 := huniq _ hl (by simp [hk])
      have hcond : j < hd.lenVal ∧ hd.lenVal ≤ a.length := by omega
      have heq : writeSys s i j b = some ⟨hUpdate s.heap (remote_ptr v)
          (HObj.big hd (a.set j b)), s.live.set i v⟩ := by
        simp only [writeSys, List.get?_eq_getElem?, hg₂]
        simp only [writeThrough, hk, hl]
        rw [if_pos hcond]
      have hl₂ : hLookup (hUpdate s.heap (remote_ptr v)
          (HObj.big hd (a.set j b))) (remote_ptr v) =
          some (HObj.big hd (a.set j b)) :=
        hLookup_hUpdate_self _ hl
      have hlen₂ : hd.lenVal = (a.set j b).length := by
        rw [List.length_set]
        exact e1
      refine ⟨v, _, heq, ?_, ?_, hk, ?_⟩
      · refine sysWF_intro ?_ ?_ ?_
        · refine heapWF_intro (noDupKeys_hUpdate _ _ (heapWF_elim hH).1) ?_
          intro e he
          refine (mem_hUpdate_elim_nodup (heapWF_elim hH).1 he).elim
            (fun hcase => ?_) (fun hcase => ?_)
          · exact (heapWF_elim hH).2 e hcase.1
          · rw [hcase.1]
            show bigEntryOK (remote_ptr v) hd (a.set j b) = true
            refine bigEntryOK_intro hlen₂ e2 ?_ ?_ e5 e6 e7 ?_
            · rw [List.length_set]
              exact e3
            · rw [List.length_set]
              exact e4
            · intro x hx
              rcases mem_set_elim a j b x hx with hx | hx
              · exact e8 x hx
              · rw [hx]; exact hb
        · intro w hw
          rcases mem_set_elim s.live i _ w hw with hw | hw
          · exact validVal_hUpdate_big hl (hV w hw)
          · rw [hw]
            exact validVal_hUpdate_big hl hv
        · intro e he
          have hsetadd := refsTo_set_add s.live i v v e.1 hg
          refine (mem_hUpdate_elim_nodup (heapWF_elim hH).1 he).elim
            (fun hcase => ?_) (fun hcase => ?_)
          · have h₀ := hC e hcase.1
            show rcOf e.2 = refsTo (s.live.set i v) e.1
            omega
          · have hkey : e.1 = remote_ptr v := by rw [hcase.1]
            have hval : e.2 = HObj.big hd (a.set j b) := by rw [hcase.1]
            have h₀ : refsTo s.live e.1 = hd.rc := by
              rw [hkey]
              exact (hC (remote_ptr v, HObj.big hd a)
                (mem_of_hLookup hl)).symm
            rw [hval]
            show hd.rc = refsTo (s.live.set i v) e.1
            omega
      · exact derefIA_big_eq hk hl₂ hlen₂
      · intro k w hki hgk
        have hnp : pointsTo w (remote_ptr v) = false :=
          not_pointing_of_rc_one hwf hg hgk (fun hc => hki hc.symm)
            (pointsTo_of_kind_big hk) hl (by show hd.rc = 1; exact hrc1)
        refine derefIA_eq_of_not_pointing hnp ?_
        intro q hq
        exact hLookup_hUpdate_ne _ hq

/-- C4: for every live value (any variant — the saturated-refcount fallback
path included, handled inside `cloneSys_spec`), the clone's read view equals
the original's read view, and the clone compares equal to the original under
the defined (byte-view) equality. -/
theorem C4_clone_view_and_equality (s : Sys) (i : Nat) (v : InlineArray)
    (freshBase : Nat) (hwf : sysWF s = true) (hg : s.live.get? i = some v)
    (halloc : allocOK s.heap (viewLen s.heap v) freshBase = true) :
    ∃ v₁ h₁, cloneSys s i freshBase = some ⟨h₁, s.live ++ [v₁]⟩ ∧
      derefIA h₁ v₁ = derefIA h₁ v ∧
      eqIA h₁ v₁ v = true := by
  obtain ⟨v₁, h₁, heq, hwf₁, hext, hder, hkind⟩ :=
    cloneSys_spec freshBase hwf hg halloc
  have hvv : derefIA h₁ v = derefIA s.heap v := hext v (List.get?_mem hg)
  exact ⟨v₁, h₁, heq, by rw [hder, hvv], by simp [eqIA, hder, hvv]⟩

theorem C4_clone_view_and_equality_witness :
    sysWF ⟨[], [inlineWord [1, 2, 3]]⟩ = true ∧
    ([inlineWord [1, 2, 3]].get? 0 = some (inlineWord [1, 2, 3])) ∧
    allocOK [] (viewLen [] (inlineWord [1, 2, 3])) 8 = true ∧
    (∃ v₁ h₁, cloneSys ⟨[], [inlineWord [1, 2, 3]]⟩ 0 8 =
        some ⟨h₁, [inlineWord [1, 2, 3]] ++ [v₁]⟩ ∧
      derefIA h₁ v₁ = derefIA h₁ (inlineWord [1, 2, 3]) ∧
      eqIA h₁ v₁ (inlineWord [1, 2, 3]) = true) :=
  ⟨by decide, by decide, by decide,
    C4_clone_view_and_equality ⟨[], [inlineWord [1, 2, 3]]⟩ 0 (inlineWord [1, 2, 3])
      8 (by decide) (by decide) (by decide)⟩

/-- C5: cloning a heap-variant value whose refcount is observed at the
field's maximum (255 for SmallRemote, 65535 for BigRemote) does not
increment that refcount: it allocates a fresh copy of the payload with its
own refcount 1, while the original keeps pointing at the saturated
allocation (whose entry — refcount included — is unchanged, so further
clones of the original keep taking the fallback).  Below the maximum, clone
stores `rc + 1`, incrementing the shared refcount by exactly one. -/
theorem C5_clone_saturation (h : Heap) (v : InlineArray) (freshBase : Nat)
    (hwf : heapWF h = true) :
    (∀ t payload, kind v = some Kind.SmallRemote →
      hLookup h (remote_ptr v) = some (HObj.small t payload) →
      allocOK h payload.length freshBase = true →
      (t.rc = 255 →
        ∃ v₁ h₁, clone h v freshBase = some (v₁, h₁) ∧
          hLookup h₁ (remote_ptr v) = some (HObj.small t payload) ∧
          remote_ptr v₁ ≠ remote_ptr v ∧
          hLookup h₁ (remote_ptr v₁) =
            some (HObj.small { rc := 1, len := payload.length } payload) ∧
          derefIA h₁ v₁ = some payload) ∧
      (t.rc ≠ 255 →
        clone h v freshBase = some (v, hUpdate h (remote_ptr v)
          (HObj.small { rc := t.rc + 1, len := t.len } payload)) ∧
        hLookup (hUpdate h (remote_ptr v)
            (HObj.small { rc := t.rc + 1, len := t.len } payload))
          (remote_ptr v) =
          some (HObj.small { rc := t.rc + 1, len := t.len } payload))) ∧
    (∀ hd payload, kind v = some Kind.BigRemote →
      hLookup h (remote_ptr v) = some (HObj.big hd payload) →
      allocOK h payload.length freshBase = true →
      (hd.rc = 65535 →
        ∃ v₁ h₁, clone h v freshBase = some (v₁, h₁) ∧
          hLookup h₁ (remote_ptr v) = some (HObj.big hd payload) ∧
          remote_ptr v₁ ≠ remote_ptr v ∧
          hLookup h₁ (remote_ptr v₁) =
            some (HObj.big { rc := 1, len := natToBytesLE payload.length 6 }
              payload) ∧
          derefIA h₁ v₁ = some payload) ∧
      (hd.rc ≠ 65535 →
        clone h v freshBase = some (v, hUpdate h (remote_ptr v)
          (HObj.big { rc := hd.rc + 1, len := hd.len } payload)) ∧
        hLookup (hUpdate h (remote_ptr v)
            (HObj.big { rc := hd.rc + 1, len := hd.len } payload))
          (remote_ptr v) =
          some (HObj.big { rc := hd.rc + 1, len := hd.len } payload))) := by
  constructor
  · intro t payload hk hl halloc
    have hent := (heapWF_elim hwf).2 _ (mem_of_hLookup hl)
    obtain ⟨e1, e2, e3, e4, e5, e6, e7, e8⟩ := smallEntryOK_elim hent
    have hder : derefIA h v = some payload := derefIA_small_eq hk hl e1
    obtain ⟨ha1, ha2, ha3, ha4⟩ := allocOK_elim halloc
    have hL8 : 8 ≤ payload.length := e1 ▸ e2
    have hL255 : payload.length ≤ 255 := e1 ▸ e3
    have hp₂ : freshBase + payload.length < 2 ^ 56 := by omega
    have hfresh : (freshBase + payload.length) ∉ keysOf h := ha3 hL8 hL255
    have hrpne : remote_ptr v ≠ freshBase + payload.length :=
      fun hc => hfresh (hc ▸ hLookup_mem_keys hl)
    constructor
    · intro hrc
      have hnew := new_eq_small payload freshBase h hL8 hL255 hp₂
      have hrp₁ := remote_ptr_smallWord (freshBase + payload.length) hp₂
      refine ⟨smallWord (freshBase + payload.length),
        (freshBase + payload.length,
          HObj.small { rc := 1, len := payload.length } payload) :: h,
        ?_, ?_, ?_, ?_, ?_⟩
      · simp only [clone, hk, hl, if_pos hrc, hder]
        exact hnew
      · rw [hLookup_cons, if_neg (fun hc => hrpne hc.symm)]
        exact hl
      · rw [hrp₁]
        exact fun hc => hrpne hc.symm
      · rw [hrp₁]
        exact hLookup_cons_self _ _ _
      · have hlk : hLookup ((freshBase + payload.length,
            HObj.small { rc := 1, len := payload.length } payload) :: h)
            (remote_ptr (smallWord (freshBase + payload.length))) =
            some (HObj.small { rc := 1, len := payload.length } payload) := by
          rw [hrp₁]
          exact hLookup_cons_self _ _ _
        exact derefIA_small_eq (kind_smallWord _) hlk rfl
    · intro hrc
      refine ⟨?_, hLookup_hUpdate_self _ hl⟩
      simp only [clone, hk, hl, if_neg hrc]
  · intro hd payload hk hl halloc
    have hent := (heapWF_elim hwf).2 _ (mem_of_hLookup hl)
    obtain ⟨e1, e2, e3, e4, e5, e6, e7, e8⟩ := bigEntryOK_elim hent
    have hder : derefIA h v = some payload := derefIA_big_eq hk hl e1
    obtain ⟨ha1, ha2, ha3, ha4⟩ := allocOK_elim halloc
    have hp₂ : freshBase < 2 ^ 56 := by omega
    have hfresh : freshBase ∉ keysOf h := ha4 e3
    have hrpne : remote_ptr v ≠ freshBase :=
      fun hc => hfresh (hc ▸ hLookup_mem_keys hl)
    constructor
    · intro hrc
      have hnew := new_eq_big payload freshBase h e3 e4 hp₂
      have hrp₁ := remote_ptr_bigWord freshBase hp₂
      refine ⟨bigWord freshBase,
        (freshBase,
          HObj.big { rc := 1, len := natToBytesLE payload.length 6 } payload) :: h,
        ?_, ?_, ?_, ?_, ?_⟩
      · simp only [clone, hk, hl, if_pos hrc, hder]
        exact hnew
      · rw [hLookup_cons, if_neg (fun hc => hrpne hc.symm)]
        exact hl
      · rw [hrp₁]
        exact fun hc => hrpne hc.symm
      · rw [hrp₁]
        exact hLookup_cons_self _ _ _
      · have hlk : hLookup ((freshBase,
            HObj.big { rc := 1, len := natToBytesLE payload.length 6 } payload) :: h)
            (remote_ptr (bigWord freshBase)) =
            some (HObj.big { rc := 1, len := natToBytesLE payload.length 6 } payload) := by
          rw [hrp₁]
          exact hLookup_cons_self _ _ _
        exact derefIA_big_eq (kind_bigWord _) hlk (lenVal_natToBytesLE 1 _ e4)
    · intro hrc
      refine ⟨?_, hLookup_hUpdate_self _ hl⟩
      simp only [clone, hk, hl, if_neg hrc]

theorem C5_clone_saturation_witness :
    heapWF [(17, HObj.small { rc := 255, len := 9 } (List.replicate 9 7))] = true ∧
    kind (smallWord 17) = some Kind.SmallRemote ∧
    hLookup [(17, HObj.small { rc := 255, len := 9 } (List.replicate 9 7))]
      (remote_ptr (smallWord 17)) =
      some (HObj.small { rc := 255, len := 9 } (List.replicate 9 7)) ∧
    allocOK [(17, HObj.small { rc := 255, len := 9 } (List.replicate 9 7))]
      (List.replicate 9 7).length 24 = true ∧
    (∃ v₁ h₁,
      clone [(17, HObj.small { rc := 255, len := 9 } (List.replicate 9 7))]
        (smallWord 17) 24 = some (v₁, h₁) ∧
      hLookup h₁ (remote_ptr (smallWord 17)) =
        some (HObj.small { rc := 255, len := 9 } (List.replicate 9 7)) ∧
      remote_ptr v₁ ≠ remote_ptr (smallWord 17) ∧
      hLookup h₁ (remote_ptr v₁) =
        some (HObj.small { rc := 1, len := (List.replicate 9 7).length }
          (List.replicate 9 7)) ∧
      derefIA h₁ v₁ = some (List.replicate 9 7)) :=
  ⟨by decide, by decide, by decide, by decide,
    ((C5_clone_saturation _ (smallWord 17) 24 (by decide)).1
      { rc := 255, len := 9 } (List.replicate 9 7) (by decide) (by decide)
      (by decide)).1 rfl⟩

theorem get?_set_ne {α : Type} : ∀ (l : List α) (i k : Nat) (b : α), i ≠ k →
    (l.set i b).get? k = l.get? k := by
  intro l
  induction l with
  | nil => intro i k b h; rfl
  | cons a l ih =>
    intro i k b h
    cases i with
    | zero =>
      cases k with
      | zero => exact absurd rfl h
      | succ k => rfl
    | succ i =>
      cases k with
      | zero => rfl
      | succ k => exact ih i k b (fun hc => h (by rw [hc]))

/-- C6: the refcount protocol.  (a) In a well-formed state every live heap
allocation's refcount is at least 1 and equals the number of live values
sharing it.  (b) Construction initializes the refcount of a fresh heap
allocation to 1 and preserves well-formedness.  (c) Clone preserves
well-formedness (so the count tracks the new sharer).  (d) Drop of an
Inline value touches nothing; drop of a heap-variant value decrements the
count by exactly one, deallocating the whole allocation — size = payload
length + trailer/header size (2 small, 8 big), alignment 8, at the
construction base — exactly when the count reaches zero, and every
surviving value still resolves (no allocation is freed while a sharer is
live). -/
theorem C6_refcount_protocol (s : Sys) (slice : List Nat) (base i : Nat)
    (v : InlineArray) (freshBase : Nat)
    (hwf : sysWF s = true)
    (hbytes : ∀ b ∈ slice, b < 256) (h48 : slice.length < 2 ^ 48)
    (hallocn : allocOK s.heap slice.length base = true)
    (hg : s.live.get? i = some v)
    (hallocc : allocOK s.heap (viewLen s.heap v) freshBase = true) :
    (∀ e ∈ s.heap, 1 ≤ rcOf e.2 ∧ rcOf e.2 = refsTo s.live e.1) ∧
    (∃ v₁ h₁, newSys s slice base = some ⟨h₁, s.live ++ [v₁]⟩ ∧
      sysWF ⟨h₁, s.live ++ [v₁]⟩ = true ∧
      (8 ≤ slice.length → ∃ p o, hLookup h₁ p = some o ∧ rcOf o = 1 ∧
        pointsTo v₁ p = true)) ∧
    (∃ v₁ h₁, cloneSys s i freshBase = some ⟨h₁, s.live ++ [v₁]⟩ ∧
      sysWF ⟨h₁, s.live ++ [v₁]⟩ = true) ∧
    (∃ h₁ info, dropSys s i = some (⟨h₁, s.live.eraseIdx i⟩, info) ∧
      sysWF ⟨h₁, s.live.eraseIdx i⟩ = true ∧
      (kind v = some Kind.Inline → h₁ = s.heap ∧ info = none) ∧
      (∀ t payload, kind v = some Kind.SmallRemote →
        hLookup s.heap (remote_ptr v) = some (HObj.small t payload) →
        (t.rc = 1 → hLookup h₁ (remote_ptr v) = none ∧
          info = some (remote_ptr v - payload.length, payload.length + 2, 8)) ∧
        (2 ≤ t.rc → info = none ∧ hLookup h₁ (remote_ptr v) =
          some (HObj.small { rc := t.rc - 1, len := t.len } payload))) ∧
      (∀ hd payload, kind v = some Kind.BigRemote →
        hLookup s.heap (remote_ptr v) = some (HObj.big hd payload) →
        (hd.rc = 1 → hLookup h₁ (remote_ptr v) = none ∧
          info = some (remote_ptr v, payload.length + 8, 8)) ∧
        (2 ≤ hd.rc → info = none ∧ hLookup h₁ (remote_ptr v) =
          some (HObj.big { rc := hd.rc - 1, len := hd.len } payload))) ∧
      (∀ w ∈ s.live.eraseIdx i, validVal h₁ w = true)) := by
  obtain ⟨hH, hV, hC⟩ := sysWF_elim hwf
  refine ⟨?_, ?_, ?_, ?_⟩
  · intro e he
    have hent := (heapWF_elim hH).2 _ he
    have hcnt := hC e he
    obtain ⟨p, o⟩ := e
    cases o with
    | small t payload =>
      obtain ⟨e1, e2, e3, e4, e5, e6, e7, e8⟩ := smallEntryOK_elim hent
      exact ⟨e4, hcnt⟩
    | big hd payload =>
      obtain ⟨e1, e2, e3, e4, e5, e6, e7, e8⟩ := bigEntryOK_elim hent
      exact ⟨e5, hcnt⟩
  · obtain ⟨v₁, h₁, hns, hnew, hwf₁, hder₁, hval₁, hvalall, hexternal, hrem,
      hinl, hksm, hkbg⟩ := newSys_spec slice base hwf hbytes h48 hallocn
    refine ⟨v₁, h₁, hns, hwf₁, ?_⟩
    intro h8
    obtain ⟨p, o, _, hrc, hpt, _, hlk⟩ := hrem h8
    exact ⟨p, o, hlk, hrc, hpt⟩
  · obtain ⟨v₁, h₁, hcs, hwf₁, _, _, _⟩ := cloneSys_spec freshBase hwf hg hallocc
    exact ⟨v₁, h₁, hcs, hwf₁⟩
  · obtain ⟨h₁, info, hds, hwf₁, hext, hinl, hsm, hbg⟩ := dropSys_spec hwf hg
    exact ⟨h₁, info, hds, hwf₁, hinl, hsm, hbg,
      fun w hw => (sysWF_elim hwf₁).2.1 w hw⟩

theorem C6_refcount_protocol_witness :
    sysWF ⟨[(17, HObj.small { rc := 2, len := 9 } (List.replicate 9 7))],
      [smallWord 17, smallWord 17]⟩ = true ∧
    (∀ b ∈ [1, 2, 3], b < 256) ∧
    ([1, 2, 3].length < 2 ^ 48) ∧
    allocOK [(17, HObj.small { rc := 2, len := 9 } (List.replicate 9 7))]
      [1, 2, 3].length 32 = true ∧
    ([smallWord 17, smallWord 17].get? 0 = some (smallWord 17)) ∧
    allocOK [(17, HObj.small { rc := 2, len := 9 } (List.replicate 9 7))]
      (viewLen [(17, HObj.small { rc := 2, len := 9 } (List.replicate 9 7))]
        (smallWord 17)) 24 = true ∧
    ((∀ e ∈ [(17, HObj.small { rc := 2, len := 9 } (List.replicate 9 7))],
        1 ≤ rcOf e.2 ∧ rcOf e.2 = refsTo [smallWord 17, smallWord 17] e.1) ∧
      (∃ v₁ h₁, newSys ⟨[(17, HObj.small { rc := 2, len := 9 }
            (List.replicate 9 7))], [smallWord 17, smallWord 17]⟩ [1, 2, 3] 32 =
          some ⟨h₁, [smallWord 17, smallWord 17] ++ [v₁]⟩ ∧
        sysWF ⟨h₁, [smallWord 17, smallWord 17] ++ [v₁]⟩ = true ∧
        (8 ≤ [1, 2, 3].length → ∃ p o, hLookup h₁ p = some o ∧ rcOf o = 1 ∧
          pointsTo v₁ p = true)) ∧
      (∃ v₁ h₁, cloneSys ⟨[(17, HObj.small { rc := 2, len := 9 }
            (List.replicate 9 7))], [smallWord 17, smallWord 17]⟩ 0 24 =
          some ⟨h₁, [smallWord 17, smallWord 17] ++ [v₁]⟩ ∧
        sysWF ⟨h₁, [smallWord 17, smallWord 17] ++ [v₁]⟩ = true) ∧
      (∃ h₁ info, dropSys ⟨[(17, HObj.small { rc := 2, len := 9 }
            (List.replicate 9 7))], [smallWord 17, smallWord 17]⟩ 0 =
          some (⟨h₁, [smallWord 17, smallWord 17].eraseIdx 0⟩, info) ∧
        sysWF ⟨h₁, [smallWord 17, smallWord 17].eraseIdx 0⟩ = true ∧
        (kind (smallWord 17) = some Kind.Inline →
          h₁ = [(17, HObj.small { rc := 2, len := 9 } (List.replicate 9 7))] ∧
          info = none) ∧
        (∀ t payload, kind (smallWord 17) = some Kind.SmallRemote →
          hLookup [(17, HObj.small { rc := 2, len := 9 } (List.replicate 9 7))]
            (remote_ptr (smallWord 17)) = some (HObj.small t payload) →
          (t.rc = 1 → hLookup h₁ (remote_ptr (smallWord 17)) = none ∧
            info = some (remote_ptr (smallWord 17) - payload.length,
              payload.length + 2, 8)) ∧
          (2 ≤ t.rc → info = none ∧ hLookup h₁ (remote_ptr (smallWord 17)) =
            some (HObj.small { rc := t.rc - 1, len := t.len } payload))) ∧
        (∀ hd payload, kind (smallWord 17) = some Kind.BigRemote →
          hLookup [(17, HObj.small { rc := 2, len := 9 } (List.replicate 9 7))]
            (remote_ptr (smallWord 17)) = some (HObj.big hd payload) →
          (hd.rc = 1 → hLookup h₁ (remote_ptr (smallWord 17)) = none ∧
            info = some (remote_ptr (smallWord 17), payload.length + 8, 8)) ∧
          (2 ≤ hd.rc → info = none ∧ hLookup h₁ (remote_ptr (smallWord 17)) =
            some (HObj.big { rc := hd.rc - 1, len := hd.len } payload))) ∧
        (∀ w ∈ [smallWord 17, smallWord 17].eraseIdx 0,
          validVal h₁ w = true))) :=
  ⟨by decide, by decide, by decide, by decide, by decide, by decide,
    C6_refcount_protocol
      ⟨[(17, HObj.small { rc := 2, len := 9 } (List.replicate 9 7))],
        [smallWord 17, smallWord 17]⟩
      [1, 2, 3] 32 0 (smallWord 17) 24
      (by decide) (by decide) (by decide) (by decide) (by decide) (by decide)⟩

/-- C7: after `make_mut` returns, a heap-variant value's underlying
allocation has refcount 1 (privatizing by a fresh copy when the observed
count was not 1); the returned mutable slice holds exactly the bytes the
value's read view held before the call; a write through that slice is
observable through the value's read view afterwards; and all other live
values — previously made clones included — keep their views unchanged,
both after `make_mut` and after the write. -/
theorem C7_make_mut (s : Sys) (i : Nat) (v : InlineArray) (freshBase : Nat)
    (hwf : sysWF s = true) (hg : s.live.get? i = some v)
    (halloc : allocOK s.heap (viewLen s.heap v) freshBase = true) :
    ∃ v₁ h₁ slice, makeMutSys s i freshBase = some (⟨h₁, s.live.set i v₁⟩, slice) ∧
      derefIA s.heap v = some slice ∧
      derefIA h₁ v₁ = some slice ∧
      (kind v ≠ some Kind.Inline →
        ∃ o, hLookup h₁ (remote_ptr v₁) = some o ∧ rcOf o = 1) ∧
      (∀ k w, k ≠ i → s.live.get? k = some w →
        derefIA h₁ w = derefIA s.heap w) ∧
      (∀ j b, j < slice.length → b < 256 →
        ∃ v₂ h₂,
          writeSys ⟨h₁, s.live.set i v₁⟩ i j b =
            some ⟨h₂, (s.live.set i v₁).set i v₂⟩ ∧
          derefIA h₂ v₂ = some (slice.set j b) ∧
          (∀ k w, k ≠ i → s.live.get? k = some w →
            derefIA h₂ w = derefIA s.heap w)) := by
  obtain ⟨v₁, h₁, slice, hmk, hwf₁, hderv, hder₁, hkind, hext, hpriv, hget⟩ :=
    makeMutSys_spec freshBase hwf hg halloc
  refine ⟨v₁, h₁, slice, hmk, hderv, hder₁, hpriv,
    fun k w hk hgw => hext w (List.get?_mem hgw), ?_⟩
  intro j b hj hb
  have huniq : ∀ o, hLookup h₁ (remote_ptr v₁) = some o →
      kind v₁ ≠ some Kind.Inline → rcOf o = 1 := by
    intro o hlo hni
    obtain ⟨o₀, hlo₀, hrc₀⟩ := hpriv (by rw [← hkind]; exact hni)
    rw [hlo₀] at hlo
    exact (Option.some_inj.mp hlo) ▸ hrc₀
  obtain ⟨v₂, h₂, hws, hwf₂, hder₂, hkind₂, hext₂⟩ :=
    writeSys_spec hwf₁ hget hder₁ hj hb huniq
  refine ⟨v₂, h₂, hws, hder₂, ?_⟩
  intro k w hk hgw
  have hgw₁ : (s.live.set i v₁).get? k = some w := by
    rw [get?_set_ne s.live i k v₁ (fun hc => hk hc.symm)]
    exact hgw
  exact (hext₂ k w hk hgw₁).trans (hext w (List.get?_mem hgw))

theorem C7_make_mut_witness :
    sysWF ⟨[(17, HObj.small { rc := 2, len := 9 } (List.replicate 9 7))],
      [smallWord 17, smallWord 17]⟩ = true ∧
    ([smallWord 17, smallWord 17].get? 0 = some (smallWord 17)) ∧
    allocOK [(17, HObj.small { rc := 2, len := 9 } (List.replicate 9 7))]
      (viewLen [(17, HObj.small { rc := 2, len := 9 } (List.replicate 9 7))]
        (smallWord 17)) 40 = true ∧
    (∃ v₁ h₁ slice,
      makeMutSys ⟨[(17, HObj.small { rc := 2, len := 9 } (List.replicate 9 7))],
          [smallWord 17, smallWord 17]⟩ 0 40 =
        some (⟨h₁, [smallWord 17, smallWord 17].set 0 v₁⟩, slice) ∧
      derefIA [(17, HObj.small { rc := 2, len := 9 } (List.replicate 9 7))]
        (smallWord 17) = some slice ∧
      derefIA h₁ v₁ = some slice ∧
      (kind (smallWord 17) ≠ some Kind.Inline →
        ∃ o, hLookup h₁ (remote_ptr v₁) = some o ∧ rcOf o = 1) ∧
      (∀ k w, k ≠ 0 → [smallWord 17, smallWord 17].get? k = some w →
        derefIA h₁ w =
          derefIA [(17, HObj.small { rc := 2, len := 9 } (List.replicate 9 7))] w) ∧
      (∀ j b, j < slice.length → b < 256 →
        ∃ v₂ h₂,
          writeSys ⟨h₁, [smallWord 17, smallWord 17].set 0 v₁⟩ 0 j b =
            some ⟨h₂, ([smallWord 17, smallWord 17].set 0 v₁).set 0 v₂⟩ ∧
          derefIA h₂ v₂ = some (slice.set j b) ∧
          (∀ k w, k ≠ 0 → [smallWord 17, smallWord 17].get? k = some w →
            derefIA h₂ w =
              derefIA [(17, HObj.small { rc := 2, len := 9 }
                (List.replicate 9 7))] w))) :=
  ⟨by decide, by decide, by decide,
    C7_make_mut
      ⟨[(17, HObj.small { rc := 2, len := 9 } (List.replicate 9 7))],
        [smallWord 17, smallWord 17]⟩
      0 (smallWord 17) 40 (by decide) (by decide) (by decide)⟩

/-- C10: in a well-formed state every live value carries one of the three
defined tags (00, 01, 10) in the low 2 bits of its last byte — so the
undefined-behavior arm of the `kind` decoder (tag 11) is never reached —
the tag matches the value's length range (Inline ≤ 7, SmallRemote 8–255,
BigRemote 256–2^48-1), and the kind-guarded trailer/header accessors
succeed; the public operations preserve well-formedness, and clone
(saturation fallback included) and `make_mut` (privatization included)
reproduce the same variant. -/
theorem C10_tag_soundness (s : Sys) (slice : List Nat) (base i : Nat)
    (v : InlineArray) (freshBase : Nat)
    (hwf : sysWF s = true)
    (hbytes : ∀ b ∈ slice, b < 256) (h48 : slice.length < 2 ^ 48)
    (hallocn : allocOK s.heap slice.length base = true)
    (hg : s.live.get? i = some v)
    (hallocc : allocOK s.heap (viewLen s.heap v) freshBase = true) :
    (∀ w ∈ s.live,
      (tagOf w = INLINE_TRAILER_TAG ∨ tagOf w = SMALL_REMOTE_TRAILER_TAG ∨
        tagOf w = BIG_REMOTE_TRAILER_TAG) ∧
      kind w ≠ none ∧
      ∃ a, derefIA s.heap w = some a ∧
        ((kind w = some Kind.Inline ∧ a.length ≤ 7) ∨
         (kind w = some Kind.SmallRemote ∧ 8 ≤ a.length ∧ a.length ≤ 255 ∧
           (deref_small_trailer s.heap w).isSome = true) ∨
         (kind w = some Kind.BigRemote ∧ 256 ≤ a.length ∧ a.length < 2 ^ 48 ∧
           (deref_big_header s.heap w).isSome = true))) ∧
    (∃ v₁ h₁, newSys s slice base = some ⟨h₁, s.live ++ [v₁]⟩ ∧
      sysWF ⟨h₁, s.live ++ [v₁]⟩ = true ∧
      (slice.length ≤ 7 → kind v₁ = some Kind.Inline) ∧
      (8 ≤ slice.length → slice.length ≤ 255 → kind v₁ = some Kind.SmallRemote) ∧
      (256 ≤ slice.length → kind v₁ = some Kind.BigRemote)) ∧
    (∃ v₁ h₁, cloneSys s i freshBase = some ⟨h₁, s.live ++ [v₁]⟩ ∧
      sysWF ⟨h₁, s.live ++ [v₁]⟩ = true ∧ kind v₁ = kind v) ∧
    (∃ h₁ info, dropSys s i = some (⟨h₁, s.live.eraseIdx i⟩, info) ∧
      sysWF ⟨h₁, s.live.eraseIdx i⟩ = true) ∧
    (∃ v₁ h₁ slice₂,
      makeMutSys s i freshBase = some (⟨h₁, s.live.set i v₁⟩, slice₂) ∧
      sysWF ⟨h₁, s.live.set i v₁⟩ = true ∧ kind v₁ = kind v) := by
  obtain ⟨hH, hV, hC⟩ := sysWF_elim hwf
  refine ⟨?_, ?_, ?_, ?_, ?_⟩
  · intro w hw
    have hv := hV w hw
    have hkn := validVal_kind_ne_none hv
    have htag : tagOf w = INLINE_TRAILER_TAG ∨ tagOf w = SMALL_REMOTE_TRAILER_TAG ∨
        tagOf w = BIG_REMOTE_TRAILER_TAG := by
      by_cases h0 : tagOf w = INLINE_TRAILER_TAG
      · exact Or.inl h0
      · by_cases h1 : tagOf w = SMALL_REMOTE_TRAILER_TAG
        · exact Or.inr (Or.inl h1)
        · by_cases h2 : tagOf w = BIG_REMOTE_TRAILER_TAG
          · exact Or.inr (Or.inr h2)
          · exact absurd (by simp [kind, h0, h1, h2]) hkn
    refine ⟨htag, hkn, ?_⟩
    rcases hk : kind w with _ | k
    · exact absurd hk hkn
    · cases k
      · refine ⟨w.data.take (inline_len w), by simp [derefIA, hk],
          Or.inl ⟨rfl, ?_⟩⟩
        have h1 := (validVal_shape hv).1
        have h2 : inline_len w ≤ 7 := by
          simpa [INLINE_CUTOFF, SZ] using validVal_inline_len hv hk
        rw [List.length_take, h1]
        show min (inline_len w) SZ ≤ 7
        simp only [SZ]
        omega
      · obtain ⟨t, payload, hl⟩ := validVal_small_lookup hv hk
        have hent := (heapWF_elim hH).2 _ (mem_of_hLookup hl)
        obtain ⟨e1, e2, e3, e4, e5, e6, e7, e8⟩ := smallEntryOK_elim hent
        refine ⟨payload, derefIA_small_eq hk hl e1,
          Or.inr (Or.inl ⟨rfl, by omega, by omega, ?_⟩)⟩
        simp [deref_small_trailer, hl]
      · obtain ⟨hd, payload, hl⟩ := validVal_big_lookup hv hk
        have hent := (heapWF_elim hH).2 _ (mem_of_hLookup hl)
        obtain ⟨e1, e2, e3, e4, e5, e6, e7, e8⟩ := bigEntryOK_elim hent
        refine ⟨payload, derefIA_big_eq hk hl e1,
          Or.inr (Or.inr ⟨rfl, e3, e4, ?_⟩)⟩
        simp [deref_big_header, hl]
  · obtain ⟨v₁, h₁, hns, hnew, hwf₁, _, _, _, _, _, hinl, hksm, hkbg⟩ :=
      newSys_spec slice base hwf hbytes h48 hallocn
    exact ⟨v₁, h₁, hns, hwf₁, fun h7 => (hinl h7).2, hksm, hkbg⟩
  · obtain ⟨v₁, h₁, hcs, hwf₁, _, _, hkind⟩ :=
      cloneSys_spec freshBase hwf hg hallocc
    exact ⟨v₁, h₁, hcs, hwf₁, hkind⟩
  · obtain ⟨h₁, info, hds, hwf₁, _, _, _, _⟩ := dropSys_spec hwf hg
    exact ⟨h₁, info, hds, hwf₁⟩
  · obtain ⟨v₁, h₁, sl, hmk, hwf₁, _, _, hkind, _, _, _⟩ :=
      makeMutSys_spec freshBase hwf hg hallocc
    exact ⟨v₁, h₁, sl, hmk, hwf₁, hkind⟩

theorem C10_tag_soundness_witness :
    sysWF ⟨[(17, HObj.small { rc := 2, len := 9 } (List.replicate 9 7))],
      [smallWord 17, smallWord 17]⟩ = true ∧
    (∀ b ∈ [1, 2, 3], b < 256) ∧
    ([1, 2, 3].length < 2 ^ 48) ∧
    allocOK [(17, HObj.small { rc := 2, len := 9 } (List.replicate 9 7))]
      [1, 2, 3].length 32 = true ∧
    ([smallWord 17, smallWord 17].get? 0 = some (smallWord 17)) ∧
    allocOK [(17, HObj.small { rc := 2, len := 9 } (List.replicate 9 7))]
      (viewLen [(17, HObj.small { rc := 2, len := 9 } (List.replicate 9 7))]
        (smallWord 17)) 48 = true ∧
    ((∀ w ∈ [smallWord 17, smallWord 17],
      (tagOf w = INLINE_TRAILER_TAG ∨ tagOf w = SMALL_REMOTE_TRAILER_TAG ∨
        tagOf w = BIG_REMOTE_TRAILER_TAG) ∧
      kind w ≠ none ∧
      ∃ a, derefIA [(17, HObj.small { rc := 2, len := 9 }
          (List.replicate 9 7))] w = some a ∧
        ((kind w = some Kind.Inline ∧ a.length ≤ 7) ∨
         (kind w = some Kind.SmallRemote ∧ 8 ≤ a.length ∧ a.length ≤ 255 ∧
           (deref_small_trailer [(17, HObj.small { rc := 2, len := 9 }
             (List.replicate 9 7))] w).isSome = true) ∨
         (kind w = some Kind.BigRemote ∧ 256 ≤ a.length ∧ a.length < 2 ^ 48 ∧
           (deref_big_header [(17, HObj.small { rc := 2, len := 9 }
             (List.replicate 9 7))] w).isSome = true))) ∧
    (∃ v₁ h₁, newSys ⟨[(17, HObj.small { rc := 2, len := 9 }
          (List.replicate 9 7))], [smallWord 17, smallWord 17]⟩ [1, 2, 3] 32 =
        some ⟨h₁, [smallWord 17, smallWord 17] ++ [v₁]⟩ ∧
      sysWF ⟨h₁, [smallWord 17, smallWord 17] ++ [v₁]⟩ = true ∧
      ([1, 2, 3].length ≤ 7 → kind v₁ = some Kind.Inline) ∧
      (8 ≤ [1, 2, 3].length → [1, 2, 3].length ≤ 255 →
        kind v₁ = some Kind.SmallRemote) ∧
      (256 ≤ [1, 2, 3].length → kind v₁ = some Kind.BigRemote)) ∧
    (∃ v₁ h₁, cloneSys ⟨[(17, HObj.small { rc := 2, len := 9 }
          (List.replicate 9 7))], [smallWord 17, smallWord 17]⟩ 0 48 =
        some ⟨h₁, [smallWord 17, smallWord 17] ++ [v₁]⟩ ∧
      sysWF ⟨h₁, [smallWord 17, smallWord 17] ++ [v₁]⟩ = true ∧
      kind v₁ = kind (smallWord 17)) ∧
    (∃ h₁ info, dropSys ⟨[(17, HObj.small { rc := 2, len := 9 }
          (List.replicate 9 7))], [smallWord 17, smallWord 17]⟩ 0 =
        some (⟨h₁, [smallWord 17, smallWord 17].eraseIdx 0⟩, info) ∧
      sysWF ⟨h₁, [smallWord 17, smallWord 17].eraseIdx 0⟩ = true) ∧
    (∃ v₁ h₁ slice₂,
      makeMutSys ⟨[(17, HObj.small { rc := 2, len := 9 }
          (List.replicate 9 7))], [smallWord 17, smallWord 17]⟩ 0 48 =
        some (⟨h₁, [smallWord 17, smallWord 17].set 0 v₁⟩, slice₂) ∧
      sysWF ⟨h₁, [smallWord 17, smallWord 17].set 0 v₁⟩ = true ∧
      kind v₁ = kind (smallWord 17))) :=
  ⟨by decide, by decide, by decide, by decide, by decide, by decide,
    C10_tag_soundness
      ⟨[(17, HObj.small { rc := 2, len := 9 } (List.replicate 9 7))],
        [smallWord 17, smallWord 17]⟩
      [1, 2, 3] 32 0 (smallWord 17) 48
      (by decide) (by decide) (by decide) (by decide) (by decide) (by decide)⟩

end InlineArr
